import Mathlib

/-!
# Checkers: board state, move generator, evaluation and search

A shallow embedding of `Models/Move.h`, `Game/Board.h` and of the move generator, the
evaluation and the search of `Game/Logic.h`, followed by theorems about them.

Conventions of the embedding

* `POS_T` (`int8_t`) coordinates and cell codes are `Int`; every value that occurs
  lies in `-2 .. 9`, far from the 8-bit range, so no wrap-around is modelled.
  C++ `/` and `%` on signed integers are `Int.tdiv` and `Int.tmod`.
* `vector<vector<POS_T>>` is `List (List Int)`. Reading outside the vectors is
  undefined behaviour in C++; here such a read yields `0` and such a write is
  dropped.
* A `bool` colour is `Bool`: `false` is White (odd codes), `true` is Black.
* A call that can `throw` returns the object state it leaves behind together with
  the message thrown, if any.
* A `double` is an exact rational (`ℚ`): the counters of `calc_score` are sums of a few
  multiples of 0.05 and the search only compares, takes `min` / `max` and adds or
  subtracts 1; the rounding of the one division of `calc_score` is not modelled.
* The members of `Logic` that the search reads and writes are passed explicitly:
  `Settings` (read only), `Logic σ` (`turns`, `have_beats` and the state `σ` of the random
  engine) and `Plan` (`next_move`, `next_best_state`). `std::shuffle` is a function
  `sh : σ → List move_pos → List move_pos × σ`.
* The recursive functions of the search take a bound on the depth of the recursion as
  their first argument and return `none` when it is used up; the theorems give bounds
  from which on they return.
-/

namespace Checkers

/-! ## Models/Move.h -/

/-- The struct `move_pos`: source, destination and beaten square (`-1` when no
piece is beaten). -/
structure move_pos where
  x : Int
  y : Int
  x2 : Int
  y2 : Int
  xb : Int := -1
  yb : Int := -1
deriving DecidableEq, Repr

/-! ## The grid -/

/-- The type of `mtx`: rows of cell codes
(0 empty, 1 white man, 2 black man, 3 white king, 4 black king). -/
abbrev Grid := List (List Int)

/-- The read `mtx[i][j]`. -/
def cell (mtx : Grid) (i j : Int) : Int :=
  if 0 ≤ i ∧ 0 ≤ j then (mtx.getD i.toNat []).getD j.toNat 0 else 0

/-- The write `mtx[i][j] = v`. -/
def setCell (mtx : Grid) (i j : Int) (v : Int) : Grid :=
  if 0 ≤ i ∧ 0 ≤ j then mtx.set i.toNat ((mtx.getD i.toNat []).set j.toNat v) else mtx

/-- Index range of the loops `for (POS_T i = 0; i < 8; ++i)`. -/
def idx8 : List Int := [0, 1, 2, 3, 4, 5, 6, 7]

/-- Squares in the order of the nested loops `for i ... for j ...`. -/
def allSquares : List (Int × Int) := idx8.flatMap fun i => idx8.map fun j => (i, j)

/-- An 8x8 board whose cells hold one of the five codes. -/
def validGrid (mtx : Grid) : Prop :=
  mtx.length = 8 ∧ ∀ r ∈ mtx, r.length = 8 ∧ ∀ v ∈ r, 0 ≤ v ∧ v ≤ 4

instance (mtx : Grid) : Decidable (validGrid mtx) := by
  unfold validGrid; infer_instance

/-- The shape of `mtx`: eight rows of eight cells. -/
def is8x8 (mtx : Grid) : Prop := mtx.length = 8 ∧ ∀ r ∈ mtx, r.length = 8

instance (mtx : Grid) : Decidable (is8x8 mtx) := by
  unfold is8x8; infer_instance

/-- Coordinates on the board. -/
def onBoard (i j : Int) : Prop := 0 ≤ i ∧ i ≤ 7 ∧ 0 ≤ j ∧ j ≤ 7

instance (i j : Int) : Decidable (onBoard i j) := by
  unfold onBoard; infer_instance

/-- White codes. -/
def isWhite (v : Int) : Prop := v = 1 ∨ v = 3

/-- Black codes. -/
def isBlack (v : Int) : Prop := v = 2 ∨ v = 4

/-- Man codes. -/
def isMan (v : Int) : Prop := v = 1 ∨ v = 2

/-- King codes. -/
def isKing (v : Int) : Prop := v = 3 ∨ v = 4

/-- Two codes are pieces of different colours. -/
def opposite (a b : Int) : Prop := (isWhite a ∧ isBlack b) ∨ (isBlack a ∧ isWhite b)

instance (v : Int) : Decidable (isWhite v) := by unfold isWhite; infer_instance
instance (v : Int) : Decidable (isBlack v) := by unfold isBlack; infer_instance
instance (v : Int) : Decidable (isMan v) := by unfold isMan; infer_instance
instance (v : Int) : Decidable (isKing v) := by unfold isKing; infer_instance
instance (a b : Int) : Decidable (opposite a b) := by unfold opposite; infer_instance

/-- The code is a piece of colour `color` (`false` White, `true` Black). -/
def hasColor (color : Bool) (v : Int) : Prop := if color then isBlack v else isWhite v

instance (c : Bool) (v : Int) : Decidable (hasColor c v) := by
  unfold hasColor; infer_instance

/-! ## Game/Board.h -/

/-- The data members of `Board` that the rules engine uses. -/
structure Board where
  mtx : Grid
  history_mtx : List Grid
  history_beat_series : List Int
deriving DecidableEq, Repr

/-- `Board::add_history`. -/
def Board.add_history (b : Board) (beat_series : Int := 0) : Board :=
  { b with
    history_mtx := b.history_mtx ++ [b.mtx]
    history_beat_series := b.history_beat_series ++ [beat_series] }

/-- `Board::drop_piece` (the repaint has no effect on the members modelled). -/
def Board.drop_piece (b : Board) (i j : Int) : Board :=
  { b with mtx := setCell b.mtx i j 0 }

/-- `Board::move_piece(i, j, i2, j2, beat_series)`: the board after the call and
the message of the exception thrown, if any. -/
def Board.move_piece_ij (b : Board) (i j i2 j2 : Int) (beat_series : Int := 0) :
    Board × Option String :=
  if cell b.mtx i2 j2 ≠ 0 then
    (b, some "final position is not empty, can't move")
  else if cell b.mtx i j = 0 then
    (b, some "begin position is empty, can't move")
  else
    let b1 : Board :=
      if (cell b.mtx i j = 1 ∧ i2 = 0) ∨ (cell b.mtx i j = 2 ∧ i2 = 7) then
        { b with mtx := setCell b.mtx i j (cell b.mtx i j + 2) }
      else b
    let b2 : Board := { b1 with mtx := setCell b1.mtx i2 j2 (cell b1.mtx i j) }
    let b3 := b2.drop_piece i j
    (b3.add_history beat_series, none)

/-- `Board::move_piece(move_pos turn, beat_series)`. -/
def Board.move_piece (b : Board) (turn : move_pos) (beat_series : Int := 0) :
    Board × Option String :=
  let b1 : Board :=
    if turn.xb ≠ -1 then { b with mtx := setCell b.mtx turn.xb turn.yb 0 } else b
  b1.move_piece_ij turn.x turn.y turn.x2 turn.y2 beat_series

/-- The loop `while (beat_series-- && history_mtx.size() > 1)` of
`Board::rollback`, on a positive counter. -/
def rollback_loop : Nat → List Grid → List Int → List Grid × List Int
  | 0, hm, hb => (hm, hb)
  | n + 1, hm, hb =>
    if hm.length > 1 then rollback_loop n hm.dropLast hb.dropLast else (hm, hb)

/-- `Board::rollback`. `none` stands for the undefined behaviour of reading
`*rbegin()` of an empty vector. -/
def Board.rollback (b : Board) : Option Board :=
  match b.history_beat_series.getLast? with
  | none => none
  | some last =>
    let beat_series : Int := max 1 last
    let r := rollback_loop beat_series.toNat b.history_mtx b.history_beat_series
    match r.1.getLast? with
    | none => none
    | some g => some { mtx := g, history_mtx := r.1, history_beat_series := r.2 }

/-- The body of the loops of `Board::make_start_mtx` for one square. -/
def start_cell (mtx : Grid) (ij : Int × Int) : Grid :=
  let i := ij.1
  let j := ij.2
  let m0 := setCell mtx i j 0
  let m1 := if i < 3 ∧ (i + j).tmod 2 = 1 then setCell m0 i j 2 else m0
  if i > 4 ∧ (i + j).tmod 2 = 1 then setCell m1 i j 1 else m1

/-- `Board::make_start_mtx`. -/
def Board.make_start_mtx (b : Board) : Board :=
  Board.add_history { b with mtx := allSquares.foldl start_cell b.mtx }

/-- `Board::redraw` (the members reset besides the grid and history are not
modelled). -/
def Board.redraw (b : Board) : Board :=
  Board.make_start_mtx { b with history_mtx := [], history_beat_series := [] }

/-- The member initialiser of `mtx`: `vector<vector<POS_T>>(8, vector<POS_T>(8, 0))`. -/
def emptyGrid : Grid := List.replicate 8 (List.replicate 8 0)

/-- A default-constructed `Board`. -/
def Board.new : Board := { mtx := emptyGrid, history_mtx := [], history_beat_series := [] }

/-- `Board::start_draw` when SDL initialisation succeeds. -/
def Board.start_draw (b : Board) : Board := b.make_start_mtx

/-! ## Game/Logic.h: the move generator -/

/-- The members `turns` and `have_beats` of `Logic`, as left by `find_turns`. -/
structure Turns where
  turns : List move_pos
  have_beats : Bool
deriving DecidableEq, Repr

/-- Capture loop of a man in `find_turns(x, y, mtx)`:
`i` runs over `x - 2, x + 2` and `j` over `y - 2, y + 2`. -/
def man_beats (mtx : Grid) (type x y : Int) : List move_pos :=
  [x - 2, x + 2].flatMap fun i =>
    [y - 2, y + 2].filterMap fun j =>
      if i < 0 ∨ i > 7 ∨ j < 0 ∨ j > 7 then none
      else
        let xb := (x + i).tdiv 2
        let yb := (y + j).tdiv 2
        if cell mtx i j ≠ 0 ∨ cell mtx xb yb = 0 ∨
            (cell mtx xb yb).tmod 2 = type.tmod 2 then none
        else some ⟨x, y, i, j, xb, yb⟩

/-- What the capture loop of a man appends for the landing square `(i, j)`. -/
def man_cand (mtx : Grid) (type x y i j : Int) : List move_pos :=
  if i < 0 ∨ i > 7 ∨ j < 0 ∨ j > 7 then []
  else if cell mtx i j ≠ 0 ∨ cell mtx ((x + i).tdiv 2) ((y + j).tdiv 2) = 0 ∨
      (cell mtx ((x + i).tdiv 2) ((y + j).tdiv 2)).tmod 2 = type.tmod 2 then []
  else [⟨x, y, i, j, (x + i).tdiv 2, (y + j).tdiv 2⟩]

/-- The loop condition `i2 != 8 && j2 != 8 && i2 != -1 && j2 != -1` of the king scans. -/
def rayGuard (a b : Int) : Prop := a ≠ 8 ∧ b ≠ 8 ∧ a ≠ -1 ∧ b ≠ -1

/-- Innermost capture loop of a king, for one direction `(i, j)`, from loop state
`(i2, j2, xb, yb)`; the list is what the loop appends to `turns`. The first
argument bounds the number of iterations. -/
def king_beats_ray (mtx : Grid) (type x y i j : Int) :
    Nat → Int → Int → Int → Int → List move_pos
  | 0, _, _, _, _ => []
  | fuel + 1, i2, j2, xb, yb =>
    if i2 ≠ 8 ∧ j2 ≠ 8 ∧ i2 ≠ -1 ∧ j2 ≠ -1 then
      if cell mtx i2 j2 ≠ 0 ∧
          ((cell mtx i2 j2).tmod 2 = type.tmod 2 ∨
            ((cell mtx i2 j2).tmod 2 ≠ type.tmod 2 ∧ xb ≠ -1)) then []
      else
        let xb1 := if cell mtx i2 j2 ≠ 0 then i2 else xb
        let yb1 := if cell mtx i2 j2 ≠ 0 then j2 else yb
        (if xb1 ≠ -1 ∧ xb1 ≠ i2 then [(⟨x, y, i2, j2, xb1, yb1⟩ : move_pos)] else []) ++
          king_beats_ray mtx type x y i j fuel (i2 + i) (j2 + j) xb1 yb1
    else []

/-- Capture loops of a king in `find_turns(x, y, mtx)`. A ray leaves the board
after at most eight steps. -/
def king_beats (mtx : Grid) (type x y : Int) : List move_pos :=
  [-1, 1].flatMap fun i =>
    [-1, 1].flatMap fun j =>
      king_beats_ray mtx type x y i j 8 (x + i) (y + j) (-1) (-1)

/-- Ordinary moves of a man in `find_turns(x, y, mtx)`. -/
def man_steps (mtx : Grid) (type x y : Int) : List move_pos :=
  let i := if type.tmod 2 ≠ 0 then x - 1 else x + 1
  [y - 1, y + 1].filterMap fun j =>
    if i < 0 ∨ i > 7 ∨ j < 0 ∨ j > 7 ∨ cell mtx i j ≠ 0 then none
    else some ⟨x, y, i, j, -1, -1⟩

/-- Innermost loop of the ordinary moves of a king, for one direction. -/
def king_steps_ray (mtx : Grid) (x y i j : Int) : Nat → Int → Int → List move_pos
  | 0, _, _ => []
  | fuel + 1, i2, j2 =>
    if i2 ≠ 8 ∧ j2 ≠ 8 ∧ i2 ≠ -1 ∧ j2 ≠ -1 then
      if cell mtx i2 j2 ≠ 0 then []
      else ⟨x, y, i2, j2, -1, -1⟩ :: king_steps_ray mtx x y i j fuel (i2 + i) (j2 + j)
    else []

/-- Ordinary moves of a king in `find_turns(x, y, mtx)`. -/
def king_steps (mtx : Grid) (x y : Int) : List move_pos :=
  [-1, 1].flatMap fun i =>
    [-1, 1].flatMap fun j =>
      king_steps_ray mtx x y i j 8 (x + i) (y + j)

/-- The capture phase of `find_turns(x, y, mtx)`: the first `switch (type)`. -/
def beats_of (x y : Int) (mtx : Grid) : List move_pos :=
  let type := cell mtx x y
  if type = 1 ∨ type = 2 then man_beats mtx type x y else king_beats mtx type x y

/-- The ordinary-move phase of `find_turns(x, y, mtx)`: the second `switch (type)`. -/
def steps_of (x y : Int) (mtx : Grid) : List move_pos :=
  let type := cell mtx x y
  if type = 1 ∨ type = 2 then man_steps mtx type x y else king_steps mtx x y

/-- `Logic::find_turns(x, y, mtx)`. -/
def find_turns (x y : Int) (mtx : Grid) : Turns :=
  if beats_of x y mtx ≠ [] then ⟨beats_of x y mtx, true⟩
  else ⟨steps_of x y mtx, false⟩

/-- The test `mtx[i][j] && mtx[i][j] % 2 != color` of `find_turns(color, mtx)`. -/
def ownTest (color : Bool) (mtx : Grid) (ij : Int × Int) : Bool :=
  decide (cell mtx ij.1 ij.2 ≠ 0 ∧ (cell mtx ij.1 ij.2).tmod 2 ≠ (if color then 1 else 0))

/-- The piece on the square has a capture. -/
def beatTest (mtx : Grid) (ij : Int × Int) : Bool := (find_turns ij.1 ij.2 mtx).have_beats

/-- The loop state `(res_turns, have_beats_before)` of `find_turns(color, mtx)`
after the body has run for square `ij`. -/
def color_step (color : Bool) (mtx : Grid) (acc : List move_pos × Bool) (ij : Int × Int) :
    List move_pos × Bool :=
  if cell mtx ij.1 ij.2 ≠ 0 ∧ (cell mtx ij.1 ij.2).tmod 2 ≠ (if color then 1 else 0) then
    let t := find_turns ij.1 ij.2 mtx
    let acc1 : List move_pos × Bool :=
      if t.have_beats = true ∧ acc.2 = false then ([], true) else acc
    if (acc1.2 = true ∧ t.have_beats = true) ∨ acc1.2 = false then
      (acc1.1 ++ t.turns, acc1.2)
    else acc1
  else acc

/-- `Logic::find_turns(color, mtx)`. The argument `shuffle` is the effect of
`std::shuffle(turns.begin(), turns.end(), rand_eng)` on the list. -/
def find_turns_color (shuffle : List move_pos → List move_pos) (color : Bool) (mtx : Grid) :
    Turns :=
  let r := allSquares.foldl (color_step color mtx) ([], false)
  ⟨shuffle r.1, r.2⟩

/-- `Logic::make_turn`. -/
def make_turn (mtx : Grid) (turn : move_pos) : Grid :=
  let m1 := if turn.xb ≠ -1 then setCell mtx turn.xb turn.yb 0 else mtx
  let m2 :=
    if (cell m1 turn.x turn.y = 1 ∧ turn.x2 = 0) ∨ (cell m1 turn.x turn.y = 2 ∧ turn.x2 = 7) then
      setCell m1 turn.x turn.y (cell m1 turn.x turn.y + 2)
    else m1
  let m3 := setCell m2 turn.x2 turn.y2 (cell m2 turn.x turn.y)
  setCell m3 turn.x turn.y 0

/-- The statement `if (turn.xb != -1) mtx[turn.xb][turn.yb] = 0;` that opens both
`Board::move_piece(turn, beat_series)` and `Logic::make_turn`. -/
def drop_beaten (mtx : Grid) (turn : move_pos) : Grid :=
  if turn.xb ≠ -1 then setCell mtx turn.xb turn.yb 0 else mtx

/-- The promotion statement of `Board::move_piece` and `Logic::make_turn`:
`if ((mtx[x][y] == 1 && x2 == 0) || (mtx[x][y] == 2 && x2 == 7)) mtx[x][y] += 2;`. -/
def promote_src (mtx : Grid) (turn : move_pos) : Grid :=
  if (cell mtx turn.x turn.y = 1 ∧ turn.x2 = 0) ∨ (cell mtx turn.x turn.y = 2 ∧ turn.x2 = 7) then
    setCell mtx turn.x turn.y (cell mtx turn.x turn.y + 2)
  else mtx

/-- The code `q` is what a piece `p` moved to row `r` becomes: a king stays, a white man
on row 0 and a black man on row 7 become the king of their colour, anything else is
unchanged. -/
def promotesTo (p r q : Int) : Prop :=
  (isKing p → q = p) ∧ (p = 1 ∧ r = 0 → q = 3) ∧ (p = 2 ∧ r = 7 → q = 4) ∧
    (¬ isKing p ∧ ¬ (p = 1 ∧ r = 0) ∧ ¬ (p = 2 ∧ r = 7) → q = p)

/-- The loop of `Game::bot_turn` that plays the moves found: the counter
`beat_series` grows by one on each capturing move and is passed to
`Board::move_piece`. The loop stops at the first exception. -/
def bot_apply : Board → Int → List move_pos → Board × Option String
  | b, _, [] => (b, none)
  | b, beat_series, turn :: rest =>
    let bs := beat_series + (if turn.xb ≠ -1 then 1 else 0)
    match b.move_piece turn bs with
    | (b1, none) => bot_apply b1 bs rest
    | (b1, some e) => (b1, some e)

/-! ## Sample positions -/

/-- A position with a white man on (4,3) that can beat the black man on (3,2), a second
white man on (5,6) and a second black man on (1,6). -/
def scenarioGrid : Grid :=
  [[0, 0, 0, 0, 0, 0, 0, 0],
   [0, 0, 0, 0, 0, 0, 2, 0],
   [0, 0, 0, 0, 0, 0, 0, 0],
   [0, 0, 2, 0, 0, 0, 0, 0],
   [0, 0, 0, 1, 0, 0, 0, 0],
   [0, 0, 0, 0, 0, 0, 1, 0],
   [0, 0, 0, 0, 0, 0, 0, 0],
   [0, 0, 0, 0, 0, 0, 0, 0]]

/-- A position with a white man on (5,2) next to a black man on (4,3), whose far side
(3,4) is held by another black man. -/
def sampleGrid : Grid :=
  [[0, 0, 0, 0, 0, 0, 0, 0],
   [0, 0, 0, 0, 0, 0, 0, 0],
   [0, 0, 0, 0, 0, 0, 0, 0],
   [0, 0, 0, 0, 2, 0, 0, 0],
   [0, 0, 0, 2, 0, 0, 0, 0],
   [0, 0, 1, 0, 0, 0, 0, 0],
   [0, 0, 0, 0, 0, 0, 0, 0],
   [0, 0, 0, 0, 0, 0, 0, 0]]

/-- A position with a white king on (5,2), a black man on (3,4) it can beat, and a white
man on (6,1) behind it. -/
def kingGrid : Grid :=
  [[0, 0, 0, 0, 0, 0, 0, 0],
   [0, 0, 0, 0, 0, 0, 0, 0],
   [0, 0, 0, 0, 0, 0, 0, 0],
   [0, 0, 0, 0, 2, 0, 0, 0],
   [0, 0, 0, 0, 0, 0, 0, 0],
   [0, 0, 3, 0, 0, 0, 0, 0],
   [0, 1, 0, 0, 0, 0, 0, 0],
   [0, 0, 0, 0, 0, 0, 0, 0]]

/-- A position with a white man on (1,2), one step from row 0. -/
def promoGrid : Grid :=
  [[0, 0, 0, 0, 0, 0, 0, 0],
   [0, 0, 1, 0, 0, 0, 0, 0],
   [0, 0, 0, 0, 0, 0, 0, 0],
   [0, 0, 0, 0, 0, 2, 0, 0],
   [0, 0, 0, 0, 0, 0, 0, 0],
   [0, 0, 0, 0, 0, 0, 0, 0],
   [0, 0, 0, 0, 0, 0, 0, 0],
   [0, 0, 0, 0, 0, 0, 0, 0]]

/-! ## Game/Logic.h: the evaluator -/

/-- The constant `INF` (`const int INF = 1e9`), as the `double` it is returned as. -/
def INF : ℚ := 1000000000

/-- The body of the loops of `Logic::calc_score` for one square, on the counters
`(w, wq, b, bq)`. -/
def score_step (scoring_mode : String) (mtx : Grid) (acc : ℚ × ℚ × ℚ × ℚ) (ij : Int × Int) :
    ℚ × ℚ × ℚ × ℚ :=
  let w := acc.1 + (if cell mtx ij.1 ij.2 = 1 then 1 else 0)
  let wq := acc.2.1 + (if cell mtx ij.1 ij.2 = 3 then 1 else 0)
  let b := acc.2.2.1 + (if cell mtx ij.1 ij.2 = 2 then 1 else 0)
  let bq := acc.2.2.2 + (if cell mtx ij.1 ij.2 = 4 then 1 else 0)
  if scoring_mode = "NumberAndPotential" then
    (w + 0.05 * (if cell mtx ij.1 ij.2 = 1 then 1 else 0) * ((7 - ij.1 : Int) : ℚ), wq,
      b + 0.05 * (if cell mtx ij.1 ij.2 = 2 then 1 else 0) * ((ij.1 : Int) : ℚ), bq)
  else (w, wq, b, bq)

/-- `Logic::calc_score`. -/
def calc_score (scoring_mode : String) (mtx : Grid) (first_bot_color : Bool) : ℚ :=
  let c := allSquares.foldl (score_step scoring_mode mtx) (0, 0, 0, 0)
  let s : ℚ × ℚ × ℚ × ℚ :=
    if first_bot_color = false then (c.2.2.1, c.2.2.2, c.1, c.2.1) else c
  if s.1 + s.2.1 = 0 then INF
  else if s.2.2.1 + s.2.2.2 = 0 then 0
  else
    let q_coef : ℚ := if scoring_mode = "NumberAndPotential" then 5 else 4
    (s.2.2.1 + s.2.2.2 * q_coef) / (s.1 + s.2.1 * q_coef)

/-- Number of squares holding the code `v`. -/
def countCode (mtx : Grid) (v : Int) : Nat :=
  allSquares.countP fun ij => decide (cell mtx ij.1 ij.2 = v)

/-- Sum, over the squares holding the code `v`, of the weight `adv` of the row. -/
def rowSum (mtx : Grid) (v : Int) (adv : Int → Int) : Int :=
  (allSquares.map fun ij => if cell mtx ij.1 ij.2 = v then adv ij.1 else 0).sum

/-- Code of a man of the colour (`false` White, `true` Black). -/
def manOf (color : Bool) : Int := if color then 2 else 1

/-- Code of a king of the colour. -/
def kingOf (color : Bool) : Int := if color then 4 else 3

/-- Rows between a man of the colour on row `i` and its promotion row (row 0 for White,
row 7 for Black). -/
def rowsToGo (color : Bool) (i : Int) : Int := if color then 7 - i else i

/-- Rows a man of the colour on row `i` has behind it, counted from the far edge: the
factor the position-aware mode multiplies by 0.05. -/
def rowsDone (color : Bool) (i : Int) : Int := if color then i else 7 - i

/-- Number of pieces of the colour. -/
def piecesOf (mtx : Grid) (color : Bool) : Nat :=
  countCode mtx (manOf color) + countCode mtx (kingOf color)

/-- What the men of the colour add to their counter in `calc_score`: one each, plus in the
mode "NumberAndPotential" 0.05 times `rowsDone`. -/
def menValue (scoring_mode : String) (mtx : Grid) (color : Bool) : ℚ :=
  (countCode mtx (manOf color) : ℚ) +
    (if scoring_mode = "NumberAndPotential" then
      0.05 * ((rowSum mtx (manOf color) (rowsDone color) : Int) : ℚ) else 0)

/-- A position with a white man on (6,1) and a black man on (0,1). -/
def potGrid : Grid :=
  [[0, 2, 0, 0, 0, 0, 0, 0],
   [0, 0, 0, 0, 0, 0, 0, 0],
   [0, 0, 0, 0, 0, 0, 0, 0],
   [0, 0, 0, 0, 0, 0, 0, 0],
   [0, 0, 0, 0, 0, 0, 0, 0],
   [0, 0, 0, 0, 0, 0, 0, 0],
   [0, 1, 0, 0, 0, 0, 0, 0],
   [0, 0, 0, 0, 0, 0, 0, 0]]

/-- The starting position: black men on the dark squares of rows 0 to 2, white men on the
dark squares of rows 5 to 7. -/
def startGrid : Grid :=
  [[0, 2, 0, 2, 0, 2, 0, 2],
   [2, 0, 2, 0, 2, 0, 2, 0],
   [0, 2, 0, 2, 0, 2, 0, 2],
   [0, 0, 0, 0, 0, 0, 0, 0],
   [0, 0, 0, 0, 0, 0, 0, 0],
   [1, 0, 1, 0, 1, 0, 1, 0],
   [0, 1, 0, 1, 0, 1, 0, 1],
   [1, 0, 1, 0, 1, 0, 1, 0]]

/-- The code `make_start_mtx` leaves on square `(i, j)`. -/
def startVal (i j : Int) : Int :=
  if i > 4 ∧ (i + j).tmod 2 = 1 then 1 else if i < 3 ∧ (i + j).tmod 2 = 1 then 2 else 0

/-! ## Game/Logic.h: the search -/

/-- The members `Max_depth`, `scoring_mode` and `optimization` of `Logic`, which the
search reads and never writes. -/
structure Settings where
  Max_depth : Int
  scoring_mode : String
  optimization : String
deriving DecidableEq, Repr

/-- The members of `Logic` that `find_turns` writes: `turns`, `have_beats` and the state
of `rand_eng` (of an arbitrary type `σ`). -/
structure Logic (σ : Type) where
  turns : List move_pos
  have_beats : Bool
  rand_eng : σ

/-- The members of `Logic` that `find_first_best_turn` writes. -/
structure Plan where
  next_move : List move_pos
  next_best_state : List Int
deriving DecidableEq, Repr

/-- The call `find_turns(x, y, mtx)` as it acts on the members of `Logic`. -/
def Logic.find_turns_xy {σ : Type} (L : Logic σ) (x y : Int) (mtx : Grid) : Logic σ :=
  { L with turns := (find_turns x y mtx).turns, have_beats := (find_turns x y mtx).have_beats }

/-- The call `find_turns(color, mtx)` as it acts on the members of `Logic`; `sh` is
`std::shuffle` on a list and an engine state. -/
def Logic.find_turns_color {σ : Type} (sh : σ → List move_pos → List move_pos × σ)
    (L : Logic σ) (color : Bool) (mtx : Grid) : Logic σ :=
  let r := allSquares.foldl (color_step color mtx) ([], false)
  { turns := (sh L.rand_eng r.1).1, have_beats := r.2, rand_eng := (sh L.rand_eng r.1).2 }

/-- The loop `for (auto turn : turns_now)` of `find_best_turns_rec`. `call` is the
recursive call made for a move, `odd` is `depth % 2`, `prune` is `optimization != "O0"`;
the loop state is the engine state and `min_score`, `max_score`, `alpha`, `beta`. -/
def rec_loop {σ : Type} (call : Logic σ → move_pos → ℚ → ℚ → Option (ℚ × Logic σ))
    (odd prune : Bool) : List move_pos → Logic σ → ℚ → ℚ → ℚ → ℚ → Option (ℚ × Logic σ)
  | [], L, min_score, max_score, _, _ => some (if odd then max_score else min_score, L)
  | turn :: rest, L, min_score, max_score, alpha, beta =>
    match call L turn alpha beta with
    | none => none
    | some (score, L1) =>
      let min_score1 := min min_score score
      let max_score1 := max max_score score
      let alpha1 := if odd then max alpha max_score1 else alpha
      let beta1 := if odd then beta else min beta min_score1
      if prune = true ∧ alpha1 ≥ beta1 then
        some (if odd then max_score1 + 1 else min_score1 - 1, L1)
      else rec_loop call odd prune rest L1 min_score1 max_score1 alpha1 beta1

/-- `Logic::find_best_turns_rec`. The first argument bounds the depth of the recursion;
`none` means the bound was too small. -/
def find_best_turns_rec {σ : Type} (sh : σ → List move_pos → List move_pos × σ)
    (cfg : Settings) :
    Nat → Logic σ → Grid → Bool → Nat → ℚ → ℚ → Int → Int → Option (ℚ × Logic σ)
  | 0, _, _, _, _, _, _, _, _ => none
  | fuel + 1, L, mtx, color, depth, alpha, beta, x, y =>
    if (depth : Int) = cfg.Max_depth then
      some (calc_score cfg.scoring_mode mtx (decide (depth % 2 = if color then 1 else 0)), L)
    else
      let L1 := if x ≠ -1 then L.find_turns_xy x y mtx else L.find_turns_color sh color mtx
      if L1.have_beats = false ∧ x ≠ -1 then
        find_best_turns_rec sh cfg fuel L1 mtx (!color) (depth + 1) alpha beta (-1) (-1)
      else if L1.turns = [] then
        some (if depth % 2 ≠ 0 then 0 else INF, L1)
      else
        rec_loop
          (fun L2 turn a b =>
            if L1.have_beats = false ∧ x = -1 then
              find_best_turns_rec sh cfg fuel L2 (make_turn mtx turn) (!color) (depth + 1) a b
                (-1) (-1)
            else
              find_best_turns_rec sh cfg fuel L2 (make_turn mtx turn) color depth a b
                turn.x2 turn.y2)
          (decide (depth % 2 ≠ 0)) (decide (cfg.optimization ≠ "O0")) L1.turns L1
          (INF + 1) (-1) alpha beta

/-- The loop `for (auto turn : turns_now)` of `find_first_best_turn` for the state
`state`. `call` is the call made for a move, given `next_state` and `best_score`. -/
def first_loop {σ : Type}
    (call : Logic σ → Plan → move_pos → Nat → ℚ → Option (ℚ × Logic σ × Plan))
    (have_beats_now : Bool) (state : Nat) :
    List move_pos → Logic σ → Plan → ℚ → Option (ℚ × Logic σ × Plan)
  | [], L, P, best_score => some (best_score, L, P)
  | turn :: rest, L, P, best_score =>
    match call L P turn P.next_move.length best_score with
    | none => none
    | some (score, L1, P1) =>
      if score > best_score then
        first_loop call have_beats_now state rest L1
          { next_best_state :=
              P1.next_best_state.set state (if have_beats_now then (P.next_move.length : Int) else -1)
            next_move := P1.next_move.set state turn }
          score
      else first_loop call have_beats_now state rest L1 P1 best_score

/-- `Logic::find_first_best_turn`. The first argument bounds the depth of the
recursion. -/
def find_first_best_turn {σ : Type} (sh : σ → List move_pos → List move_pos × σ)
    (cfg : Settings) :
    Nat → Logic σ → Plan → Grid → Bool → Int → Int → Nat → ℚ → Option (ℚ × Logic σ × Plan)
  | 0, _, _, _, _, _, _, _, _ => none
  | fuel + 1, L, P, mtx, color, x, y, state, alpha =>
    let P0 : Plan :=
      { next_best_state := P.next_best_state ++ [-1]
        next_move := P.next_move ++ [⟨-1, -1, -1, -1, -1, -1⟩] }
    let L1 := if state ≠ 0 then L.find_turns_xy x y mtx else L
    if L1.have_beats = false ∧ state ≠ 0 then
      (find_best_turns_rec sh cfg fuel L1 mtx (!color) 0 alpha (INF + 1) (-1) (-1)).map
        fun r => (r.1, r.2, P0)
    else
      first_loop
        (fun L2 P2 turn next_state best_score =>
          if L1.have_beats = true then
            find_first_best_turn sh cfg fuel L2 P2 (make_turn mtx turn) color turn.x2 turn.y2
              next_state best_score
          else
            (find_best_turns_rec sh cfg fuel L2 (make_turn mtx turn) (!color) 0 best_score
              (INF + 1) (-1) (-1)).map fun r => (r.1, r.2, P2))
        L1.have_beats state L1.turns L1 P0 (-1)

/-- The `do ... while` loop of `find_best_turns` from `cur_state`; the first argument
bounds the number of iterations. -/
def collect_turns (P : Plan) : Nat → Int → Option (List move_pos)
  | 0, _ => none
  | fuel + 1, cur_state =>
    let turn := P.next_move.getD cur_state.toNat ⟨-1, -1, -1, -1, -1, -1⟩
    let next := P.next_best_state.getD cur_state.toNat (-1)
    if next ≠ -1 ∧ (P.next_move.getD next.toNat ⟨-1, -1, -1, -1, -1, -1⟩).x ≠ -1 then
      (collect_turns P fuel next).map fun res => turn :: res
    else some [turn]

/-- `Logic::find_best_turns` on the grid of the live board: the moves returned and the
members of `Logic` afterwards. -/
def find_best_turns {σ : Type} (sh : σ → List move_pos → List move_pos × σ) (cfg : Settings)
    (fuel : Nat) (L : Logic σ) (board : Board) (color : Bool) :
    Option (List move_pos × Logic σ × Plan) :=
  match find_first_best_turn sh cfg fuel L ⟨[], []⟩ board.mtx color (-1) (-1) 0 (-1) with
  | none => none
  | some (_, L1, P1) =>
    (collect_turns P1 P1.next_move.length 0).map fun res => (res, L1, P1)

/-- A move the generator may produce on `mtx`: it takes a piece from an on-board square
to an empty on-board square and, when `capture` is set, names an occupied on-board square
other than its source as beaten; otherwise it names none. -/
def GoodMove (mtx : Grid) (capture : Bool) (m : move_pos) : Prop :=
  onBoard m.x m.y ∧ cell mtx m.x m.y ≠ 0 ∧ onBoard m.x2 m.y2 ∧ cell mtx m.x2 m.y2 = 0 ∧
    if capture then
      m.xb ≠ -1 ∧ onBoard m.xb m.yb ∧ cell mtx m.xb m.yb ≠ 0 ∧ (m.xb, m.yb) ≠ (m.x, m.y)
    else m.xb = -1

/-- Number of occupied squares. -/
def pieces (mtx : Grid) : Nat := allSquares.countP fun ij => decide (cell mtx ij.1 ij.2 ≠ 0)

/-- A bound on the depth of the recursion of `find_best_turns_rec`: each level of `depth`
still to go counts 130, each piece 2, a capture chain in progress 1. -/
def recFuel (cfg : Settings) (mtx : Grid) (depth : Nat) (x : Int) : Nat :=
  (cfg.Max_depth - depth).toNat * 130 + 2 * pieces mtx + (if x ≠ -1 then 1 else 0) + 1
/-! ### The alternating recursion seen from the colour the search was started for -/

/-- Modelled from the spec: the mover at a node of depth `depth` in a search started by
`find_best_turns` for colour `c` is the opponent of `c` at even depth and `c` at odd
depth. -/
def moverAt (c : Bool) (depth : Nat) : Bool := if depth % 2 = 1 then c else !c

/-- Modelled from the spec: a maximising layer. The running maximum starts from the value
given, raises `alpha`, and the layer is cut (one above the maximum so far) once
`alpha >= beta` when pruning is on. -/
def max_loop {σ : Type} (call : Logic σ → move_pos → ℚ → ℚ → Option (ℚ × Logic σ))
    (prune : Bool) : List move_pos → Logic σ → ℚ → ℚ → ℚ → Option (ℚ × Logic σ)
  | [], L, max_score, _, _ => some (max_score, L)
  | turn :: rest, L, max_score, alpha, beta =>
    match call L turn alpha beta with
    | none => none
    | some (score, L1) =>
      if prune = true ∧ max alpha (max max_score score) ≥ beta then
        some (max max_score score + 1, L1)
      else max_loop call prune rest L1 (max max_score score) (max alpha (max max_score score)) beta

/-- Modelled from the spec: a minimising layer. The running minimum starts from the value
given, lowers `beta`, and the layer is cut (one below the minimum so far) once
`alpha >= beta` when pruning is on. -/
def min_loop {σ : Type} (call : Logic σ → move_pos → ℚ → ℚ → Option (ℚ × Logic σ))
    (prune : Bool) : List move_pos → Logic σ → ℚ → ℚ → ℚ → Option (ℚ × Logic σ)
  | [], L, min_score, _, _ => some (min_score, L)
  | turn :: rest, L, min_score, alpha, beta =>
    match call L turn alpha beta with
    | none => none
    | some (score, L1) =>
      if prune = true ∧ alpha ≥ min beta (min min_score score) then
        some (min min_score score - 1, L1)
      else min_loop call prune rest L1 (min min_score score) alpha (min beta (min min_score score))

/-- Modelled from the spec: the alternating recursion of a search started for colour `c`,
written without a colour argument. The mover of a node is `moverAt c depth`, a leaf
(`depth = Max_depth`) is scored with `c` as the favoured colour, odd depths maximise and
even depths minimise; a capture chain continues at the same depth. -/
def search_from {σ : Type} (sh : σ → List move_pos → List move_pos × σ) (cfg : Settings)
    (c : Bool) : Nat → Logic σ → Grid → Nat → ℚ → ℚ → Int → Int → Option (ℚ × Logic σ)
  | 0, _, _, _, _, _, _, _ => none
  | fuel + 1, L, mtx, depth, alpha, beta, x, y =>
    if (depth : Int) = cfg.Max_depth then some (calc_score cfg.scoring_mode mtx c, L)
    else
      let L1 := if x ≠ -1 then L.find_turns_xy x y mtx
        else L.find_turns_color sh (moverAt c depth) mtx
      if L1.have_beats = false ∧ x ≠ -1 then
        search_from sh cfg c fuel L1 mtx (depth + 1) alpha beta (-1) (-1)
      else if L1.turns = [] then some (if depth % 2 = 1 then 0 else INF, L1)
      else if depth % 2 = 1 then
        max_loop (fun L2 turn a b =>
            if L1.have_beats = false ∧ x = -1 then
              search_from sh cfg c fuel L2 (make_turn mtx turn) (depth + 1) a b (-1) (-1)
            else search_from sh cfg c fuel L2 (make_turn mtx turn) depth a b turn.x2 turn.y2)
          (decide (cfg.optimization ≠ "O0")) L1.turns L1 (-1) alpha beta
      else
        min_loop (fun L2 turn a b =>
            if L1.have_beats = false ∧ x = -1 then
              search_from sh cfg c fuel L2 (make_turn mtx turn) (depth + 1) a b (-1) (-1)
            else search_from sh cfg c fuel L2 (make_turn mtx turn) depth a b turn.x2 turn.y2)
          (decide (cfg.optimization ≠ "O0")) L1.turns L1 (INF + 1) alpha beta
/-- A move generator that has not been asked anything yet (engine state `()`). -/
def freshLogic : Logic Unit := ⟨[], false, ()⟩

/-- An engine whose shuffle leaves the list as it is. -/
def noShuffle (s : Unit) (l : List move_pos) : List move_pos × Unit := (l, s)

/-- The start position with its one-entry history. -/
def startBoard : Board := ⟨startGrid, [startGrid], [0]⟩
/-! ### The chain of the first phase as a value -/

/-- The loop of `find_first_best_turn` with the best chain kept as a value: `ch` is the
chain that starts with the best candidate so far (empty before any candidate has scored
above `best_score`). -/
def chain_loop {σ : Type}
    (call : Logic σ → move_pos → ℚ → Option (ℚ × List move_pos × Logic σ)) :
    List move_pos → Logic σ → ℚ → List move_pos → Option (ℚ × List move_pos × Logic σ)
  | [], L, best_score, ch => some (best_score, ch, L)
  | turn :: rest, L, best_score, ch =>
    match call L turn best_score with
    | none => none
    | some (score, sub, L1) =>
      if score > best_score then chain_loop call rest L1 score (turn :: sub)
      else chain_loop call rest L1 best_score ch

/-- The computation of `find_first_best_turn` with the chain of best moves returned as a
list instead of being written to `next_move` and `next_best_state`; `root` stands for
`state == 0`. The list is the chain that continues from this state; it is empty when the
piece has no further capture. -/
def first_chain {σ : Type} (sh : σ → List move_pos → List move_pos × σ) (cfg : Settings) :
    Nat → Logic σ → Grid → Bool → Int → Int → Bool → ℚ →
      Option (ℚ × List move_pos × Logic σ)
  | 0, _, _, _, _, _, _, _ => none
  | fuel + 1, L, mtx, color, x, y, root, alpha =>
    let L1 := if root = false then L.find_turns_xy x y mtx else L
    if L1.have_beats = false ∧ root = false then
      (find_best_turns_rec sh cfg fuel L1 mtx (!color) 0 alpha (INF + 1) (-1) (-1)).map
        fun r => (r.1, [], r.2)
    else
      chain_loop (fun L2 turn best_score =>
          if L1.have_beats = true then
            first_chain sh cfg fuel L2 (make_turn mtx turn) color turn.x2 turn.y2 false best_score
          else
            (find_best_turns_rec sh cfg fuel L2 (make_turn mtx turn) (!color) 0 best_score
              (INF + 1) (-1) (-1)).map fun r => (r.1, [], r.2))
        L1.turns L1 (-1) []

/-- The arrays `next_move`, `next_best_state` hold the chain `ch` from state `s` on: an
empty chain is an entry still holding the placeholder; a chain `t :: sub` is the move `t`
followed either by `-1` (and nothing more) or by a later state that holds `sub`. -/
def Enc (nm : List move_pos) (ns : List Int) : Nat → List move_pos → Prop
  | s, [] => ∃ e, nm[s]? = some e ∧ e.x = -1
  | s, t :: sub => nm[s]? = some t ∧ t.x ≠ -1 ∧
      ((ns[s]? = some (-1) ∧ sub = []) ∨
        ∃ s' : Nat, s < s' ∧ ns[s]? = some (s' : Int) ∧ Enc nm ns s' sub)

/-- The plan `P'` has all the entries of `P` below `n` and is at least as long. -/
def Keeps (P P' : Plan) (n : Nat) : Prop :=
  P.next_move.length ≤ P'.next_move.length ∧
  ∀ i, i < n → P'.next_move[i]? = P.next_move[i]? ∧
    P'.next_best_state[i]? = P.next_best_state[i]?

/-- Both arrays of the plan have the same length. -/
def Plan.WF (P : Plan) : Prop := P.next_move.length = P.next_best_state.length

/-- Modelled from the spec: the rest of a Turn of captures. From the landing square
`x, y` on the board `mtx`, every further move is a capturing move of `find_turns(x, y)`
that starts on that square, and after the last move no capturing move is available from
the landing square. -/
def ChainFrom : Grid → Int → Int → List move_pos → Prop
  | mtx, x, y, [] => ∀ m ∈ (find_turns x y mtx).turns, m.xb = -1
  | mtx, x, y, m :: rest => m ∈ (find_turns x y mtx).turns ∧ m.xb ≠ -1 ∧ m.x = x ∧ m.y = y ∧
      ChainFrom (make_turn mtx m) m.x2 m.y2 rest

/-- A bound on the depth of the recursion of `find_first_best_turn`. -/
def firstFuel (cfg : Settings) (mtx : Grid) : Nat :=
  cfg.Max_depth.toNat * 130 + 130 + pieces mtx

/-! ### The value of the second phase and the candidate chains -/

/-- Modelled from the spec: the minimax value of a node of the second phase for a search
started for colour `c`, without window and without generator state. The moves are those
of `find_turns` in the order of the scan (the value does not depend on their order), the
mover is `moverAt c depth`, a leaf is scored for `c`, odd depths take the maximum
(starting from -1) and even depths the minimum (starting from `INF + 1`). -/
def minimax (cfg : Settings) (c : Bool) : Nat → Grid → Nat → Int → Int → ℚ
  | 0, _, _, _, _ => 0
  | fuel + 1, mtx, depth, x, y =>
    if (depth : Int) = cfg.Max_depth then calc_score cfg.scoring_mode mtx c
    else
      let T := if x ≠ -1 then find_turns x y mtx else find_turns_color id (moverAt c depth) mtx
      if T.have_beats = false ∧ x ≠ -1 then minimax cfg c fuel mtx (depth + 1) (-1) (-1)
      else if T.turns = [] then (if depth % 2 = 1 then 0 else INF)
      else if depth % 2 = 1 then
        (T.turns.map fun t =>
          if T.have_beats = false ∧ x = -1 then
            minimax cfg c fuel (make_turn mtx t) (depth + 1) (-1) (-1)
          else minimax cfg c fuel (make_turn mtx t) depth t.x2 t.y2).foldl max (-1)
      else
        (T.turns.map fun t =>
          if T.have_beats = false ∧ x = -1 then
            minimax cfg c fuel (make_turn mtx t) (depth + 1) (-1) (-1)
          else minimax cfg c fuel (make_turn mtx t) depth t.x2 t.y2).foldl min (INF + 1)

/-- Modelled from the spec: the value of the second phase for a board reached by a Turn
of colour `c`: the minimax value at depth 0, the opponent of `c` to move. -/
def minimaxVal (cfg : Settings) (c : Bool) (mtx : Grid) : ℚ :=
  minimax cfg c (recFuel cfg mtx 0 (-1)) mtx 0 (-1) (-1)

/-- Modelled from the spec: the fully extended chains of captures of the piece on
`x, y`, in depth-first order of `find_turns(x, y)`; the empty chain when the piece has no
capture. -/
def chainsFrom : Nat → Grid → Int → Int → List (List move_pos)
  | 0, _, _, _ => []
  | fuel + 1, mtx, x, y =>
    if (find_turns x y mtx).have_beats = false then [[]]
    else (find_turns x y mtx).turns.flatMap fun t =>
      (chainsFrom fuel (make_turn mtx t) t.x2 t.y2).map fun ch => t :: ch

/-- Modelled from the spec: the fully extended candidate chains of the root, in
depth-first order: each candidate alone when the candidates are ordinary moves, each
candidate followed by every full chain of further captures otherwise. -/
def rootChains (fuel : Nat) (mtx : Grid) (turns : List move_pos) (have_beats : Bool) :
    List (List move_pos) :=
  turns.flatMap fun t =>
    if have_beats = true then (chainsFrom fuel (make_turn mtx t) t.x2 t.y2).map fun ch => t :: ch
    else [[t]]

/-- Modelled from the spec: the value of a candidate chain is the value of the second
phase on the board with the chain applied. -/
def chainValue (cfg : Settings) (c : Bool) (mtx : Grid) (ch : List move_pos) : ℚ :=
  minimaxVal cfg c (ch.foldl make_turn mtx)

/-- Modelled from the spec: `ch` is the first chain of the enumeration `l` whose value
is maximal among all chains of `l`, and `v` is that maximum. -/
def IsFirstMax (val : List move_pos → ℚ) (l : List (List move_pos)) (v : ℚ)
    (ch : List move_pos) : Prop :=
  val ch = v ∧ ∃ i : Nat, l[i]? = some ch ∧ (∀ p ∈ l, val p ≤ v) ∧
    ∀ (j : Nat) (p : List move_pos), j < i → l[j]? = some p → val p < v

/-- Starting from the value `a` with the chain `ch0`, the pair `v`, `ch` is what a scan of
`l` with the test `value > best` leaves: `a` and `ch0` when no chain of `l` scores above
`a`; otherwise the first chain of `l` whose value is the maximum over `l`. -/
def FirstMax (val : List move_pos → ℚ) (l : List (List move_pos)) (a : ℚ) (ch0 : List move_pos)
    (v : ℚ) (ch : List move_pos) : Prop :=
  (v = a ∧ ch = ch0 ∧ ∀ p ∈ l, val p ≤ a) ∨ (a < v ∧ IsFirstMax val l v ch)

/-! ### Well-formed moves -/

/-- Modelled from the spec: the move is well-formed on the board. Source and destination
lie on the board, the source holds a piece, the destination is empty, the destination is
`n >= 1` steps from the source along a diagonal, and the move either names no beaten
square or names the square `p` steps along that diagonal, strictly between source and
destination, which holds a piece of the other colour. -/
def WellFormed (mtx : Grid) (m : move_pos) : Prop :=
  onBoard m.x m.y ∧ cell mtx m.x m.y ≠ 0 ∧ onBoard m.x2 m.y2 ∧ cell mtx m.x2 m.y2 = 0 ∧
    ∃ dx dy : Int, (dx = -1 ∨ dx = 1) ∧ (dy = -1 ∨ dy = 1) ∧ ∃ n : Nat, 1 ≤ n ∧
      m.x2 = m.x + (n : Int) * dx ∧ m.y2 = m.y + (n : Int) * dy ∧
      ((m.xb = -1 ∧ m.yb = -1) ∨
        ∃ p : Nat, 1 ≤ p ∧ p < n ∧ m.xb = m.x + (p : Int) * dx ∧ m.yb = m.y + (p : Int) * dy ∧
          opposite (cell mtx m.xb m.yb) (cell mtx m.x m.y))

/-! ### The value returned under pruning -/

/-- What a call with the window `a`, `b` returns when the minimax value of its node is
`v`: the value itself when it lies strictly inside the window, something not above `a`
when the value is not above `a`, something not below `b` when the value is not below
`b`. -/
def Bnd (a b r v : ℚ) : Prop :=
  (a < v → v < b → r = v) ∧ (v ≤ a → r ≤ a) ∧ (b ≤ v → b ≤ r)

/-! ## Auxiliary facts about the grid -/

theorem cell_range {mtx : Grid} (hv : validGrid mtx) (i j : Int) :
    0 ≤ cell mtx i j ∧ cell mtx i j ≤ 4 := by
  unfold cell
  split
  · rw [List.getD_eq_getElem?_getD, List.getD_eq_getElem?_getD]
    cases hr : mtx[i.toNat]? with
    | none => simp
    | some r =>
      have hmem : r ∈ mtx := List.getElem?_mem hr
      cases hc : r[j.toNat]? with
      | none => simp [hc]
      | some v =>
        have hvm : v ∈ r := List.getElem?_mem hc
        simpa [hc] using (hv.2 r hmem).2 v hvm
  · simp

/-- On codes `0..4`, the test `v && v % 2 != color` selects the pieces of `color`. -/
theorem own_test_iff (color : Bool) (v : Int) (h0 : 0 ≤ v) (h4 : v ≤ 4) :
    (v ≠ 0 ∧ v.tmod 2 ≠ (if color then 1 else 0)) ↔ hasColor color v := by
  cases color <;> interval_cases v <;> simp [hasColor, isWhite, isBlack] <;> decide

/-- On codes `0..4`, a non-empty cell whose parity differs from that of a piece
holds a piece of the other colour. -/
theorem opp_test_iff (a t : Int) (ha0 : 0 ≤ a) (ha4 : a ≤ 4) (ht1 : 1 ≤ t) (ht4 : t ≤ 4) :
    (a ≠ 0 ∧ a.tmod 2 ≠ t.tmod 2) ↔ opposite a t := by
  interval_cases a <;> interval_cases t <;> simp [opposite, isWhite, isBlack] <;> decide

/-! ## The per-colour loop -/

theorem color_fold_true (color : Bool) (mtx : Grid) (l : List (Int × Int))
    (res : List move_pos) :
    l.foldl (color_step color mtx) (res, true) =
      (res ++ (l.filter fun ij => ownTest color mtx ij && beatTest mtx ij).flatMap
        (fun ij => (find_turns ij.1 ij.2 mtx).turns), true) := by
  induction l generalizing res with
  | nil => simp
  | cons ij l ih =>
    rw [List.foldl_cons]
    by_cases ho : ownTest color mtx ij = true
    · have ho2 := ho
      simp only [ownTest, decide_eq_true_eq] at ho2
      by_cases hb : beatTest mtx ij = true
      · have hb2 : (find_turns ij.1 ij.2 mtx).have_beats = true := hb
        have hs : color_step color mtx (res, true) ij =
            (res ++ (find_turns ij.1 ij.2 mtx).turns, true) := by
          simp [color_step, ho2, hb2]
        rw [hs, ih]
        simp [List.filter_cons, ho, hb, List.flatMap_cons]
      · have hb2 : (find_turns ij.1 ij.2 mtx).have_beats = false := by
          simpa [beatTest] using hb
        have hs : color_step color mtx (res, true) ij = (res, true) := by
          simp [color_step, ho2, hb2]
        rw [hs, ih]
        simp [List.filter_cons, ho, hb]
    · have ho2 := ho
      simp only [ownTest, decide_eq_true_eq] at ho2
      have hs : color_step color mtx (res, true) ij = (res, true) := by
        simp only [color_step]
        rw [if_neg ho2]
      rw [hs, ih]
      simp [List.filter_cons, ho]

theorem color_fold_false (color : Bool) (mtx : Grid) (l : List (Int × Int))
    (res : List move_pos) :
    l.foldl (color_step color mtx) (res, false) =
      if (l.any fun ij => ownTest color mtx ij && beatTest mtx ij) = true then
        ((l.filter fun ij => ownTest color mtx ij && beatTest mtx ij).flatMap
          (fun ij => (find_turns ij.1 ij.2 mtx).turns), true)
      else
        (res ++ (l.filter fun ij => ownTest color mtx ij).flatMap
          (fun ij => (find_turns ij.1 ij.2 mtx).turns), false) := by
  induction l generalizing res with
  | nil => simp
  | cons ij l ih =>
    rw [List.foldl_cons]
    by_cases ho : ownTest color mtx ij = true
    · have ho2 := ho
      simp only [ownTest, decide_eq_true_eq] at ho2
      by_cases hb : beatTest mtx ij = true
      · have hb2 : (find_turns ij.1 ij.2 mtx).have_beats = true := hb
        have hs : color_step color mtx (res, false) ij =
            ((find_turns ij.1 ij.2 mtx).turns, true) := by
          simp [color_step, ho2, hb2]
        rw [hs, color_fold_true]
        simp [List.filter_cons, ho, hb, List.flatMap_cons]
      · have hb2 : (find_turns ij.1 ij.2 mtx).have_beats = false := by
          simpa [beatTest] using hb
        have hs : color_step color mtx (res, false) ij =
            (res ++ (find_turns ij.1 ij.2 mtx).turns, false) := by
          simp [color_step, ho2, hb2]
        have hb3 : beatTest mtx ij = false := by simpa using hb
        rw [hs, ih, List.any_cons, ho, hb3]
        cases ha : (l.any fun ij => ownTest color mtx ij && beatTest mtx ij) <;>
          simp [List.filter_cons, ho, hb3, List.flatMap_cons]
    · have ho2 := ho
      simp only [ownTest, decide_eq_true_eq] at ho2
      have hs : color_step color mtx (res, false) ij = (res, false) := by
        simp only [color_step]
        rw [if_neg ho2]
      have ho3 : ownTest color mtx ij = false := by simpa using ho
      rw [hs, ih, List.any_cons, ho3]
      cases ha : (l.any fun ij => ownTest color mtx ij && beatTest mtx ij) <;>
        simp [List.filter_cons, ho3]

/-! ## Shape of the moves produced for one square -/

theorem man_beats_eq (mtx : Grid) (type x y : Int) :
    man_beats mtx type x y =
      man_cand mtx type x y (x - 2) (y - 2) ++ (man_cand mtx type x y (x - 2) (y + 2) ++
        (man_cand mtx type x y (x + 2) (y - 2) ++ man_cand mtx type x y (x + 2) (y + 2))) := by
  have h : ∀ i j, ([j].filterMap fun j =>
      if i < 0 ∨ i > 7 ∨ j < 0 ∨ j > 7 then none
      else
        let xb := (x + i).tdiv 2
        let yb := (y + j).tdiv 2
        if cell mtx i j ≠ 0 ∨ cell mtx xb yb = 0 ∨
            (cell mtx xb yb).tmod 2 = type.tmod 2 then none
        else some (⟨x, y, i, j, xb, yb⟩ : move_pos)) = man_cand mtx type x y i j := by
    intro i j
    unfold man_cand
    rw [List.filterMap_cons]
    split_ifs <;> simp_all
  unfold man_beats
  have e1 : ∀ (i : Int) (f : Int → Option move_pos), [y - 2, y + 2].filterMap f = [y - 2].filterMap f ++ [y + 2].filterMap f := by
    intro i f
    rw [← List.filterMap_append]; rfl
  simp only [List.flatMap_cons, List.flatMap_nil, List.append_nil]
  rw [e1 (x - 2), e1 (x + 2), h, h, h, h, List.append_assoc]


theorem find_turns_true {x y : Int} {mtx : Grid}
    (h : (find_turns x y mtx).have_beats = true) :
    (find_turns x y mtx).turns = beats_of x y mtx ∧ beats_of x y mtx ≠ [] := by
  unfold find_turns at h ⊢
  by_cases hb : beats_of x y mtx = []
  · simp [hb] at h
  · simp [hb]

theorem find_turns_false {x y : Int} {mtx : Grid}
    (h : (find_turns x y mtx).have_beats = false) :
    (find_turns x y mtx).turns = steps_of x y mtx ∧ beats_of x y mtx = [] := by
  unfold find_turns at h ⊢
  by_cases hb : beats_of x y mtx = []
  · simp [hb]
  · simp [hb] at h

theorem man_beats_xb {mtx : Grid} {type x y : Int} (hx : 0 ≤ x) {m : move_pos}
    (hm : m ∈ man_beats mtx type x y) : m.xb ≠ -1 := by
  simp only [man_beats, List.mem_flatMap, List.mem_filterMap] at hm
  obtain ⟨i, _, j, _, hij⟩ := hm
  split at hij
  · exact absurd hij (by simp)
  · rename_i hin
    split at hij
    · exact absurd hij (by simp)
    · simp only [Option.some.injEq] at hij
      subst hij
      have h0 : 0 ≤ (x + i).tdiv 2 := Int.tdiv_nonneg (by omega) (by omega)
      show (x + i).tdiv 2 ≠ -1
      omega

theorem king_beats_ray_xb (mtx : Grid) (type x y i j : Int) (fuel : Nat) :
    ∀ (i2 j2 xb yb : Int) (m : move_pos),
      m ∈ king_beats_ray mtx type x y i j fuel i2 j2 xb yb → m.xb ≠ -1 := by
  induction fuel with
  | zero => intro i2 j2 xb yb m hm; simp [king_beats_ray] at hm
  | succ n ih =>
    intro i2 j2 xb yb m hm
    rw [king_beats_ray] at hm
    split at hm
    · split at hm
      · simp at hm
      · dsimp only at hm
        rcases List.mem_append.1 hm with h | h
        · by_cases hc : (if cell mtx i2 j2 ≠ 0 then i2 else xb) ≠ -1 ∧
              (if cell mtx i2 j2 ≠ 0 then i2 else xb) ≠ i2
          · rw [if_pos hc, List.mem_singleton] at h
            subst h
            exact hc.1
          · rw [if_neg hc] at h
            simp at h
        · exact ih _ _ _ _ m h
    · simp at hm

theorem king_beats_xb {mtx : Grid} {type x y : Int} {m : move_pos}
    (hm : m ∈ king_beats mtx type x y) : m.xb ≠ -1 := by
  simp only [king_beats, List.mem_flatMap] at hm
  obtain ⟨i, _, j, _, h⟩ := hm
  exact king_beats_ray_xb mtx type x y i j 8 _ _ _ _ m h

theorem beats_of_xb {mtx : Grid} {x y : Int} (hx : 0 ≤ x) {m : move_pos}
    (hm : m ∈ beats_of x y mtx) : m.xb ≠ -1 := by
  simp only [beats_of] at hm
  split at hm
  · exact man_beats_xb hx hm
  · exact king_beats_xb hm

theorem king_steps_ray_xb (mtx : Grid) (x y i j : Int) (fuel : Nat) :
    ∀ (i2 j2 : Int) (m : move_pos),
      m ∈ king_steps_ray mtx x y i j fuel i2 j2 → m.xb = -1 := by
  induction fuel with
  | zero => intro i2 j2 m hm; simp [king_steps_ray] at hm
  | succ n ih =>
    intro i2 j2 m hm
    unfold king_steps_ray at hm
    split at hm
    · split at hm
      · simp at hm
      · rcases List.mem_cons.1 hm with h | h
        · subst h; rfl
        · exact ih _ _ m h
    · simp at hm

theorem steps_of_xb {mtx : Grid} {x y : Int} {m : move_pos}
    (hm : m ∈ steps_of x y mtx) : m.xb = -1 := by
  simp only [steps_of] at hm
  split at hm
  · simp only [man_steps, List.mem_filterMap] at hm
    obtain ⟨j, _, hj⟩ := hm
    generalize (if (cell mtx x y).tmod 2 ≠ 0 then x - 1 else x + 1) = i at hj
    split at hj
    · exact absurd hj (by simp)
    · simp only [Option.some.injEq] at hj
      subst hj; rfl
  · simp only [king_steps, List.mem_flatMap] at hm
    obtain ⟨i, _, j, _, h⟩ := hm
    exact king_steps_ray_xb mtx x y i j 8 _ _ m h

theorem allSquares_onBoard : ∀ ij ∈ allSquares, onBoard ij.1 ij.2 := by decide

theorem mem_allSquares {i j : Int} (h : onBoard i j) : (i, j) ∈ allSquares := by
  obtain ⟨h1, h2, h3, h4⟩ := h
  interval_cases i <;> interval_cases j <;> decide

theorem king_beats_ray_src (mtx : Grid) (type x y i j : Int) (fuel : Nat) :
    ∀ (i2 j2 xb yb : Int) (m : move_pos),
      m ∈ king_beats_ray mtx type x y i j fuel i2 j2 xb yb → m.x = x ∧ m.y = y := by
  induction fuel with
  | zero => intro i2 j2 xb yb m hm; simp [king_beats_ray] at hm
  | succ n ih =>
    intro i2 j2 xb yb m hm
    rw [king_beats_ray] at hm
    split at hm
    · split at hm
      · simp at hm
      · dsimp only at hm
        rcases List.mem_append.1 hm with h | h
        · by_cases hc : (if cell mtx i2 j2 ≠ 0 then i2 else xb) ≠ -1 ∧
              (if cell mtx i2 j2 ≠ 0 then i2 else xb) ≠ i2
          · rw [if_pos hc, List.mem_singleton] at h
            subst h
            exact ⟨rfl, rfl⟩
          · rw [if_neg hc] at h
            simp at h
        · exact ih _ _ _ _ m h
    · simp at hm

theorem beats_of_src {mtx : Grid} {x y : Int} {m : move_pos}
    (hm : m ∈ beats_of x y mtx) : m.x = x ∧ m.y = y := by
  simp only [beats_of] at hm
  split at hm
  · simp only [man_beats, List.mem_flatMap, List.mem_filterMap] at hm
    obtain ⟨i, _, j, _, hij⟩ := hm
    split at hij
    · exact absurd hij (by simp)
    · split at hij
      · exact absurd hij (by simp)
      · simp only [Option.some.injEq] at hij
        subst hij
        exact ⟨rfl, rfl⟩
  · simp only [king_beats, List.mem_flatMap] at hm
    obtain ⟨i, _, j, _, h⟩ := hm
    exact king_beats_ray_src mtx _ x y i j 8 _ _ _ _ m h

/-- The record `find_turns(color, mtx)` leaves in `turns` and `have_beats`. -/
theorem find_turns_color_eq (shuffle : List move_pos → List move_pos) (color : Bool)
    (mtx : Grid) :
    find_turns_color shuffle color mtx =
      if (allSquares.any fun ij => ownTest color mtx ij && beatTest mtx ij) = true then
        ⟨shuffle ((allSquares.filter fun ij => ownTest color mtx ij && beatTest mtx ij).flatMap
          fun ij => (find_turns ij.1 ij.2 mtx).turns), true⟩
      else
        ⟨shuffle ((allSquares.filter fun ij => ownTest color mtx ij).flatMap
          fun ij => (find_turns ij.1 ij.2 mtx).turns), false⟩ := by
  unfold find_turns_color
  rw [color_fold_false]
  split <;> simp

theorem ownTest_eq {color : Bool} {mtx : Grid} (hv : validGrid mtx) (ij : Int × Int) :
    ownTest color mtx ij = decide (hasColor color (cell mtx ij.1 ij.2)) := by
  unfold ownTest
  have h := cell_range hv ij.1 ij.2
  exact decide_eq_decide.2 (own_test_iff color _ h.1 h.2)

/-- The squares before and after (4,3) in loop order. -/
theorem allSquares_split :
    allSquares =
      (allSquares.take 35) ++ (4, 3) :: (allSquares.drop 36) ∧
      (∀ ij ∈ allSquares.take 35, ij ≠ (4, 3)) ∧
      (∀ ij ∈ allSquares.drop 36, ij ≠ (4, 3)) := by decide

/-- C1: mandatory capture in `find_turns(color, mtx)`. When some piece of the colour has
a capture, `have_beats` is set and `turns` is a permutation of the captures of the pieces
that have one, each move carrying a beaten square; otherwise `have_beats` is clear and
`turns` is a permutation of the ordinary moves of all pieces of the colour, none carrying
a beaten square. With a white man on (4,3) able to beat (3,2) landing on (2,1) and no
other white capture, `turns` is exactly that move. -/
theorem C1_mandatory_capture (shuffle : List move_pos → List move_pos)
    (hshuffle : ∀ l, (shuffle l).Perm l) (color : Bool) (mtx : Grid) (hv : validGrid mtx) :
    let own := allSquares.filter fun ij => decide (hasColor color (cell mtx ij.1 ij.2))
    let r := find_turns_color shuffle color mtx
    ((∃ ij ∈ own, (find_turns ij.1 ij.2 mtx).have_beats = true) →
      r.have_beats = true ∧
      r.turns.Perm ((own.filter fun ij => (find_turns ij.1 ij.2 mtx).have_beats).flatMap
        fun ij => (find_turns ij.1 ij.2 mtx).turns) ∧
      ∀ m ∈ r.turns, m.xb ≠ -1) ∧
    ((¬ ∃ ij ∈ own, (find_turns ij.1 ij.2 mtx).have_beats = true) →
      r.have_beats = false ∧
      r.turns.Perm (own.flatMap fun ij => (find_turns ij.1 ij.2 mtx).turns) ∧
      ∀ m ∈ r.turns, m.xb = -1) ∧
    (color = false → cell mtx 4 3 = 1 → isBlack (cell mtx 3 2) → cell mtx 2 1 = 0 →
      (∀ ij ∈ own, ∀ m ∈ (find_turns ij.1 ij.2 mtx).turns, m.xb ≠ -1 →
        m = ⟨4, 3, 2, 1, 3, 2⟩) →
      r.turns = [⟨4, 3, 2, 1, 3, 2⟩]) := by
  intro own r
  have hown : (allSquares.filter fun ij => ownTest color mtx ij) = own :=
    List.filter_congr (fun ij _ => ownTest_eq hv ij)
  have hownb : (allSquares.filter fun ij => ownTest color mtx ij && beatTest mtx ij) =
      own.filter fun ij => (find_turns ij.1 ij.2 mtx).have_beats := by
    rw [← hown, List.filter_filter]
    apply List.filter_congr
    intro ij _
    simp [beatTest, Bool.and_comm]
  have hany : (allSquares.any fun ij => ownTest color mtx ij && beatTest mtx ij) = true ↔
      ∃ ij ∈ own, (find_turns ij.1 ij.2 mtx).have_beats = true := by
    rw [List.any_eq_true]
    constructor
    · rintro ⟨ij, hmem, h⟩
      rw [Bool.and_eq_true] at h
      refine ⟨ij, ?_, h.2⟩
      rw [← hown]
      exact List.mem_filter.2 ⟨hmem, h.1⟩
    · rintro ⟨ij, hmem, h⟩
      rw [← hown] at hmem
      have h2 := List.mem_filter.1 hmem
      exact ⟨ij, h2.1, by rw [Bool.and_eq_true]; exact ⟨h2.2, h⟩⟩
  have hr : r = _ := find_turns_color_eq shuffle color mtx
  have part1 : (∃ ij ∈ own, (find_turns ij.1 ij.2 mtx).have_beats = true) →
      r.have_beats = true ∧
      r.turns.Perm ((own.filter fun ij => (find_turns ij.1 ij.2 mtx).have_beats).flatMap
        fun ij => (find_turns ij.1 ij.2 mtx).turns) ∧
      ∀ m ∈ r.turns, m.xb ≠ -1 := by
    intro hex
    rw [if_pos (hany.2 hex), hownb] at hr
    have hperm : r.turns.Perm ((own.filter fun ij => (find_turns ij.1 ij.2 mtx).have_beats).flatMap
        fun ij => (find_turns ij.1 ij.2 mtx).turns) := by
      rw [hr]; exact hshuffle _
    refine ⟨by rw [hr], hperm, ?_⟩
    intro m hm
    obtain ⟨ij, hij, hmij⟩ := List.mem_flatMap.1 (hperm.mem_iff.1 hm)
    have h2 := List.mem_filter.1 hij
    have h3 := List.mem_filter.1 h2.1
    rw [(find_turns_true h2.2).1] at hmij
    exact beats_of_xb (allSquares_onBoard ij h3.1).1 hmij
  refine ⟨part1, ?_, ?_⟩
  · intro hex
    rw [if_neg (fun h => hex (hany.1 h)), hown] at hr
    have hperm : r.turns.Perm (own.flatMap fun ij => (find_turns ij.1 ij.2 mtx).turns) := by
      rw [hr]; exact hshuffle _
    refine ⟨by rw [hr], hperm, ?_⟩
    intro m hm
    obtain ⟨ij, hij, hmij⟩ := List.mem_flatMap.1 (hperm.mem_iff.1 hm)
    have hnb : (find_turns ij.1 ij.2 mtx).have_beats = false := by
      cases hb : (find_turns ij.1 ij.2 mtx).have_beats with
      | false => rfl
      | true => exact absurd ⟨ij, hij, hb⟩ hex
    rw [(find_turns_false hnb).1] at hmij
    exact steps_of_xb hmij
  · intro hc h43 h32 h21 honly
    subst hc
    -- the man on (4,3) has the capture
    have hmem43 : ((4 : Int), (3 : Int)) ∈ own :=
      List.mem_filter.2 ⟨by decide, by simp [hasColor, isWhite, h43]⟩
    have h32' : cell mtx 3 2 ≠ 0 ∧ (cell mtx 3 2).tmod 2 ≠ (1 : Int).tmod 2 := by
      rcases h32 with h | h <;> rw [h] <;> decide
    have hb43 : (⟨4, 3, 2, 1, 3, 2⟩ : move_pos) ∈ beats_of 4 3 mtx := by
      have hbo : beats_of 4 3 mtx = man_beats mtx 1 4 3 := by simp [beats_of, h43]
      rw [hbo]
      simp only [man_beats, List.mem_flatMap, List.mem_filterMap]
      refine ⟨2, by decide, 1, by decide, ?_⟩
      have e1 : Int.tdiv 6 2 = 3 := by decide
      have e2 : Int.tdiv 4 2 = 2 := by decide
      simp [e1, e2, h21, h32'.1, h32'.2]
    have hhb43 : (find_turns 4 3 mtx).have_beats = true := by
      unfold find_turns
      rw [if_pos (List.ne_nil_of_mem hb43)]
    obtain ⟨_, hperm, _⟩ := part1 ⟨(4, 3), hmem43, hhb43⟩
    -- no other square has one
    have hother : ∀ ij ∈ own, ij ≠ (4, 3) → (find_turns ij.1 ij.2 mtx).have_beats = false := by
      intro ij hij hne
      cases hb : (find_turns ij.1 ij.2 mtx).have_beats with
      | false => rfl
      | true =>
        obtain ⟨ht, hne2⟩ := find_turns_true hb
        obtain ⟨m, hm⟩ := List.exists_mem_of_ne_nil _ hne2
        have hx := beats_of_src hm
        have hxb := beats_of_xb (allSquares_onBoard ij (List.mem_filter.1 hij).1).1 hm
        have := honly ij hij m (by rw [ht]; exact hm) hxb
        subst this
        exact absurd (Prod.ext hx.1.symm hx.2.symm) hne
    have hall : ∀ m ∈ beats_of 4 3 mtx, m = (⟨4, 3, 2, 1, 3, 2⟩ : move_pos) := by
      intro m hm
      exact honly (4, 3) hmem43 m (by rw [(find_turns_true hhb43).1]; exact hm)
        (beats_of_xb (by decide) hm)
    have hbo : beats_of 4 3 mtx = man_beats mtx 1 4 3 := by simp [beats_of, h43]
    have hcand : ∀ i j : Int, (i, j) ≠ ((2 : Int), (1 : Int)) →
        (∀ m ∈ man_cand mtx 1 4 3 i j, m ∈ beats_of 4 3 mtx) →
        man_cand mtx 1 4 3 i j = [] := by
      intro i j hne hsub
      unfold man_cand at hsub ⊢
      split_ifs at hsub ⊢ <;> try rfl
      have h := hall _ (hsub _ (List.mem_singleton.2 rfl))
      simp only [move_pos.mk.injEq] at h
      exact absurd (Prod.ext h.2.2.1 h.2.2.2.1) hne
    have hme : man_beats mtx 1 4 3 =
        man_cand mtx 1 4 3 2 1 ++ (man_cand mtx 1 4 3 2 5 ++
          (man_cand mtx 1 4 3 6 1 ++ man_cand mtx 1 4 3 6 5)) := by
      have h := man_beats_eq mtx 1 4 3
      norm_num at h
      exact h
    have hsub : ∀ i j : Int, (i = 2 ∨ i = 6) → (j = 1 ∨ j = 5) →
        ∀ m ∈ man_cand mtx 1 4 3 i j, m ∈ beats_of 4 3 mtx := by
      intro i j hi hj m hm
      rw [hbo, hme]
      rcases hi with rfl | rfl <;> rcases hj with rfl | rfl <;> simp [hm]
    have hlist : beats_of 4 3 mtx = [(⟨4, 3, 2, 1, 3, 2⟩ : move_pos)] := by
      have c2 := hcand 2 5 (by decide) (hsub _ _ (Or.inl rfl) (Or.inr rfl))
      have c3 := hcand 6 1 (by decide) (hsub _ _ (Or.inr rfl) (Or.inl rfl))
      have c4 := hcand 6 5 (by decide) (hsub _ _ (Or.inr rfl) (Or.inr rfl))
      have c1 : man_cand mtx 1 4 3 2 1 = [(⟨4, 3, 2, 1, 3, 2⟩ : move_pos)] := by
        have e1 : Int.tdiv 6 2 = 3 := by decide
        have e2 : Int.tdiv 4 2 = 2 := by decide
        simp [man_cand, e1, e2, h21, h32'.1, h32'.2]
      rw [hbo, hme, c1, c2, c3, c4]
      rfl
    have hfilt : (own.filter fun ij => (find_turns ij.1 ij.2 mtx).have_beats) = [(4, 3)] := by
      obtain ⟨hs, hA, hB⟩ := allSquares_split
      have hnil : ∀ l : List (Int × Int), (∀ ij ∈ l, ij ∈ allSquares ∧ ij ≠ (4, 3)) →
          (l.filter fun ij => decide (hasColor false (cell mtx ij.1 ij.2)) &&
            (find_turns ij.1 ij.2 mtx).have_beats) = [] := by
        intro l hl
        apply List.filter_eq_nil_iff.2
        intro ij hij h
        rw [Bool.and_eq_true] at h
        have hmem : ij ∈ own := List.mem_filter.2 ⟨(hl ij hij).1, h.1⟩
        rw [hother ij hmem (hl ij hij).2] at h
        exact absurd h.2 (by decide)
      have hA2 := hnil (allSquares.take 35)
        (fun ij hij => ⟨List.mem_of_mem_take hij, hA ij hij⟩)
      have hB2 := hnil (allSquares.drop 36)
        (fun ij hij => ⟨List.mem_of_mem_drop hij, hB ij hij⟩)
      have h43c : (decide (hasColor false (cell mtx 4 3)) &&
          (find_turns 4 3 mtx).have_beats) = true := by
        rw [hhb43]; simp [hasColor, isWhite, h43]
      show List.filter _ (List.filter _ allSquares) = _
      rw [List.filter_filter]
      have hcomm : (allSquares.filter fun ij => (find_turns ij.1 ij.2 mtx).have_beats &&
          decide (hasColor false (cell mtx ij.1 ij.2))) =
          allSquares.filter fun ij => decide (hasColor false (cell mtx ij.1 ij.2)) &&
            (find_turns ij.1 ij.2 mtx).have_beats :=
        List.filter_congr (fun ij _ => Bool.and_comm _ _)
      rw [hcomm, hs, List.filter_append, List.filter_cons, hA2, hB2, if_pos h43c]
      rfl
    rw [hfilt] at hperm
    simp only [List.flatMap_cons, List.flatMap_nil, List.append_nil] at hperm
    rw [(find_turns_true hhb43).1, hlist] at hperm
    exact List.perm_singleton.1 hperm

/-- The capturing moves among the moves of a square are the output of its capture phase. -/
theorem captures_iff {mtx : Grid} {x y : Int} (hx : 0 ≤ x) (m : move_pos) :
    (m ∈ (find_turns x y mtx).turns ∧ m.xb ≠ -1) ↔ m ∈ beats_of x y mtx := by
  constructor
  · rintro ⟨hm, hxb⟩
    cases hb : (find_turns x y mtx).have_beats with
    | true => rw [(find_turns_true hb).1] at hm; exact hm
    | false =>
      rw [(find_turns_false hb).1] at hm
      exact absurd (steps_of_xb hm) hxb
  · intro hm
    have hb : (find_turns x y mtx).have_beats = true := by
      unfold find_turns
      rw [if_pos (List.ne_nil_of_mem hm)]
    rw [(find_turns_true hb).1]
    exact ⟨hm, beats_of_xb hx hm⟩

theorem mem_man_cand {mtx : Grid} (hv : validGrid mtx) {type x y : Int} (hxy : onBoard x y)
    (ht : isMan type) (dx dy : Int) (m : move_pos) :
    m ∈ man_cand mtx type x y (x + 2 * dx) (y + 2 * dy) ↔
      onBoard (x + 2 * dx) (y + 2 * dy) ∧ cell mtx (x + 2 * dx) (y + 2 * dy) = 0 ∧
        opposite (cell mtx (x + dx) (y + dy)) type ∧
        m = ⟨x, y, x + 2 * dx, y + 2 * dy, x + dx, y + dy⟩ := by
  obtain ⟨hx0, hx7, hy0, hy7⟩ := hxy
  have ht14 : 1 ≤ type ∧ type ≤ 4 := by rcases ht with h | h <;> omega
  by_cases hon : onBoard (x + 2 * dx) (y + 2 * dy)
  · have hon' := hon
    obtain ⟨h1, h2, h3, h4⟩ := hon'
    have ex : (x + (x + 2 * dx)).tdiv 2 = x + dx := by
      rw [Int.tdiv_eq_ediv (by omega) (by omega)]; omega
    have ey : (y + (y + 2 * dy)).tdiv 2 = y + dy := by
      rw [Int.tdiv_eq_ediv (by omega) (by omega)]; omega
    have hr := cell_range hv (x + dx) (y + dy)
    have hopp := opp_test_iff _ _ hr.1 hr.2 ht14.1 ht14.2
    unfold man_cand
    rw [if_neg (by omega), ex, ey]
    by_cases hc : cell mtx (x + 2 * dx) (y + 2 * dy) = 0
    · by_cases ho : opposite (cell mtx (x + dx) (y + dy)) type
      · have ho' := hopp.2 ho
        rw [if_neg (by simp [hc, ho'.1, ho'.2])]
        simp [hon, hc, ho]
      · have ho' : ¬ (cell mtx (x + dx) (y + dy) ≠ 0 ∧
            (cell mtx (x + dx) (y + dy)).tmod 2 ≠ type.tmod 2) := fun h => ho (hopp.1 h)
        rw [if_pos (by
          by_cases h0 : cell mtx (x + dx) (y + dy) = 0
          · exact Or.inr (Or.inl h0)
          · exact Or.inr (Or.inr (by
              by_contra h2
              exact ho' ⟨h0, h2⟩)))]
        simp [ho]
    · rw [if_pos (Or.inl hc)]
      simp [hc]
  · unfold man_cand
    rw [if_pos (by unfold onBoard at hon; omega)]
    simp [hon]

/-- C2: for a man on `(x, y)` the capturing moves of `find_turns(x, y, mtx)` are exactly
the jumps `(x, y) -> (x + 2dx, y + 2dy)` over `(x + dx, y + dy)`, one for each diagonal
direction whose landing square is on the board and empty and whose jumped square holds a
piece of the other colour. -/
theorem C2_man_captures (mtx : Grid) (hv : validGrid mtx) (x y : Int) (hxy : onBoard x y)
    (hman : isMan (cell mtx x y)) (m : move_pos) :
    (m ∈ (find_turns x y mtx).turns ∧ m.xb ≠ -1) ↔
      ∃ dx dy : Int, (dx = -1 ∨ dx = 1) ∧ (dy = -1 ∨ dy = 1) ∧
        onBoard (x + 2 * dx) (y + 2 * dy) ∧ cell mtx (x + 2 * dx) (y + 2 * dy) = 0 ∧
        opposite (cell mtx (x + dx) (y + dy)) (cell mtx x y) ∧
        m = ⟨x, y, x + 2 * dx, y + 2 * dy, x + dx, y + dy⟩ := by
  rw [captures_iff hxy.1]
  have hbo : beats_of x y mtx = man_beats mtx (cell mtx x y) x y := by
    simp only [beats_of]
    exact if_pos hman
  have e1 : x - 2 = x + 2 * (-1) := by ring
  have e2 : x + 2 = x + 2 * 1 := by ring
  have e3 : y - 2 = y + 2 * (-1) := by ring
  have e4 : y + 2 = y + 2 * 1 := by ring
  rw [hbo, man_beats_eq, e1, e2, e3, e4]
  simp only [List.mem_append]
  rw [mem_man_cand hv hxy hman (-1) (-1), mem_man_cand hv hxy hman (-1) 1,
    mem_man_cand hv hxy hman 1 (-1), mem_man_cand hv hxy hman 1 1]
  constructor
  · rintro (h | h | h | h)
    · exact ⟨-1, -1, Or.inl rfl, Or.inl rfl, h⟩
    · exact ⟨-1, 1, Or.inl rfl, Or.inr rfl, h⟩
    · exact ⟨1, -1, Or.inr rfl, Or.inl rfl, h⟩
    · exact ⟨1, 1, Or.inr rfl, Or.inr rfl, h⟩
  · rintro ⟨dx, dy, hdx, hdy, h⟩
    rcases hdx with rfl | rfl <;> rcases hdy with rfl | rfl
    · exact Or.inl h
    · exact Or.inr (Or.inl h)
    · exact Or.inr (Or.inr (Or.inl h))
    · exact Or.inr (Or.inr (Or.inr h))

/-! ## The capture scan of a king along one ray -/

theorem ray_shift (a d : Int) (s : Nat) : a + ((s + 1 : Nat) : Int) * d = a + d + (s : Int) * d := by
  push_cast; ring

/-- After a piece to beat has been met at `(xb, yb)`, the scan emits a landing on every
further square up to the first square that is off the board or occupied. -/
theorem king_beats_ray_found (mtx : Grid) (type x y i j : Int) (fuel : Nat) :
    ∀ (i2 j2 xb yb : Int), xb ≠ -1 → (∀ t : Nat, xb ≠ i2 + (t : Int) * i) → ∀ m : move_pos,
      (m ∈ king_beats_ray mtx type x y i j fuel i2 j2 xb yb ↔
        ∃ n : Nat, n < fuel ∧
          (∀ t : Nat, t ≤ n → rayGuard (i2 + (t : Int) * i) (j2 + (t : Int) * j) ∧
            cell mtx (i2 + (t : Int) * i) (j2 + (t : Int) * j) = 0) ∧
          m = ⟨x, y, i2 + (n : Int) * i, j2 + (n : Int) * j, xb, yb⟩) := by
  induction fuel with
  | zero => intro i2 j2 xb yb _ _ m; simp [king_beats_ray]
  | succ k ih =>
    intro i2 j2 xb yb hxb hne m
    rw [king_beats_ray]
    by_cases hg : i2 ≠ 8 ∧ j2 ≠ 8 ∧ i2 ≠ -1 ∧ j2 ≠ -1
    · rw [if_pos hg]
      by_cases hc : cell mtx i2 j2 = 0
      · have hnb : ¬ (cell mtx i2 j2 ≠ 0 ∧
            ((cell mtx i2 j2).tmod 2 = type.tmod 2 ∨
              ((cell mtx i2 j2).tmod 2 ≠ type.tmod 2 ∧ xb ≠ -1))) := fun h => h.1 hc
        have hne0 : xb ≠ i2 := by simpa using hne 0
        have hne' : ∀ t : Nat, xb ≠ i2 + i + (t : Int) * i := by
          intro t
          rw [← ray_shift]
          exact hne (t + 1)
        rw [if_neg hnb]
        dsimp only
        rw [if_neg (not_not.2 hc), if_neg (not_not.2 hc), if_pos ⟨hxb, hne0⟩, List.mem_append,
          List.mem_singleton, ih (i2 + i) (j2 + j) xb yb hxb hne' m]
        constructor
        · rintro (rfl | ⟨n, hn, hall, rfl⟩)
          · refine ⟨0, by omega, ?_, by simp⟩
            intro t ht
            have ht0 : t = 0 := by omega
            subst ht0
            simpa using And.intro hg hc
          · refine ⟨n + 1, by omega, ?_, ?_⟩
            · intro t ht
              cases t with
              | zero => simpa using And.intro hg hc
              | succ s =>
                rw [ray_shift, ray_shift]
                exact hall s (by omega)
            · rw [ray_shift, ray_shift]
        · rintro ⟨n, hn, hall, rfl⟩
          cases n with
          | zero => left; simp
          | succ n' =>
            right
            refine ⟨n', by omega, ?_, ?_⟩
            · intro t ht
              have h := hall (t + 1) (by omega)
              rw [ray_shift, ray_shift] at h
              exact h
            · rw [ray_shift, ray_shift]
      · have hbr : cell mtx i2 j2 ≠ 0 ∧
            ((cell mtx i2 j2).tmod 2 = type.tmod 2 ∨
              ((cell mtx i2 j2).tmod 2 ≠ type.tmod 2 ∧ xb ≠ -1)) := by
          refine ⟨hc, ?_⟩
          by_cases hs : (cell mtx i2 j2).tmod 2 = type.tmod 2
          · exact Or.inl hs
          · exact Or.inr ⟨hs, hxb⟩
        rw [if_pos hbr]
        constructor
        · intro h; simp at h
        · rintro ⟨n, _, hall, _⟩
          have h := (hall 0 (Nat.zero_le _)).2
          simp at h
          exact absurd h hc
    · rw [if_neg hg]
      constructor
      · intro h; simp at h
      · rintro ⟨n, _, hall, _⟩
        have h := (hall 0 (Nat.zero_le _)).1
        simp [rayGuard] at h
        exact absurd ⟨h.1, h.2.1, h.2.2.1, h.2.2.2⟩ hg

/-- Before any piece has been met (`xb = -1`), the scan emits exactly the landings behind
the first occupied square of the ray when that square holds a piece of the other parity. -/
theorem king_beats_ray_scan (mtx : Grid) (type x y i j : Int) (hi : i ≠ 0) (fuel : Nat) :
    ∀ (i2 j2 yb : Int) (m : move_pos),
      (m ∈ king_beats_ray mtx type x y i j fuel i2 j2 (-1) yb ↔
        ∃ p n : Nat, p < n ∧ n < fuel ∧
          (∀ t : Nat, t < p → rayGuard (i2 + (t : Int) * i) (j2 + (t : Int) * j) ∧
            cell mtx (i2 + (t : Int) * i) (j2 + (t : Int) * j) = 0) ∧
          rayGuard (i2 + (p : Int) * i) (j2 + (p : Int) * j) ∧
          cell mtx (i2 + (p : Int) * i) (j2 + (p : Int) * j) ≠ 0 ∧
          (cell mtx (i2 + (p : Int) * i) (j2 + (p : Int) * j)).tmod 2 ≠ type.tmod 2 ∧
          (∀ t : Nat, p < t → t ≤ n → rayGuard (i2 + (t : Int) * i) (j2 + (t : Int) * j) ∧
            cell mtx (i2 + (t : Int) * i) (j2 + (t : Int) * j) = 0) ∧
          m = ⟨x, y, i2 + (n : Int) * i, j2 + (n : Int) * j,
            i2 + (p : Int) * i, j2 + (p : Int) * j⟩) := by
  induction fuel with
  | zero => intro i2 j2 yb m; simp [king_beats_ray]
  | succ k ih =>
    intro i2 j2 yb m
    rw [king_beats_ray]
    by_cases hg : i2 ≠ 8 ∧ j2 ≠ 8 ∧ i2 ≠ -1 ∧ j2 ≠ -1
    · have hg0 : rayGuard (i2 + ((0 : Nat) : Int) * i) (j2 + ((0 : Nat) : Int) * j) := by
        simpa [rayGuard] using hg
      rw [if_pos hg]
      by_cases hc : cell mtx i2 j2 = 0
      · have hc0 : cell mtx (i2 + ((0 : Nat) : Int) * i) (j2 + ((0 : Nat) : Int) * j) = 0 := by
          simpa using hc
        have hnb : ¬ (cell mtx i2 j2 ≠ 0 ∧
            ((cell mtx i2 j2).tmod 2 = type.tmod 2 ∨
              ((cell mtx i2 j2).tmod 2 ≠ type.tmod 2 ∧ (-1 : Int) ≠ -1))) := fun h => h.1 hc
        rw [if_neg hnb]
        dsimp only
        rw [if_neg (not_not.2 hc), if_neg (not_not.2 hc), if_neg (fun h => h.1 rfl),
          List.nil_append, ih (i2 + i) (j2 + j) yb m]
        constructor
        · rintro ⟨p, n, hpn, hn, hbefore, hgp, hcp, hop, hafter, rfl⟩
          refine ⟨p + 1, n + 1, by omega, by omega, ?_, ?_, ?_, ?_, ?_, ?_⟩
          · intro t ht
            cases t with
            | zero => exact ⟨hg0, hc0⟩
            | succ s =>
              rw [ray_shift, ray_shift]
              exact hbefore s (by omega)
          · rw [ray_shift, ray_shift]; exact hgp
          · rw [ray_shift, ray_shift]; exact hcp
          · rw [ray_shift, ray_shift]; exact hop
          · intro t hpt htn
            cases t with
            | zero => omega
            | succ s =>
              rw [ray_shift, ray_shift]
              exact hafter s (by omega) (by omega)
          · rw [ray_shift, ray_shift, ray_shift, ray_shift]
        · rintro ⟨p, n, hpn, hn, hbefore, hgp, hcp, hop, hafter, rfl⟩
          cases p with
          | zero => exact absurd hc0 hcp
          | succ p' =>
            cases n with
            | zero => omega
            | succ n' =>
              rw [ray_shift, ray_shift] at hgp hcp hop
              refine ⟨p', n', by omega, by omega, ?_, hgp, hcp, hop, ?_, ?_⟩
              · intro t ht
                have h := hbefore (t + 1) (by omega)
                rw [ray_shift, ray_shift] at h
                exact h
              · intro t hpt htn
                have h := hafter (t + 1) (by omega) (by omega)
                rw [ray_shift, ray_shift] at h
                exact h
              · rw [ray_shift, ray_shift, ray_shift, ray_shift]
      · have hc0 : cell mtx (i2 + ((0 : Nat) : Int) * i) (j2 + ((0 : Nat) : Int) * j) ≠ 0 := by
          simpa using hc
        by_cases hs : (cell mtx i2 j2).tmod 2 = type.tmod 2
        · rw [if_pos ⟨hc, Or.inl hs⟩]
          constructor
          · intro h; simp at h
          · rintro ⟨p, n, _, _, hbefore, _, _, hop, _, _⟩
            cases p with
            | zero => simp at hop; exact absurd hs hop
            | succ p' => exact absurd (hbefore 0 (by omega)).2 hc0
        · have hnb : ¬ (cell mtx i2 j2 ≠ 0 ∧
              ((cell mtx i2 j2).tmod 2 = type.tmod 2 ∨
                ((cell mtx i2 j2).tmod 2 ≠ type.tmod 2 ∧ (-1 : Int) ≠ -1))) := by
            rintro ⟨_, h | h⟩
            · exact hs h
            · exact h.2 rfl
          have hne' : ∀ t : Nat, i2 ≠ i2 + i + (t : Int) * i := by
            intro t h
            have h2 : i * ((t : Int) + 1) = 0 := by linarith
            rcases mul_eq_zero.1 h2 with h3 | h3
            · exact hi h3
            · omega
          rw [if_neg hnb]
          dsimp only
          rw [if_pos hc, if_pos hc, if_neg (fun h => h.2 rfl), List.nil_append,
            king_beats_ray_found mtx type x y i j k (i2 + i) (j2 + j) i2 j2 hg.2.2.1 hne' m]
          constructor
          · rintro ⟨n, hn, hall, rfl⟩
            refine ⟨0, n + 1, by omega, by omega, ?_, hg0, hc0, by simpa using hs, ?_, ?_⟩
            · intro t ht; omega
            · intro t hpt htn
              cases t with
              | zero => omega
              | succ s =>
                rw [ray_shift, ray_shift]
                exact hall s (by omega)
            · rw [ray_shift, ray_shift]; simp
          · rintro ⟨p, n, hpn, hn, hbefore, _, _, _, hafter, rfl⟩
            cases p with
            | succ p' => exact absurd (hbefore 0 (by omega)).2 hc0
            | zero =>
              cases n with
              | zero => omega
              | succ n' =>
                refine ⟨n', by omega, ?_, ?_⟩
                · intro t ht
                  have h := hafter (t + 1) (by omega) (by omega)
                  rw [ray_shift, ray_shift] at h
                  exact h
                · rw [ray_shift, ray_shift]; simp
    · rw [if_neg hg]
      constructor
      · intro h; simp at h
      · rintro ⟨p, n, _, _, hbefore, hgp, _, _, _, _⟩
        have h : rayGuard (i2 + ((0 : Nat) : Int) * i) (j2 + ((0 : Nat) : Int) * j) := by
          cases p with
          | zero => exact hgp
          | succ p' => exact (hbefore 0 (by omega)).1
        simp [rayGuard] at h
        exact absurd ⟨h.1, h.2.1, h.2.2.1, h.2.2.2⟩ hg

/-- Squares passed by the loop condition, starting next to an on-board square, are on
the board. -/
theorem guard_onBoard {x y dx dy : Int} (hxy : onBoard x y) (hdx : dx = -1 ∨ dx = 1)
    (hdy : dy = -1 ∨ dy = 1) (n : Nat)
    (h : ∀ t : Nat, t ≤ n → rayGuard (x + dx + (t : Int) * dx) (y + dy + (t : Int) * dy)) :
    onBoard (x + dx + (n : Int) * dx) (y + dy + (n : Int) * dy) := by
  induction n with
  | zero =>
    have h0 := h 0 (Nat.le_refl 0)
    unfold rayGuard at h0
    unfold onBoard at hxy ⊢
    rcases hdx with rfl | rfl <;> rcases hdy with rfl | rfl <;> simp at h0 ⊢ <;> omega
  | succ k ih =>
    have hk := ih (fun t ht => h t (by omega))
    have h1 := h (k + 1) (Nat.le_refl _)
    unfold rayGuard at h1
    unfold onBoard at hk ⊢
    rcases hdx with rfl | rfl <;> rcases hdy with rfl | rfl <;>
      push_cast at h1 ⊢ <;> simp at hk h1 ⊢ <;> omega

/-- The capture scan of a king on `(x, y)` along `(dx, dy)`, in terms of the board. -/
theorem king_ray_iff {mtx : Grid} (hv : validGrid mtx) {x y : Int} (hxy : onBoard x y)
    (hking : isKing (cell mtx x y)) {dx dy : Int} (hdx : dx = -1 ∨ dx = 1)
    (hdy : dy = -1 ∨ dy = 1) (m : move_pos) :
    m ∈ king_beats_ray mtx (cell mtx x y) x y dx dy 8 (x + dx) (y + dy) (-1) (-1) ↔
      ∃ p n : Nat, 1 ≤ p ∧ p < n ∧ onBoard (x + (n : Int) * dx) (y + (n : Int) * dy) ∧
        (∀ t : Nat, 1 ≤ t → t < p → cell mtx (x + (t : Int) * dx) (y + (t : Int) * dy) = 0) ∧
        opposite (cell mtx (x + (p : Int) * dx) (y + (p : Int) * dy)) (cell mtx x y) ∧
        (∀ t : Nat, p < t → t ≤ n → cell mtx (x + (t : Int) * dx) (y + (t : Int) * dy) = 0) ∧
        m = ⟨x, y, x + (n : Int) * dx, y + (n : Int) * dy,
          x + (p : Int) * dx, y + (p : Int) * dy⟩ := by
  have hdx0 : dx ≠ 0 := by rcases hdx with rfl | rfl <;> decide
  have ht14 : 1 ≤ cell mtx x y ∧ cell mtx x y ≤ 4 := by rcases hking with h | h <;> omega
  have hopp : ∀ a b : Int, (cell mtx a b ≠ 0 ∧ (cell mtx a b).tmod 2 ≠ (cell mtx x y).tmod 2) ↔
      opposite (cell mtx a b) (cell mtx x y) := fun a b =>
    opp_test_iff _ _ (cell_range hv a b).1 (cell_range hv a b).2 ht14.1 ht14.2
  rw [king_beats_ray_scan mtx (cell mtx x y) x y dx dy hdx0 8 (x + dx) (y + dy) (-1) m]
  constructor
  · rintro ⟨p, n, hpn, hn, hbefore, hgp, hcp, hop, hafter, rfl⟩
    have hguard : ∀ t : Nat, t ≤ n →
        rayGuard (x + dx + (t : Int) * dx) (y + dy + (t : Int) * dy) := by
      intro t ht
      rcases Nat.lt_trichotomy t p with h | h | h
      · exact (hbefore t h).1
      · subst h; exact hgp
      · exact (hafter t h ht).1
    have hon := guard_onBoard hxy hdx hdy n hguard
    refine ⟨p + 1, n + 1, by omega, by omega, ?_, ?_, ?_, ?_, ?_⟩
    · rw [ray_shift, ray_shift]; exact hon
    · intro t h1 h2
      cases t with
      | zero => omega
      | succ s => rw [ray_shift, ray_shift]; exact (hbefore s (by omega)).2
    · rw [ray_shift, ray_shift]; exact (hopp _ _).1 ⟨hcp, hop⟩
    · intro t h1 h2
      cases t with
      | zero => omega
      | succ s => rw [ray_shift, ray_shift]; exact (hafter s (by omega) (by omega)).2
    · rw [ray_shift, ray_shift, ray_shift, ray_shift]
  · rintro ⟨p, n, hp1, hpn, hon, hbefore, hop, hafter, rfl⟩
    obtain ⟨p', rfl⟩ : ∃ p', p = p' + 1 := ⟨p - 1, by omega⟩
    obtain ⟨n', rfl⟩ : ∃ n', n = n' + 1 := ⟨n - 1, by omega⟩
    rw [ray_shift, ray_shift] at hop
    have hn7 : n' < 7 ∧ ∀ t : Nat, t ≤ n' →
        rayGuard (x + dx + (t : Int) * dx) (y + dy + (t : Int) * dy) := by
      unfold onBoard at hxy hon
      unfold rayGuard
      rcases hdx with rfl | rfl <;> rcases hdy with rfl | rfl <;>
        push_cast at hon <;> refine ⟨by omega, fun t ht => ?_⟩ <;> simp <;> omega
    have hop' := (hopp _ _).2 hop
    refine ⟨p', n', by omega, by omega, ?_, hn7.2 p' (by omega), hop'.1, hop'.2, ?_, ?_⟩
    · intro t ht
      refine ⟨hn7.2 t (by omega), ?_⟩
      have h := hbefore (t + 1) (by omega) (by omega)
      rw [ray_shift, ray_shift] at h
      exact h
    · intro t h1 h2
      refine ⟨hn7.2 t h2, ?_⟩
      have h := hafter (t + 1) (by omega) (by omega)
      rw [ray_shift, ray_shift] at h
      exact h
    · rw [ray_shift, ray_shift, ray_shift, ray_shift]

theorem opposite_ne_zero {a b : Int} (h : opposite a b) : a ≠ 0 := by
  unfold opposite isWhite isBlack at h
  omega

/-- C3: for a king on `(x, y)` the capturing moves of `find_turns(x, y, mtx)` are exactly
the moves along a diagonal `(dx, dy)` such that the first occupied square of the ray, at
step `p`, holds a piece of the other colour and the landing square, at step `n > p`, is on
the board with every square after step `p` up to it empty; the beaten square is the one at
step `p`. In particular such a move passes over exactly one piece. -/
theorem C3_king_captures (mtx : Grid) (hv : validGrid mtx) (x y : Int) (hxy : onBoard x y)
    (hking : isKing (cell mtx x y)) (m : move_pos) :
    ((m ∈ (find_turns x y mtx).turns ∧ m.xb ≠ -1) ↔
      ∃ dx dy : Int, (dx = -1 ∨ dx = 1) ∧ (dy = -1 ∨ dy = 1) ∧
        ∃ p n : Nat, 1 ≤ p ∧ p < n ∧ onBoard (x + (n : Int) * dx) (y + (n : Int) * dy) ∧
          (∀ t : Nat, 1 ≤ t → t < p →
            cell mtx (x + (t : Int) * dx) (y + (t : Int) * dy) = 0) ∧
          opposite (cell mtx (x + (p : Int) * dx) (y + (p : Int) * dy)) (cell mtx x y) ∧
          (∀ t : Nat, p < t → t ≤ n →
            cell mtx (x + (t : Int) * dx) (y + (t : Int) * dy) = 0) ∧
          m = ⟨x, y, x + (n : Int) * dx, y + (n : Int) * dy,
            x + (p : Int) * dx, y + (p : Int) * dy⟩) ∧
    ((m ∈ (find_turns x y mtx).turns ∧ m.xb ≠ -1) →
      ∃ dx dy : Int, (dx = -1 ∨ dx = 1) ∧ (dy = -1 ∨ dy = 1) ∧
        ∃ n : Nat, m.x2 = x + (n : Int) * dx ∧ m.y2 = y + (n : Int) * dy ∧
          ∃ p : Nat, 1 ≤ p ∧ p < n ∧ ∀ t : Nat, 1 ≤ t → t < n →
            (cell mtx (x + (t : Int) * dx) (y + (t : Int) * dy) ≠ 0 ↔ t = p)) := by
  have hbo : beats_of x y mtx = king_beats mtx (cell mtx x y) x y := by
    simp only [beats_of]
    exact if_neg (by unfold isKing at hking; omega)
  have main : (m ∈ (find_turns x y mtx).turns ∧ m.xb ≠ -1) ↔
      ∃ dx dy : Int, (dx = -1 ∨ dx = 1) ∧ (dy = -1 ∨ dy = 1) ∧
        ∃ p n : Nat, 1 ≤ p ∧ p < n ∧ onBoard (x + (n : Int) * dx) (y + (n : Int) * dy) ∧
          (∀ t : Nat, 1 ≤ t → t < p →
            cell mtx (x + (t : Int) * dx) (y + (t : Int) * dy) = 0) ∧
          opposite (cell mtx (x + (p : Int) * dx) (y + (p : Int) * dy)) (cell mtx x y) ∧
          (∀ t : Nat, p < t → t ≤ n →
            cell mtx (x + (t : Int) * dx) (y + (t : Int) * dy) = 0) ∧
          m = ⟨x, y, x + (n : Int) * dx, y + (n : Int) * dy,
            x + (p : Int) * dx, y + (p : Int) * dy⟩ := by
    rw [captures_iff hxy.1, hbo]
    simp only [king_beats, List.mem_flatMap]
    constructor
    · rintro ⟨dx, hdx, dy, hdy, h⟩
      have hdx' : dx = -1 ∨ dx = 1 := by simpa using hdx
      have hdy' : dy = -1 ∨ dy = 1 := by simpa using hdy
      exact ⟨dx, dy, hdx', hdy', (king_ray_iff hv hxy hking hdx' hdy' m).1 h⟩
    · rintro ⟨dx, dy, hdx, hdy, h⟩
      exact ⟨dx, by simpa using hdx, dy, by simpa using hdy,
        (king_ray_iff hv hxy hking hdx hdy m).2 h⟩
  refine ⟨main, ?_⟩
  intro h
  obtain ⟨dx, dy, hdx, hdy, p, n, hp1, hpn, _, hbefore, hop, hafter, rfl⟩ := main.1 h
  refine ⟨dx, dy, hdx, hdy, n, rfl, rfl, p, hp1, hpn, ?_⟩
  intro t h1 h2
  constructor
  · intro hc
    by_contra hne
    rcases Nat.lt_or_gt_of_ne hne with hlt | hgt
    · exact hc (hbefore t h1 hlt)
    · exact hc (hafter t hgt (by omega))
  · rintro rfl
    exact opposite_ne_zero hop

/-! ## Ordinary moves -/

/-- The slide of a king emits every square up to the first one that is off the board or
occupied. -/
theorem king_steps_ray_iff (mtx : Grid) (x y i j : Int) (fuel : Nat) :
    ∀ (i2 j2 : Int) (m : move_pos),
      (m ∈ king_steps_ray mtx x y i j fuel i2 j2 ↔
        ∃ n : Nat, n < fuel ∧
          (∀ t : Nat, t ≤ n → rayGuard (i2 + (t : Int) * i) (j2 + (t : Int) * j) ∧
            cell mtx (i2 + (t : Int) * i) (j2 + (t : Int) * j) = 0) ∧
          m = ⟨x, y, i2 + (n : Int) * i, j2 + (n : Int) * j, -1, -1⟩) := by
  induction fuel with
  | zero => intro i2 j2 m; simp [king_steps_ray]
  | succ k ih =>
    intro i2 j2 m
    rw [king_steps_ray]
    by_cases hg : i2 ≠ 8 ∧ j2 ≠ 8 ∧ i2 ≠ -1 ∧ j2 ≠ -1
    · rw [if_pos hg]
      by_cases hc : cell mtx i2 j2 = 0
      · rw [if_neg (not_not.2 hc), List.mem_cons, ih (i2 + i) (j2 + j) m]
        constructor
        · rintro (rfl | ⟨n, hn, hall, rfl⟩)
          · refine ⟨0, by omega, ?_, by simp⟩
            intro t ht
            have ht0 : t = 0 := by omega
            subst ht0
            simpa [rayGuard] using And.intro hg hc
          · refine ⟨n + 1, by omega, ?_, ?_⟩
            · intro t ht
              cases t with
              | zero => simpa [rayGuard] using And.intro hg hc
              | succ s =>
                rw [ray_shift, ray_shift]
                exact hall s (by omega)
            · rw [ray_shift, ray_shift]
        · rintro ⟨n, hn, hall, rfl⟩
          cases n with
          | zero => left; simp
          | succ n' =>
            right
            refine ⟨n', by omega, ?_, ?_⟩
            · intro t ht
              have h := hall (t + 1) (by omega)
              rw [ray_shift, ray_shift] at h
              exact h
            · rw [ray_shift, ray_shift]
      · rw [if_pos hc]
        constructor
        · intro h; simp at h
        · rintro ⟨n, _, hall, _⟩
          have h := (hall 0 (Nat.zero_le _)).2
          simp at h
          exact absurd h hc
    · rw [if_neg hg]
      constructor
      · intro h; simp at h
      · rintro ⟨n, _, hall, _⟩
        have h := (hall 0 (Nat.zero_le _)).1
        simp [rayGuard] at h
        exact absurd ⟨h.1, h.2.1, h.2.2.1, h.2.2.2⟩ hg

/-- The slide of a king on `(x, y)` along `(dx, dy)`, in terms of the board. -/
theorem king_slide_iff {mtx : Grid} {x y : Int} (hxy : onBoard x y) {dx dy : Int}
    (hdx : dx = -1 ∨ dx = 1) (hdy : dy = -1 ∨ dy = 1) (m : move_pos) :
    m ∈ king_steps_ray mtx x y dx dy 8 (x + dx) (y + dy) ↔
      ∃ n : Nat, 1 ≤ n ∧ onBoard (x + (n : Int) * dx) (y + (n : Int) * dy) ∧
        (∀ t : Nat, 1 ≤ t → t ≤ n → cell mtx (x + (t : Int) * dx) (y + (t : Int) * dy) = 0) ∧
        m = ⟨x, y, x + (n : Int) * dx, y + (n : Int) * dy, -1, -1⟩ := by
  rw [king_steps_ray_iff mtx x y dx dy 8 (x + dx) (y + dy) m]
  constructor
  · rintro ⟨n, hn, hall, rfl⟩
    have hon := guard_onBoard hxy hdx hdy n (fun t ht => (hall t ht).1)
    refine ⟨n + 1, by omega, ?_, ?_, ?_⟩
    · rw [ray_shift, ray_shift]; exact hon
    · intro t h1 h2
      cases t with
      | zero => omega
      | succ s => rw [ray_shift, ray_shift]; exact (hall s (by omega)).2
    · rw [ray_shift, ray_shift]
  · rintro ⟨n, hn1, hon, hall, rfl⟩
    obtain ⟨n', rfl⟩ : ∃ n', n = n' + 1 := ⟨n - 1, by omega⟩
    have hn7 : n' < 7 ∧ ∀ t : Nat, t ≤ n' →
        rayGuard (x + dx + (t : Int) * dx) (y + dy + (t : Int) * dy) := by
      unfold onBoard at hxy hon
      unfold rayGuard
      rcases hdx with rfl | rfl <;> rcases hdy with rfl | rfl <;>
        push_cast at hon <;> refine ⟨by omega, fun t ht => ?_⟩ <;> simp <;> omega
    refine ⟨n', by omega, ?_, ?_⟩
    · intro t ht
      refine ⟨hn7.2 t ht, ?_⟩
      have h := hall (t + 1) (by omega) (by omega)
      rw [ray_shift, ray_shift] at h
      exact h
    · rw [ray_shift, ray_shift]

/-- A man's ordinary moves, given the row `i` it steps to. -/
theorem man_steps_iff (mtx : Grid) (type x y : Int) (m : move_pos) :
    m ∈ man_steps mtx type x y ↔
      ∃ dy : Int, (dy = -1 ∨ dy = 1) ∧
        onBoard (if type.tmod 2 ≠ 0 then x - 1 else x + 1) (y + dy) ∧
        cell mtx (if type.tmod 2 ≠ 0 then x - 1 else x + 1) (y + dy) = 0 ∧
        m = ⟨x, y, if type.tmod 2 ≠ 0 then x - 1 else x + 1, y + dy, -1, -1⟩ := by
  simp only [man_steps, List.mem_filterMap]
  generalize (if type.tmod 2 ≠ 0 then x - 1 else x + 1) = i
  constructor
  · rintro ⟨j, hj, h⟩
    split at h
    · exact absurd h (by simp)
    · rename_i hc
      simp only [Option.some.injEq] at h
      subst h
      have hj' : j = y - 1 ∨ j = y + 1 := by simpa using hj
      have hc0 : cell mtx i j = 0 := by
        by_contra h0
        exact hc (by simp [h0])
      unfold onBoard
      rcases hj' with rfl | rfl
      · refine ⟨-1, Or.inl rfl, ?_, ?_, ?_⟩
        · have e : y + -1 = y - 1 := by ring
          rw [e]; omega
        · have e : y + -1 = y - 1 := by ring
          rw [e]; exact hc0
        · have e : y + -1 = y - 1 := by ring
          rw [e]
      · exact ⟨1, Or.inr rfl, by omega, hc0, rfl⟩
  · rintro ⟨dy, hdy, hon, hc, rfl⟩
    refine ⟨y + dy, by rcases hdy with rfl | rfl <;> simp [sub_eq_add_neg], ?_⟩
    unfold onBoard at hon
    rw [if_neg (by rw [hc]; omega)]

/-- C4: for a piece on `(x, y)` that has no capture, `find_turns(x, y, mtx)` yields
exactly: for a white man the steps to `(x - 1, y - 1)` and `(x - 1, y + 1)`, for a black
man the steps to `(x + 1, y - 1)` and `(x + 1, y + 1)`, where the square is on the board and
empty; for a king every square reached along a diagonal before the first occupied square
or the edge. None of the moves carries a beaten square. -/
theorem C4_ordinary_moves (mtx : Grid) (x y : Int) (hxy : onBoard x y)
    (hno : (find_turns x y mtx).have_beats = false) (m : move_pos) :
    (cell mtx x y = 1 →
      (m ∈ (find_turns x y mtx).turns ↔
        ∃ dy : Int, (dy = -1 ∨ dy = 1) ∧ onBoard (x - 1) (y + dy) ∧
          cell mtx (x - 1) (y + dy) = 0 ∧ m = ⟨x, y, x - 1, y + dy, -1, -1⟩)) ∧
    (cell mtx x y = 2 →
      (m ∈ (find_turns x y mtx).turns ↔
        ∃ dy : Int, (dy = -1 ∨ dy = 1) ∧ onBoard (x + 1) (y + dy) ∧
          cell mtx (x + 1) (y + dy) = 0 ∧ m = ⟨x, y, x + 1, y + dy, -1, -1⟩)) ∧
    (isKing (cell mtx x y) →
      (m ∈ (find_turns x y mtx).turns ↔
        ∃ dx dy : Int, (dx = -1 ∨ dx = 1) ∧ (dy = -1 ∨ dy = 1) ∧
          ∃ n : Nat, 1 ≤ n ∧ onBoard (x + (n : Int) * dx) (y + (n : Int) * dy) ∧
            (∀ t : Nat, 1 ≤ t → t ≤ n →
              cell mtx (x + (t : Int) * dx) (y + (t : Int) * dy) = 0) ∧
            m = ⟨x, y, x + (n : Int) * dx, y + (n : Int) * dy, -1, -1⟩)) := by
  rw [(find_turns_false hno).1]
  refine ⟨?_, ?_, ?_⟩
  · intro h1
    have hs : steps_of x y mtx = man_steps mtx 1 x y := by
      simp [steps_of, h1]
    rw [hs, man_steps_iff]
    have e : (if (1 : Int).tmod 2 ≠ 0 then x - 1 else x + 1) = x - 1 := if_pos (by decide)
    rw [e]
  · intro h2
    have hs : steps_of x y mtx = man_steps mtx 2 x y := by
      simp [steps_of, h2]
    rw [hs, man_steps_iff]
    have e : (if (2 : Int).tmod 2 ≠ 0 then x - 1 else x + 1) = x + 1 := if_neg (by decide)
    rw [e]
  · intro hk
    have hs : steps_of x y mtx = king_steps mtx x y := by
      simp only [steps_of]
      exact if_neg (by unfold isKing at hk; omega)
    rw [hs]
    simp only [king_steps, List.mem_flatMap]
    constructor
    · rintro ⟨dx, hdx, dy, hdy, h⟩
      have hdx' : dx = -1 ∨ dx = 1 := by simpa using hdx
      have hdy' : dy = -1 ∨ dy = 1 := by simpa using hdy
      exact ⟨dx, dy, hdx', hdy', (king_slide_iff hxy hdx' hdy' m).1 h⟩
    · rintro ⟨dx, dy, hdx, hdy, h⟩
      exact ⟨dx, by simpa using hdx, dy, by simpa using hdy,
        (king_slide_iff hxy hdx hdy m).2 h⟩

/-! ## Reading and writing cells -/

theorem cell_setCell_ne (mtx : Grid) (i j v i' j' : Int) (h : (i, j) ≠ (i', j')) :
    cell (setCell mtx i j v) i' j' = cell mtx i' j' := by
  unfold cell setCell
  by_cases hc : 0 ≤ i' ∧ 0 ≤ j'
  · rw [if_pos hc, if_pos hc]
    by_cases hs : 0 ≤ i ∧ 0 ≤ j
    · rw [if_pos hs]
      simp only [List.getD_eq_getElem?_getD, List.getElem?_set]
      by_cases hi : i.toNat = i'.toNat
      · have hi' : i = i' := by omega
        have hj : j.toNat ≠ j'.toNat := by
          intro hj
          have hj' : j = j' := by omega
          exact h (by rw [hi', hj'])
        rw [if_pos hi]
        by_cases hl : i.toNat < mtx.length
        · rw [if_pos hl]
          simp only [Option.getD_some, List.getElem?_set, if_neg hj]
          rw [hi]
        · rw [if_neg hl]
          have : mtx[i'.toNat]? = none := by
            rw [← hi]; exact List.getElem?_eq_none (by omega)
          rw [this]
      · rw [if_neg hi]
    · rw [if_neg hs]
  · rw [if_neg hc, if_neg hc]

theorem cell_setCell_eq {mtx : Grid} (h8 : is8x8 mtx) {i j : Int} (hon : onBoard i j) (v : Int) :
    cell (setCell mtx i j v) i j = v := by
  obtain ⟨h1, h2, h3, h4⟩ := hon
  unfold cell setCell
  rw [if_pos ⟨h1, h3⟩, if_pos ⟨h1, h3⟩]
  have hl : i.toNat < mtx.length := by rw [h8.1]; omega
  simp only [List.getD_eq_getElem?_getD, List.getElem?_set, if_pos hl, if_true,
    Option.getD_some]
  have hrow : (mtx[i.toNat]?.getD []).length = 8 := by
    rw [List.getElem?_eq_getElem hl]
    exact h8.2 _ (List.getElem_mem _)
  have hj : j.toNat < (mtx[i.toNat]?.getD []).length := by rw [hrow]; omega
  rw [if_pos hj]
  rfl

theorem setCell_is8x8 {mtx : Grid} (h8 : is8x8 mtx) (i j v : Int) :
    is8x8 (setCell mtx i j v) := by
  unfold setCell
  split
  · refine ⟨by rw [List.length_set]; exact h8.1, ?_⟩
    intro r hr
    rcases List.mem_or_eq_of_mem_set hr with h | h
    · exact h8.2 r h
    · rw [h, List.length_set, List.getD_eq_getElem?_getD]
      cases hg : mtx[i.toNat]? with
      | none =>
        have : mtx.length ≤ i.toNat := List.getElem?_eq_none_iff.1 hg
        rw [List.set_eq_of_length_le this] at hr
        exact absurd (h8.2 r hr) (by rw [h]; simp [hg])
      | some row => exact h8.2 row (List.getElem?_mem hg)
  · exact h8

theorem validGrid_is8x8 {mtx : Grid} (hv : validGrid mtx) : is8x8 mtx :=
  ⟨hv.1, fun r hr => (hv.2 r hr).1⟩

/-! ## Applying a move -/

theorem make_turn_eq (mtx : Grid) (turn : move_pos) :
    make_turn mtx turn =
      setCell (setCell (promote_src (drop_beaten mtx turn) turn) turn.x2 turn.y2
        (cell (promote_src (drop_beaten mtx turn) turn) turn.x turn.y)) turn.x turn.y 0 := rfl

theorem drop_beaten_is8x8 {mtx : Grid} (h8 : is8x8 mtx) (turn : move_pos) :
    is8x8 (drop_beaten mtx turn) := by
  unfold drop_beaten
  split
  · exact setCell_is8x8 h8 _ _ _
  · exact h8

theorem promote_src_is8x8 {mtx : Grid} (h8 : is8x8 mtx) (turn : move_pos) :
    is8x8 (promote_src mtx turn) := by
  unfold promote_src
  split
  · exact setCell_is8x8 h8 _ _ _
  · exact h8

/-- The code on the source square after the promotion test. -/
theorem promote_src_cell {mtx : Grid} (h8 : is8x8 mtx) (turn : move_pos)
    (hsrc : onBoard turn.x turn.y) :
    promotesTo (cell mtx turn.x turn.y) turn.x2 (cell (promote_src mtx turn) turn.x turn.y) := by
  unfold promote_src promotesTo isKing
  split
  · rename_i h
    rw [cell_setCell_eq h8 hsrc]
    omega
  · rename_i h
    refine ⟨fun _ => rfl, fun h1 => absurd (Or.inl h1) h, fun h2 => absurd (Or.inr h2) h,
      fun _ => rfl⟩

theorem promote_src_other (mtx : Grid) (turn : move_pos) (i j : Int)
    (h : (turn.x, turn.y) ≠ (i, j)) :
    cell (promote_src mtx turn) i j = cell mtx i j := by
  unfold promote_src
  split
  · exact cell_setCell_ne _ _ _ _ _ _ h
  · rfl

theorem make_turn_is8x8 {mtx : Grid} (h8 : is8x8 mtx) (turn : move_pos) :
    is8x8 (make_turn mtx turn) := by
  rw [make_turn_eq]
  exact setCell_is8x8 (setCell_is8x8 (promote_src_is8x8 (drop_beaten_is8x8 h8 turn) turn) _ _ _)
    _ _ _

theorem make_turn_src {mtx : Grid} (h8 : is8x8 mtx) (turn : move_pos)
    (hsrc : onBoard turn.x turn.y) : cell (make_turn mtx turn) turn.x turn.y = 0 := by
  rw [make_turn_eq]
  exact cell_setCell_eq
    (setCell_is8x8 (promote_src_is8x8 (drop_beaten_is8x8 h8 turn) turn) _ _ _) hsrc 0

theorem make_turn_dest {mtx : Grid} (h8 : is8x8 mtx) (turn : move_pos)
    (hdst : onBoard turn.x2 turn.y2) (hne : (turn.x, turn.y) ≠ (turn.x2, turn.y2)) :
    cell (make_turn mtx turn) turn.x2 turn.y2 =
      cell (promote_src (drop_beaten mtx turn) turn) turn.x turn.y := by
  rw [make_turn_eq, cell_setCell_ne _ _ _ _ _ _ hne,
    cell_setCell_eq (promote_src_is8x8 (drop_beaten_is8x8 h8 turn) turn) hdst]

theorem make_turn_other (mtx : Grid) (turn : move_pos) (i j : Int)
    (h1 : (turn.x, turn.y) ≠ (i, j)) (h2 : (turn.x2, turn.y2) ≠ (i, j))
    (h3 : (turn.xb, turn.yb) ≠ (i, j)) :
    cell (make_turn mtx turn) i j = cell mtx i j := by
  rw [make_turn_eq, cell_setCell_ne _ _ _ _ _ _ h1, cell_setCell_ne _ _ _ _ _ _ h2,
    promote_src_other _ _ _ _ h1]
  unfold drop_beaten
  split
  · exact cell_setCell_ne _ _ _ _ _ _ h3
  · rfl

theorem make_turn_beaten {mtx : Grid} (h8 : is8x8 mtx) (turn : move_pos)
    (hsrc : onBoard turn.x turn.y) (hb : turn.xb ≠ -1) (hbon : onBoard turn.xb turn.yb)
    (hne : (turn.x2, turn.y2) ≠ (turn.xb, turn.yb)) :
    cell (make_turn mtx turn) turn.xb turn.yb = 0 := by
  by_cases hs : (turn.x, turn.y) = (turn.xb, turn.yb)
  · have h := make_turn_src h8 turn hsrc
    rw [Prod.mk.injEq] at hs
    rw [← hs.1, ← hs.2]
    exact h
  · rw [make_turn_eq, cell_setCell_ne _ _ _ _ _ _ hs, cell_setCell_ne _ _ _ _ _ _ hne,
      promote_src_other _ _ _ _ hs]
    unfold drop_beaten
    rw [if_pos hb]
    exact cell_setCell_eq h8 hbon 0

/-- The call `move_piece(turn, beat_series)` throws exactly when, once the beaten piece
has been taken off, the destination is occupied or the source is empty. -/
theorem move_piece_ok_iff (b : Board) (turn : move_pos) (beat_series : Int) :
    (b.move_piece turn beat_series).2 = none ↔
      cell (drop_beaten b.mtx turn) turn.x2 turn.y2 = 0 ∧
        cell (drop_beaten b.mtx turn) turn.x turn.y ≠ 0 := by
  unfold Board.move_piece Board.move_piece_ij drop_beaten
  by_cases hb : turn.xb ≠ -1
  · simp only [if_pos hb]
    split_ifs <;> simp_all
  · simp only [if_neg hb]
    split_ifs <;> simp_all

/-- The board a successful `move_piece(turn, beat_series)` leaves. -/
theorem move_piece_ok_state {b : Board} {turn : move_pos} {beat_series : Int}
    (h : (b.move_piece turn beat_series).2 = none) :
    (b.move_piece turn beat_series).1 =
      { mtx := make_turn b.mtx turn
        history_mtx := b.history_mtx ++ [make_turn b.mtx turn]
        history_beat_series := b.history_beat_series ++ [beat_series] } := by
  unfold Board.move_piece Board.move_piece_ij at h ⊢
  unfold make_turn Board.add_history Board.drop_piece
  by_cases hb : turn.xb ≠ -1
  · simp only [if_pos hb] at h ⊢
    split_ifs at h ⊢ <;> simp_all
  · simp only [if_neg hb] at h ⊢
    split_ifs at h ⊢ <;> simp_all

/-- The board a rejected `move_piece(turn, beat_series)` leaves: the beaten piece is
gone, the history is as before. -/
theorem move_piece_fail_state {b : Board} {turn : move_pos} {beat_series : Int}
    (h : (b.move_piece turn beat_series).2 ≠ none) :
    (b.move_piece turn beat_series).1 = { b with mtx := drop_beaten b.mtx turn } := by
  unfold Board.move_piece Board.move_piece_ij at h ⊢
  unfold drop_beaten
  by_cases hb : turn.xb ≠ -1
  · simp only [if_pos hb] at h ⊢
    split_ifs at h ⊢ <;> simp_all
  · simp only [if_neg hb] at h ⊢
    split_ifs at h ⊢ <;> simp_all

/-- What moving the piece on the source square to the destination leaves there. -/
theorem make_turn_promotes {mtx : Grid} (h8 : is8x8 mtx) (turn : move_pos)
    (hsrc : onBoard turn.x turn.y) (hdst : onBoard turn.x2 turn.y2)
    (hne : (turn.x, turn.y) ≠ (turn.x2, turn.y2))
    (hnb : (turn.xb, turn.yb) ≠ (turn.x, turn.y)) :
    promotesTo (cell mtx turn.x turn.y) turn.x2 (cell (make_turn mtx turn) turn.x2 turn.y2) := by
  rw [make_turn_dest h8 turn hdst hne]
  have h := promote_src_cell (drop_beaten_is8x8 h8 turn) turn hsrc
  have e : cell (drop_beaten mtx turn) turn.x turn.y = cell mtx turn.x turn.y := by
    unfold drop_beaten
    split
    · exact cell_setCell_ne _ _ _ _ _ _ hnb
    · rfl
  rw [e] at h
  exact h

/-- A move that `Board::move_piece` accepts has distinct source and destination and does
not beat its own source square. -/
theorem move_piece_ok_geometry {b : Board} {turn : move_pos} {beat_series : Int}
    (h8 : is8x8 b.mtx) (hsrc : onBoard turn.x turn.y)
    (h : (b.move_piece turn beat_series).2 = none) :
    (turn.x, turn.y) ≠ (turn.x2, turn.y2) ∧ (turn.xb, turn.yb) ≠ (turn.x, turn.y) := by
  obtain ⟨h1, h2⟩ := (move_piece_ok_iff b turn beat_series).1 h
  constructor
  · intro he
    rw [Prod.mk.injEq] at he
    rw [he.1, he.2] at h2
    exact h2 h1
  · intro he
    rw [Prod.mk.injEq] at he
    apply h2
    unfold drop_beaten
    have hb : turn.xb ≠ -1 := by rw [he.1]; unfold onBoard at hsrc; omega
    rw [if_pos hb, he.1, he.2]
    exact cell_setCell_eq h8 hsrc 0

/-- C5: when `Board::move_piece` accepts a move of the piece `p` on the source square,
the destination then holds `p` promoted as the row requires (a king stays, a white man
reaching row 0 and a black man reaching row 7 become kings, any other piece is
unchanged), and the snapshot appended to the history shows the same; `Logic::make_turn`
leaves the same piece on the destination for a move between two distinct squares that does
not beat its own source. -/
theorem C5_promotion (b : Board) (turn : move_pos) (beat_series : Int) (h8 : is8x8 b.mtx)
    (hsrc : onBoard turn.x turn.y) (hdst : onBoard turn.x2 turn.y2) :
    ((b.move_piece turn beat_series).2 = none →
      promotesTo (cell b.mtx turn.x turn.y) turn.x2
          (cell (b.move_piece turn beat_series).1.mtx turn.x2 turn.y2) ∧
        ∃ snap, (b.move_piece turn beat_series).1.history_mtx.getLast? = some snap ∧
          promotesTo (cell b.mtx turn.x turn.y) turn.x2 (cell snap turn.x2 turn.y2)) ∧
    ((turn.x, turn.y) ≠ (turn.x2, turn.y2) → (turn.xb, turn.yb) ≠ (turn.x, turn.y) →
      promotesTo (cell b.mtx turn.x turn.y) turn.x2
        (cell (make_turn b.mtx turn) turn.x2 turn.y2)) := by
  refine ⟨?_, fun hne hnb => make_turn_promotes h8 turn hsrc hdst hne hnb⟩
  intro hok
  obtain ⟨hne, hnb⟩ := move_piece_ok_geometry h8 hsrc hok
  have hp := make_turn_promotes h8 turn hsrc hdst hne hnb
  rw [move_piece_ok_state hok]
  exact ⟨hp, make_turn b.mtx turn, by simp, hp⟩

/-- C6 as stated fails: the move from (5,2) to the empty square (4,1) that names (4,1)
as beaten is accepted, and afterwards the beaten square is not empty: it holds the moved
man. -/
theorem C6_counterexample :
    is8x8 sampleGrid ∧ cell sampleGrid 4 1 = 0 ∧
      (Board.move_piece ⟨sampleGrid, [sampleGrid], [0]⟩ ⟨5, 2, 4, 1, 4, 1⟩ 1).2 = none ∧
      cell (Board.move_piece ⟨sampleGrid, [sampleGrid], [0]⟩ ⟨5, 2, 4, 1, 4, 1⟩ 1).1.mtx 4 1 ≠ 0 := by
  decide

/-- C6 (amended): when `Board::move_piece` accepts a move with on-board coordinates whose
beaten square, if any, is not its destination, then afterwards the source and the beaten
square are empty, the destination holds the moved piece (promoted as the row requires),
every other cell and the shape of the grid are unchanged, and the history has grown by
exactly one entry: the new grid, with the beat count passed in. -/
theorem C6_apply_frame (b : Board) (turn : move_pos) (beat_series : Int) (h8 : is8x8 b.mtx)
    (hsrc : onBoard turn.x turn.y) (hdst : onBoard turn.x2 turn.y2)
    (hcap : turn.xb ≠ -1 → onBoard turn.xb turn.yb)
    (hnd : (turn.x2, turn.y2) ≠ (turn.xb, turn.yb))
    (hok : (b.move_piece turn beat_series).2 = none) :
    cell (b.move_piece turn beat_series).1.mtx turn.x turn.y = 0 ∧
    (turn.xb ≠ -1 → cell (b.move_piece turn beat_series).1.mtx turn.xb turn.yb = 0) ∧
    promotesTo (cell b.mtx turn.x turn.y) turn.x2
      (cell (b.move_piece turn beat_series).1.mtx turn.x2 turn.y2) ∧
    cell b.mtx turn.x turn.y ≠ 0 ∧
    (∀ i j : Int, (turn.x, turn.y) ≠ (i, j) → (turn.x2, turn.y2) ≠ (i, j) →
      (turn.xb, turn.yb) ≠ (i, j) →
      cell (b.move_piece turn beat_series).1.mtx i j = cell b.mtx i j) ∧
    is8x8 (b.move_piece turn beat_series).1.mtx ∧
    (b.move_piece turn beat_series).1.history_mtx =
      b.history_mtx ++ [(b.move_piece turn beat_series).1.mtx] ∧
    (b.move_piece turn beat_series).1.history_beat_series =
      b.history_beat_series ++ [beat_series] := by
  obtain ⟨hne, hnb⟩ := move_piece_ok_geometry h8 hsrc hok
  have hp := make_turn_promotes h8 turn hsrc hdst hne hnb
  have hsrc0 : cell b.mtx turn.x turn.y ≠ 0 := by
    have h2 := ((move_piece_ok_iff b turn beat_series).1 hok).2
    have e : cell (drop_beaten b.mtx turn) turn.x turn.y = cell b.mtx turn.x turn.y := by
      unfold drop_beaten
      split
      · exact cell_setCell_ne _ _ _ _ _ _ hnb
      · rfl
    rw [e] at h2
    exact h2
  rw [move_piece_ok_state hok]
  exact ⟨make_turn_src h8 turn hsrc,
    fun hb => make_turn_beaten h8 turn hsrc hb (hcap hb) hnd, hp, hsrc0,
    fun i j h1 h2 h3 => make_turn_other _ _ _ _ h1 h2 h3, make_turn_is8x8 h8 turn, rfl, rfl⟩

/-! ## Undo -/

/-- The loop of `rollback` pops `min r (size - 1)` entries from both vectors. -/
theorem rollback_loop_eq (r : Nat) :
    ∀ (hm : List Grid) (hb : List Int),
      rollback_loop r hm hb =
        (hm.take (hm.length - min r (hm.length - 1)),
          hb.take (hb.length - min r (hm.length - 1))) := by
  induction r with
  | zero => intro hm hb; simp [rollback_loop]
  | succ k ih =>
    intro hm hb
    rw [rollback_loop]
    by_cases h : hm.length > 1
    · rw [if_pos h, ih, List.length_dropLast, List.length_dropLast, List.dropLast_eq_take,
        List.dropLast_eq_take, List.take_take, List.take_take]
      congr 1
      · congr 1; omega
      · congr 1; omega
    · rw [if_neg h]
      have e : min (k + 1) (hm.length - 1) = 0 := by omega
      rw [e]
      simp

/-- Undo after `k` entries have been pushed on a non-empty history whose last beat count
asks for `k` pops. -/
theorem rollback_append (g g0 : Grid) (H L : List Grid) (B L' : List Int) (last : Int)
    (hH : H.getLast? = some g0) (hL : L.length = (max 1 last).toNat)
    (hL' : L'.length = (max 1 last).toNat) (hlast : L'.getLast? = some last) :
    Board.rollback ⟨g, H ++ L, B ++ L'⟩ = some ⟨g0, H, B⟩ := by
  have hHne : H ≠ [] := by
    intro h; rw [h] at hH; simp at hH
  have hHlen : 1 ≤ H.length := by
    cases H with
    | nil => exact absurd rfl hHne
    | cons a t => simp
  have hbl : (B ++ L').getLast? = some last := by
    rw [List.getLast?_append, hlast]; rfl
  unfold Board.rollback
  simp only [hbl, rollback_loop_eq]
  have e1 : (H ++ L).length - min (max 1 last).toNat ((H ++ L).length - 1) = H.length := by
    rw [List.length_append]; omega
  have e2 : (B ++ L').length - min (max 1 last).toNat ((H ++ L).length - 1) = B.length := by
    rw [List.length_append, List.length_append]; omega
  rw [e1, e2, List.take_left' rfl, List.take_left' rfl, hH]

/-- The history after the loop of `bot_turn` has played capturing moves without an
exception. -/
theorem bot_apply_history (turns : List move_pos) :
    ∀ (b : Board) (s : Int), (∀ t ∈ turns, t.xb ≠ -1) → (bot_apply b s turns).2 = none →
      ∃ (L : List Grid) (L' : List Int),
        (bot_apply b s turns).1.history_mtx = b.history_mtx ++ L ∧
        (bot_apply b s turns).1.history_beat_series = b.history_beat_series ++ L' ∧
        L.length = turns.length ∧ L'.length = turns.length ∧
        (turns ≠ [] → L'.getLast? = some (s + turns.length)) := by
  induction turns with
  | nil =>
    intro b s _ _
    exact ⟨[], [], by simp [bot_apply], by simp [bot_apply], rfl, rfl, fun h => absurd rfl h⟩
  | cons t rest ih =>
    intro b s hcap hok
    have ht : t.xb ≠ -1 := hcap t (List.mem_cons_self _ _)
    have hrest : ∀ u ∈ rest, u.xb ≠ -1 := fun u hu => hcap u (List.mem_cons_of_mem _ hu)
    rw [bot_apply] at hok ⊢
    simp only [if_pos ht] at hok ⊢
    cases hmp : b.move_piece t (s + 1) with
    | mk b1 e =>
      cases e with
      | some msg => rw [hmp] at hok; simp at hok
      | none =>
        rw [hmp] at hok
        simp only at hok ⊢
        have hok1 : (b.move_piece t (s + 1)).2 = none := by rw [hmp]
        have hst := move_piece_ok_state hok1
        rw [hmp] at hst
        simp only at hst
        obtain ⟨L, L', h1, h2, h3, h4, h5⟩ := ih b1 (s + 1) hrest hok
        refine ⟨make_turn b.mtx t :: L, (s + 1) :: L', ?_, ?_, by simp [h3], by simp [h4], ?_⟩
        · rw [h1, hst]; simp
        · rw [h2, hst]; simp
        · intro _
          by_cases hr : rest = []
          · subst hr
            have : L' = [] := List.length_eq_zero.1 (by simpa using h4)
            subst this
            simp
          · have h6 := h5 hr
            cases L' with
            | nil => simp at h6
            | cons a l =>
              rw [List.getLast?_cons_cons, h6]
              simp only [List.length_cons, Nat.cast_add, Nat.cast_one, Option.some.injEq]
              ring

/-- C7: on a board whose grid is its last snapshot, (a) an accepted move applied with
beat count 0 or 1 and then undone, and (b) a non-empty chain of capturing moves played by
the loop of `bot_turn` from counter 0 (so with beat counts 1, 2, ..., k) and then undone
once, both give back the board: grid and both history vectors. -/
theorem C7_apply_undo_roundtrip (b : Board) (hlast : b.history_mtx.getLast? = some b.mtx) :
    (∀ (turn : move_pos) (h : Int), (h = 0 ∨ h = 1) → (b.move_piece turn h).2 = none →
      (b.move_piece turn h).1.rollback = some b) ∧
    (∀ turns : List move_pos, turns ≠ [] → (∀ t ∈ turns, t.xb ≠ -1) →
      (bot_apply b 0 turns).2 = none → (bot_apply b 0 turns).1.rollback = some b) := by
  constructor
  · intro turn h hh hok
    rw [move_piece_ok_state hok]
    have e : (max 1 h).toNat = 1 := by omega
    exact rollback_append _ b.mtx b.history_mtx [make_turn b.mtx turn] b.history_beat_series [h] h
      hlast (by rw [e]; rfl) (by rw [e]; rfl) rfl
  · intro turns hne hcap hok
    obtain ⟨L, L', h1, h2, h3, h4, h5⟩ := bot_apply_history turns b 0 hcap hok
    have hpos : 1 ≤ turns.length := by
      cases turns with
      | nil => exact absurd rfl hne
      | cons a t => simp
    have e : (max 1 ((0 : Int) + (turns.length : Int))).toNat = turns.length := by omega
    have hb : (bot_apply b 0 turns).1 =
        ⟨(bot_apply b 0 turns).1.mtx, b.history_mtx ++ L, b.history_beat_series ++ L'⟩ := by
      rw [← h1, ← h2]
    rw [hb]
    exact rollback_append _ b.mtx b.history_mtx L b.history_beat_series L' _ hlast
      (by rw [e]; exact h3) (by rw [e]; exact h4) (h5 hne)

/-- C8 fails on the code: the capture from (5,2) over (4,3) to the occupied square (3,4)
is rejected, yet the black man on (4,3) has been taken off the grid; only the history is
as before. -/
theorem C8_rejected_capture_changes_grid :
    (Board.move_piece ⟨sampleGrid, [sampleGrid], [0]⟩ ⟨5, 2, 3, 4, 4, 3⟩ 1).2 ≠ none ∧
    cell sampleGrid 4 3 = 2 ∧
    cell (Board.move_piece ⟨sampleGrid, [sampleGrid], [0]⟩ ⟨5, 2, 3, 4, 4, 3⟩ 1).1.mtx 4 3 = 0 ∧
    (Board.move_piece ⟨sampleGrid, [sampleGrid], [0]⟩ ⟨5, 2, 3, 4, 4, 3⟩ 1).1.mtx ≠ sampleGrid ∧
    (Board.move_piece ⟨sampleGrid, [sampleGrid], [0]⟩ ⟨5, 2, 3, 4, 4, 3⟩ 1).1.history_mtx =
      [sampleGrid] := by
  decide

/-- C9 fails on the code: a move onto an occupied destination is applied when it names
that destination as beaten, and a move from an occupied source to an empty destination is
rejected when it names its own source as beaten. -/
theorem C9_rejection_depends_on_beaten_square :
    (cell scenarioGrid 3 2 ≠ 0 ∧
      (Board.move_piece ⟨scenarioGrid, [scenarioGrid], [0]⟩ ⟨4, 3, 3, 2, 3, 2⟩ 1).2 = none) ∧
    (cell scenarioGrid 3 4 = 0 ∧ cell scenarioGrid 4 3 ≠ 0 ∧
      (Board.move_piece ⟨scenarioGrid, [scenarioGrid], [0]⟩ ⟨4, 3, 3, 4, 4, 3⟩ 1).2 ≠ none) := by
  decide

/-- A rejected call leaves the history alone, and the grid too when the move names no
beaten square or an empty one. -/
theorem move_piece_rejected_state (b : Board) (turn : move_pos) (beat_series : Int)
    (h : (b.move_piece turn beat_series).2 ≠ none) :
    (b.move_piece turn beat_series).1.history_mtx = b.history_mtx ∧
    (b.move_piece turn beat_series).1.history_beat_series = b.history_beat_series ∧
    (turn.xb = -1 → (b.move_piece turn beat_series).1 = b) := by
  rw [move_piece_fail_state h]
  refine ⟨rfl, rfl, ?_⟩
  intro hb
  unfold drop_beaten
  rw [if_neg (not_not.2 hb)]

/-- For a move that names no beaten square, or one that is neither its source nor its
destination, the call throws exactly when the destination is occupied or the source is
empty on the board before the call. -/
theorem move_piece_reject_iff (b : Board) (turn : move_pos) (beat_series : Int)
    (h1 : (turn.xb, turn.yb) ≠ (turn.x, turn.y)) (h2 : (turn.xb, turn.yb) ≠ (turn.x2, turn.y2)) :
    (b.move_piece turn beat_series).2 ≠ none ↔
      (cell b.mtx turn.x2 turn.y2 ≠ 0 ∨ cell b.mtx turn.x turn.y = 0) := by
  have e1 : cell (drop_beaten b.mtx turn) turn.x turn.y = cell b.mtx turn.x turn.y := by
    unfold drop_beaten
    split
    · exact cell_setCell_ne _ _ _ _ _ _ h1
    · rfl
  have e2 : cell (drop_beaten b.mtx turn) turn.x2 turn.y2 = cell b.mtx turn.x2 turn.y2 := by
    unfold drop_beaten
    split
    · exact cell_setCell_ne _ _ _ _ _ _ h2
    · rfl
  rw [Ne, move_piece_ok_iff, e1, e2]
  constructor
  · intro h
    by_cases hd : cell b.mtx turn.x2 turn.y2 = 0
    · right
      by_contra hs
      exact h ⟨hd, hs⟩
    · exact Or.inl hd
  · rintro (h | h) ⟨h3, h4⟩
    · exact h h3
    · exact h4 h

/-- C10: on a history of `n >= 1` entries whose last beat count is `k`, `rollback`
succeeds, drops `max(1, k)` entries from both vectors when `n > max(1, k)` and all but the
first otherwise, and sets the grid to the last snapshot left; the history it leaves is not
empty, and is unchanged when `n = 1`. `move_piece`, `redraw` and `start_draw` also leave at
least one entry. -/
theorem C10_rollback_history (b : Board) (n : Nat) (k : Int) (hn : 1 ≤ n)
    (hlen : b.history_mtx.length = n) (hlenb : b.history_beat_series.length = n)
    (hk : b.history_beat_series.getLast? = some k) :
    (∃ b', b.rollback = some b' ∧
      (n > (max 1 k).toNat →
        b'.history_mtx = b.history_mtx.take (n - (max 1 k).toNat) ∧
        b'.history_beat_series = b.history_beat_series.take (n - (max 1 k).toNat)) ∧
      (n ≤ (max 1 k).toNat →
        b'.history_mtx = b.history_mtx.take 1 ∧
        b'.history_beat_series = b.history_beat_series.take 1) ∧
      b'.history_mtx.getLast? = some b'.mtx ∧
      1 ≤ b'.history_mtx.length ∧
      (n = 1 →
        b'.history_mtx = b.history_mtx ∧ b'.history_beat_series = b.history_beat_series)) ∧
    (∀ (turn : move_pos) (bs : Int), 1 ≤ (b.move_piece turn bs).1.history_mtx.length) ∧
    1 ≤ b.redraw.history_mtx.length ∧ 1 ≤ b.start_draw.history_mtx.length := by
  refine ⟨?_, ?_, ?_, ?_⟩
  · have hr1 : 1 ≤ (max 1 k).toNat := by omega
    have hlenT : (b.history_mtx.take (n - min (max 1 k).toNat (n - 1))).length =
        n - min (max 1 k).toNat (n - 1) := by
      rw [List.length_take, hlen]; omega
    cases hg : (b.history_mtx.take (n - min (max 1 k).toNat (n - 1))).getLast? with
    | none =>
      rw [List.getLast?_eq_none_iff] at hg
      rw [hg] at hlenT
      simp at hlenT
      omega
    | some g =>
      refine ⟨⟨g, b.history_mtx.take (n - min (max 1 k).toNat (n - 1)),
        b.history_beat_series.take (n - min (max 1 k).toNat (n - 1))⟩, ?_, ?_, ?_, ?_, ?_, ?_⟩
      · unfold Board.rollback
        simp only [hk, rollback_loop_eq, hlen, hlenb, hg]
      · intro h
        have e : n - min (max 1 k).toNat (n - 1) = n - (max 1 k).toNat := by omega
        simp only [e, and_self]
      · intro h
        have e : n - min (max 1 k).toNat (n - 1) = 1 := by omega
        simp only [e, and_self]
      · exact hg
      · show 1 ≤ (b.history_mtx.take (n - min (max 1 k).toNat (n - 1))).length
        rw [hlenT]; omega
      · intro h1
        constructor
        · exact List.take_of_length_le (by rw [hlen]; omega)
        · exact List.take_of_length_le (by rw [hlenb]; omega)
  · intro turn bs
    cases hr : (b.move_piece turn bs).2 with
    | none =>
      rw [move_piece_ok_state hr]
      simp
    | some e =>
      rw [move_piece_fail_state (by rw [hr]; simp)]
      show 1 ≤ b.history_mtx.length
      omega
  · simp [Board.redraw, Board.make_start_mtx, Board.add_history]
  · simp [Board.start_draw, Board.make_start_mtx, Board.add_history]

/-! ## Instances on the sample positions -/

/-- Instance of C1 on `scenarioGrid` with the identity shuffle. -/
theorem C1_mandatory_capture_witness :
    validGrid scenarioGrid ∧ (∀ l : List move_pos, (id l).Perm l) ∧
      (find_turns_color id false scenarioGrid).turns = [⟨4, 3, 2, 1, 3, 2⟩] :=
  ⟨by decide, fun l => List.Perm.refl l,
    (C1_mandatory_capture id (fun l => List.Perm.refl l) false scenarioGrid (by decide)).2.2
      rfl (by decide) (by decide) (by decide) (by decide)⟩

/-- Instance of C2: the white man on (4,3) of `scenarioGrid` beats (3,2). -/
theorem C2_man_captures_witness :
    validGrid scenarioGrid ∧ onBoard 4 3 ∧ isMan (cell scenarioGrid 4 3) ∧
      ((⟨4, 3, 2, 1, 3, 2⟩ : move_pos) ∈ (find_turns 4 3 scenarioGrid).turns ∧
        (⟨4, 3, 2, 1, 3, 2⟩ : move_pos).xb ≠ -1) :=
  ⟨by decide, by decide, by decide,
    (C2_man_captures scenarioGrid (by decide) 4 3 (by decide) (by decide) ⟨4, 3, 2, 1, 3, 2⟩).2
      ⟨-1, -1, Or.inl rfl, Or.inl rfl, by decide, by decide, by decide, by decide⟩⟩

/-- Instance of C3: the white king on (5,2) of `kingGrid` beats (3,4) landing on (2,5). -/
theorem C3_king_captures_witness :
    validGrid kingGrid ∧ onBoard 5 2 ∧ isKing (cell kingGrid 5 2) ∧
      ((⟨5, 2, 2, 5, 3, 4⟩ : move_pos) ∈ (find_turns 5 2 kingGrid).turns ∧
        (⟨5, 2, 2, 5, 3, 4⟩ : move_pos).xb ≠ -1) :=
  ⟨by decide, by decide, by decide,
    (C3_king_captures kingGrid (by decide) 5 2 (by decide) (by decide) ⟨5, 2, 2, 5, 3, 4⟩).1.2
      ⟨-1, 1, Or.inl rfl, Or.inr rfl, 2, 3, by decide, by decide, by decide,
        fun t h1 h2 => by
          have ht : t = 1 := by omega
          subst ht
          decide,
        by decide,
        fun t h1 h2 => by
          have ht : t = 3 := by omega
          subst ht
          decide,
        by decide⟩⟩

/-- Instance of C4: the white man on (5,6) of `scenarioGrid` steps to (4,5). -/
theorem C4_ordinary_moves_witness :
    onBoard 5 6 ∧ (find_turns 5 6 scenarioGrid).have_beats = false ∧
      (⟨5, 6, 4, 5, -1, -1⟩ : move_pos) ∈ (find_turns 5 6 scenarioGrid).turns :=
  ⟨by decide, by decide,
    ((C4_ordinary_moves scenarioGrid 5 6 (by decide) (by decide) ⟨5, 6, 4, 5, -1, -1⟩).1
      (by decide)).2 ⟨-1, Or.inl rfl, by decide, by decide, by decide⟩⟩

/-- Instance of C5: the white man on (1,2) of `promoGrid` becomes a king on (0,1). -/
theorem C5_promotion_witness :
    is8x8 promoGrid ∧ onBoard 1 2 ∧ onBoard 0 1 ∧
      cell (Board.move_piece ⟨promoGrid, [promoGrid], [0]⟩ ⟨1, 2, 0, 1, -1, -1⟩ 0).1.mtx 0 1 = 3 :=
  ⟨by decide, by decide, by decide,
    ((C5_promotion ⟨promoGrid, [promoGrid], [0]⟩ ⟨1, 2, 0, 1, -1, -1⟩ 0 (by decide) (by decide)
      (by decide)).1 (by decide)).1.2.1 ⟨by decide, rfl⟩⟩

/-- Instance of C6 (amended): the capture (4,3) over (3,2) to (2,1) on `scenarioGrid`. -/
theorem C6_apply_frame_witness :
    is8x8 scenarioGrid ∧
      (Board.move_piece ⟨scenarioGrid, [scenarioGrid], [0]⟩ ⟨4, 3, 2, 1, 3, 2⟩ 1).2 = none ∧
      cell (Board.move_piece ⟨scenarioGrid, [scenarioGrid], [0]⟩ ⟨4, 3, 2, 1, 3, 2⟩ 1).1.mtx 3 2 = 0 ∧
      (Board.move_piece ⟨scenarioGrid, [scenarioGrid], [0]⟩ ⟨4, 3, 2, 1, 3, 2⟩ 1).1.history_beat_series
        = [0, 1] :=
  ⟨by decide, by decide,
    (C6_apply_frame ⟨scenarioGrid, [scenarioGrid], [0]⟩ ⟨4, 3, 2, 1, 3, 2⟩ 1 (by decide)
      (by decide) (by decide) (fun _ => by decide) (by decide) (by decide)).2.1 (by decide),
    (C6_apply_frame ⟨scenarioGrid, [scenarioGrid], [0]⟩ ⟨4, 3, 2, 1, 3, 2⟩ 1 (by decide)
      (by decide) (by decide) (fun _ => by decide) (by decide)
      (by decide)).2.2.2.2.2.2.2⟩

/-- Instance of C7: one capture on `scenarioGrid`, then undo. -/
theorem C7_apply_undo_roundtrip_witness :
    (Board.move_piece ⟨scenarioGrid, [scenarioGrid], [0]⟩ ⟨4, 3, 2, 1, 3, 2⟩ 1).1.rollback =
      some ⟨scenarioGrid, [scenarioGrid], [0]⟩ :=
  (C7_apply_undo_roundtrip ⟨scenarioGrid, [scenarioGrid], [0]⟩ rfl).1 ⟨4, 3, 2, 1, 3, 2⟩ 1
    (Or.inr rfl) (by decide)

/-- Instance of C10: three entries, last beat count 2; undo leaves the first entry. -/
theorem C10_rollback_history_witness :
    ∃ b', Board.rollback ⟨kingGrid, [scenarioGrid, sampleGrid, kingGrid], [0, 1, 2]⟩ = some b' ∧
      b'.history_mtx = [scenarioGrid] ∧ b'.mtx = scenarioGrid := by
  obtain ⟨b', h1, h2, _, h4, _, _⟩ :=
    (C10_rollback_history ⟨kingGrid, [scenarioGrid, sampleGrid, kingGrid], [0, 1, 2]⟩ 3 2
      (by decide) rfl rfl rfl).1
  refine ⟨b', h1, (h2 (by decide)).1, ?_⟩
  have h5 := (h2 (by decide)).1
  rw [h5] at h4
  exact (Option.some.inj h4).symm

/-! ## The evaluator -/

/-- The counters of `calc_score` after the loop has visited the squares of `l`. -/
theorem score_fold (scoring_mode : String) (mtx : Grid) :
    ∀ (l : List (Int × Int)) (acc : ℚ × ℚ × ℚ × ℚ),
      l.foldl (score_step scoring_mode mtx) acc =
        (acc.1 + ((l.countP fun ij => decide (cell mtx ij.1 ij.2 = 1) : Nat) : ℚ) +
            (if scoring_mode = "NumberAndPotential" then
              0.05 * (((l.map fun ij => if cell mtx ij.1 ij.2 = 1 then 7 - ij.1 else 0).sum : Int) : ℚ)
             else 0),
          acc.2.1 + ((l.countP fun ij => decide (cell mtx ij.1 ij.2 = 3) : Nat) : ℚ),
          acc.2.2.1 + ((l.countP fun ij => decide (cell mtx ij.1 ij.2 = 2) : Nat) : ℚ) +
            (if scoring_mode = "NumberAndPotential" then
              0.05 * (((l.map fun ij => if cell mtx ij.1 ij.2 = 2 then ij.1 else 0).sum : Int) : ℚ)
             else 0),
          acc.2.2.2 + ((l.countP fun ij => decide (cell mtx ij.1 ij.2 = 4) : Nat) : ℚ)) := by
  intro l
  induction l with
  | nil => intro acc; simp
  | cons ij l ih =>
    intro acc
    rw [List.foldl_cons, ih]
    obtain ⟨a1, a2, a3, a4⟩ := acc
    by_cases hm : scoring_mode = "NumberAndPotential"
    · simp only [score_step, hm, if_true, List.countP_cons, List.map_cons, List.sum_cons,
        decide_eq_true_eq]
      refine Prod.ext ?_ (Prod.ext ?_ (Prod.ext ?_ ?_))
      · by_cases h1 : cell mtx ij.1 ij.2 = 1 <;> simp [h1] <;> ring
      · by_cases h3 : cell mtx ij.1 ij.2 = 3 <;> simp [h3] <;> ring
      · by_cases h2 : cell mtx ij.1 ij.2 = 2 <;> simp [h2] <;> ring
      · by_cases h4 : cell mtx ij.1 ij.2 = 4 <;> simp [h4] <;> ring
    · simp only [score_step, hm, if_false, List.countP_cons, decide_eq_true_eq]
      refine Prod.ext ?_ (Prod.ext ?_ (Prod.ext ?_ ?_))
      · by_cases h1 : cell mtx ij.1 ij.2 = 1 <;> simp [h1] <;> ring
      · by_cases h3 : cell mtx ij.1 ij.2 = 3 <;> simp [h3] <;> ring
      · by_cases h2 : cell mtx ij.1 ij.2 = 2 <;> simp [h2] <;> ring
      · by_cases h4 : cell mtx ij.1 ij.2 = 4 <;> simp [h4] <;> ring

/-- `calc_score` in terms of the piece counts: the opponent's counters are tested first,
then the favoured side's, then the quotient is formed. -/
theorem calc_score_eq (scoring_mode : String) (mtx : Grid) (color : Bool) :
    calc_score scoring_mode mtx color =
      if menValue scoring_mode mtx (!color) + (countCode mtx (kingOf (!color)) : ℚ) = 0 then INF
      else if menValue scoring_mode mtx color + (countCode mtx (kingOf color) : ℚ) = 0 then 0
      else
        (menValue scoring_mode mtx color + (countCode mtx (kingOf color) : ℚ) *
            (if scoring_mode = "NumberAndPotential" then 5 else 4)) /
          (menValue scoring_mode mtx (!color) + (countCode mtx (kingOf (!color)) : ℚ) *
            (if scoring_mode = "NumberAndPotential" then 5 else 4)) := by
  unfold calc_score
  rw [score_fold]
  cases color <;>
    simp only [menValue, countCode, rowSum, manOf, kingOf, rowsDone, Bool.not_false,
      Bool.not_true, if_true, if_false, zero_add, Bool.false_eq_true] <;> rfl

theorem rowSum_bounds (mtx : Grid) (v : Int) (color : Bool) :
    0 ≤ rowSum mtx v (rowsDone color) ∧ rowSum mtx v (rowsDone color) ≤ 448 := by
  have hterm : ∀ x ∈ allSquares.map
      (fun ij => if cell mtx ij.1 ij.2 = v then rowsDone color ij.1 else 0), 0 ≤ x ∧ x ≤ 7 := by
    intro x hx
    obtain ⟨ij, hij, rfl⟩ := List.mem_map.1 hx
    have hon := allSquares_onBoard ij hij
    unfold onBoard at hon
    unfold rowsDone
    split_ifs <;> omega
  constructor
  · exact List.sum_nonneg (fun x hx => (hterm x hx).1)
  · have h := List.sum_le_card_nsmul _ 7 (fun x hx => (hterm x hx).2)
    have hlen : (allSquares.map
        (fun ij => if cell mtx ij.1 ij.2 = v then rowsDone color ij.1 else 0)).length = 64 := by
      rw [List.length_map]; rfl
    rw [hlen] at h
    unfold rowSum
    simpa using h

theorem countCode_le (mtx : Grid) (v : Int) : countCode mtx v ≤ 64 := by
  unfold countCode
  exact le_trans (List.countP_le_length _) (by decide)

theorem rowSum_eq_zero {mtx : Grid} {v : Int} (h : countCode mtx v = 0) (adv : Int → Int) :
    rowSum mtx v adv = 0 := by
  unfold countCode at h
  rw [List.countP_eq_zero] at h
  unfold rowSum
  apply List.sum_eq_zero
  intro x hx
  obtain ⟨ij, hij, rfl⟩ := List.mem_map.1 hx
  have := h ij hij
  simp only [decide_eq_true_eq] at this
  rw [if_neg this]

theorem menValue_bounds (scoring_mode : String) (mtx : Grid) (color : Bool) :
    (countCode mtx (manOf color) : ℚ) ≤ menValue scoring_mode mtx color ∧
      menValue scoring_mode mtx color ≤ 87 := by
  have hb := rowSum_bounds mtx (manOf color) color
  have h0 : (0 : ℚ) ≤ ((rowSum mtx (manOf color) (rowsDone color) : Int) : ℚ) := by
    exact_mod_cast hb.1
  have h1 : ((rowSum mtx (manOf color) (rowsDone color) : Int) : ℚ) ≤ 448 := by
    exact_mod_cast hb.2
  have hc : (countCode mtx (manOf color) : ℚ) ≤ 64 := by
    exact_mod_cast countCode_le mtx (manOf color)
  unfold menValue
  split_ifs
  · constructor <;> norm_num <;> linarith
  · rw [add_zero]
    exact ⟨le_refl _, by linarith⟩

theorem menValue_eq_zero {scoring_mode : String} {mtx : Grid} {color : Bool}
    (h : countCode mtx (manOf color) = 0) : menValue scoring_mode mtx color = 0 := by
  unfold menValue
  rw [h, rowSum_eq_zero h]
  simp

/-- The counters of a colour tested by `calc_score` vanish exactly when the colour has no
piece. -/
theorem side_zero_iff (scoring_mode : String) (mtx : Grid) (color : Bool) :
    menValue scoring_mode mtx color + (countCode mtx (kingOf color) : ℚ) = 0 ↔
      piecesOf mtx color = 0 := by
  have hb := menValue_bounds scoring_mode mtx color
  have hm0 : (0 : ℚ) ≤ (countCode mtx (manOf color) : ℚ) := Nat.cast_nonneg _
  have hk0 : (0 : ℚ) ≤ (countCode mtx (kingOf color) : ℚ) := Nat.cast_nonneg _
  unfold piecesOf
  constructor
  · intro h
    have h1 : (countCode mtx (manOf color) : ℚ) = 0 := by linarith
    have h2 : (countCode mtx (kingOf color) : ℚ) = 0 := by linarith
    have h1' : countCode mtx (manOf color) = 0 := by exact_mod_cast h1
    have h2' : countCode mtx (kingOf color) = 0 := by exact_mod_cast h2
    omega
  · intro h
    have h1 : countCode mtx (manOf color) = 0 := by omega
    have h2 : countCode mtx (kingOf color) = 0 := by omega
    rw [menValue_eq_zero h1, h2]
    simp

/-- The quotient formed by `calc_score` when both sides have a piece lies in `(0, 407]`. -/
theorem quotient_bounds (scoring_mode : String) (mtx : Grid) (color : Bool)
    (hopp : piecesOf mtx (!color) ≠ 0) (hfav : piecesOf mtx color ≠ 0) :
    0 < (menValue scoring_mode mtx color + (countCode mtx (kingOf color) : ℚ) *
            (if scoring_mode = "NumberAndPotential" then 5 else 4)) /
          (menValue scoring_mode mtx (!color) + (countCode mtx (kingOf (!color)) : ℚ) *
            (if scoring_mode = "NumberAndPotential" then 5 else 4)) ∧
      (menValue scoring_mode mtx color + (countCode mtx (kingOf color) : ℚ) *
            (if scoring_mode = "NumberAndPotential" then 5 else 4)) /
          (menValue scoring_mode mtx (!color) + (countCode mtx (kingOf (!color)) : ℚ) *
            (if scoring_mode = "NumberAndPotential" then 5 else 4)) ≤ 407 := by
  have hq : (4 : ℚ) ≤ (if scoring_mode = "NumberAndPotential" then (5 : ℚ) else 4) ∧
      (if scoring_mode = "NumberAndPotential" then (5 : ℚ) else 4) ≤ 5 := by
    split_ifs <;> norm_num
  generalize (if scoring_mode = "NumberAndPotential" then (5 : ℚ) else 4) = q at hq ⊢
  have side : ∀ c : Bool, piecesOf mtx c ≠ 0 →
      1 ≤ menValue scoring_mode mtx c + (countCode mtx (kingOf c) : ℚ) * q ∧
        menValue scoring_mode mtx c + (countCode mtx (kingOf c) : ℚ) * q ≤ 407 := by
    intro c hc
    have hb := menValue_bounds scoring_mode mtx c
    have hk0 : (0 : ℚ) ≤ (countCode mtx (kingOf c) : ℚ) := Nat.cast_nonneg _
    have hk64 : (countCode mtx (kingOf c) : ℚ) ≤ 64 := by
      exact_mod_cast countCode_le mtx (kingOf c)
    have hsum : (1 : ℚ) ≤ (countCode mtx (manOf c) : ℚ) + (countCode mtx (kingOf c) : ℚ) := by
      have : 1 ≤ countCode mtx (manOf c) + countCode mtx (kingOf c) := by
        unfold piecesOf at hc; omega
      exact_mod_cast this
    constructor <;> nlinarith
  obtain ⟨hd1, _⟩ := side (!color) hopp
  obtain ⟨hn1, hn407⟩ := side color hfav
  constructor
  · exact div_pos (by linarith) (by linarith)
  · rw [div_le_iff₀ (by linarith)]
    nlinarith

/-- `calc_score` by cases on which side has pieces. -/
theorem calc_score_cases (scoring_mode : String) (mtx : Grid) (color : Bool) :
    calc_score scoring_mode mtx color =
      if piecesOf mtx (!color) = 0 then INF
      else if piecesOf mtx color = 0 then 0
      else
        (menValue scoring_mode mtx color + (countCode mtx (kingOf color) : ℚ) *
            (if scoring_mode = "NumberAndPotential" then 5 else 4)) /
          (menValue scoring_mode mtx (!color) + (countCode mtx (kingOf (!color)) : ℚ) *
            (if scoring_mode = "NumberAndPotential" then 5 else 4)) := by
  rw [calc_score_eq]
  by_cases hopp : piecesOf mtx (!color) = 0
  · rw [if_pos hopp, if_pos ((side_zero_iff scoring_mode mtx (!color)).2 hopp)]
  · rw [if_neg hopp, if_neg (fun h => hopp ((side_zero_iff scoring_mode mtx (!color)).1 h))]
    by_cases hfav : piecesOf mtx color = 0
    · rw [if_pos hfav, if_pos ((side_zero_iff scoring_mode mtx color).2 hfav)]
    · rw [if_neg hfav, if_neg (fun h => hfav ((side_zero_iff scoring_mode mtx color).1 h))]

theorem calc_score_eq_INF_iff (scoring_mode : String) (mtx : Grid) (color : Bool) :
    calc_score scoring_mode mtx color = INF ↔ piecesOf mtx (!color) = 0 := by
  rw [calc_score_cases]
  constructor
  · intro h
    by_contra hopp
    rw [if_neg hopp] at h
    by_cases hfav : piecesOf mtx color = 0
    · rw [if_pos hfav] at h
      norm_num [INF] at h
    · rw [if_neg hfav] at h
      have hb := (quotient_bounds scoring_mode mtx color hopp hfav).2
      rw [h] at hb
      norm_num [INF] at hb
  · intro h
    rw [if_pos h]

theorem calc_score_eq_zero_iff (scoring_mode : String) (mtx : Grid) (color : Bool) :
    calc_score scoring_mode mtx color = 0 ↔
      piecesOf mtx color = 0 ∧ piecesOf mtx (!color) ≠ 0 := by
  rw [calc_score_cases]
  constructor
  · intro h
    by_cases hopp : piecesOf mtx (!color) = 0
    · rw [if_pos hopp] at h
      norm_num [INF] at h
    · rw [if_neg hopp] at h
      by_cases hfav : piecesOf mtx color = 0
      · exact ⟨hfav, hopp⟩
      · rw [if_neg hfav] at h
        have hb := (quotient_bounds scoring_mode mtx color hopp hfav).1
        rw [h] at hb
        exact absurd hb (lt_irrefl 0)
  · rintro ⟨hfav, hopp⟩
    rw [if_neg hopp, if_pos hfav]

/-- The evaluator never returns a negative value. -/
theorem calc_score_nonneg (scoring_mode : String) (mtx : Grid) (color : Bool) :
    0 ≤ calc_score scoring_mode mtx color := by
  rw [calc_score_cases]
  by_cases hopp : piecesOf mtx (!color) = 0
  · rw [if_pos hopp]; norm_num [INF]
  · rw [if_neg hopp]
    by_cases hfav : piecesOf mtx color = 0
    · rw [if_pos hfav]
    · rw [if_neg hfav]
      exact le_of_lt (quotient_bounds scoring_mode mtx color hopp hfav).1

/-- A colour has no piece exactly when no square holds one of its codes. -/
theorem piecesOf_eq_zero_iff (mtx : Grid) (color : Bool) :
    piecesOf mtx color = 0 ↔ ∀ ij ∈ allSquares, ¬ hasColor color (cell mtx ij.1 ij.2) := by
  unfold piecesOf countCode
  rw [Nat.add_eq_zero_iff, List.countP_eq_zero, List.countP_eq_zero]
  constructor
  · rintro ⟨h1, h2⟩ ij hij hc
    have a := h1 ij hij
    have b := h2 ij hij
    simp only [decide_eq_true_eq] at a b
    cases color <;> simp only [hasColor, isWhite, isBlack, manOf, kingOf] at hc a b <;>
      simp_all
  · intro h
    constructor <;> intro ij hij <;> simp only [decide_eq_true_eq] <;> intro hc <;>
      apply h ij hij <;> cases color <;> simp [hasColor, isWhite, isBlack, manOf, kingOf] at hc ⊢ <;>
      simp [hc]

/-- C14: in every scoring mode other than "NumberAndPotential", on a board where both
colours have a piece, `calc_score` is `(m + 4k) / (om + 4ok)` for the numbers of men and
kings of the favoured colour and of its opponent. -/
theorem C14_default_score (scoring_mode : String) (hmode : scoring_mode ≠ "NumberAndPotential")
    (mtx : Grid) (color : Bool) (hfav : piecesOf mtx color ≠ 0)
    (hopp : piecesOf mtx (!color) ≠ 0) :
    calc_score scoring_mode mtx color =
      ((countCode mtx (manOf color) : ℚ) + 4 * (countCode mtx (kingOf color) : ℚ)) /
        ((countCode mtx (manOf (!color)) : ℚ) + 4 * (countCode mtx (kingOf (!color)) : ℚ)) := by
  rw [calc_score_cases, if_neg hopp, if_neg hfav]
  simp only [menValue, if_neg hmode, add_zero]
  rw [mul_comm, mul_comm (countCode mtx (kingOf (!color)) : ℚ)]

/-- C15 as stated fails: with a white man on row 6 and a black man on row 0 the
position-aware score for White is 21/20, while the formula with the distance to the
promotion row gives 26/27. -/
theorem C15_counterexample :
    calc_score "NumberAndPotential" potGrid false = 21 / 20 ∧
      ((countCode potGrid 1 : ℚ) + 0.05 * ((rowSum potGrid 1 (rowsToGo false) : Int) : ℚ) +
          5 * (countCode potGrid 3 : ℚ)) /
        ((countCode potGrid 2 : ℚ) + 0.05 * ((rowSum potGrid 2 (rowsToGo true) : Int) : ℚ) +
          5 * (countCode potGrid 4 : ℚ)) = 26 / 27 := by
  have c1 : countCode potGrid 1 = 1 := by decide
  have c2 : countCode potGrid 2 = 1 := by decide
  have c3 : countCode potGrid 3 = 0 := by decide
  have c4 : countCode potGrid 4 = 0 := by decide
  have r1 : rowSum potGrid 1 (rowsDone false) = 1 := by decide
  have r2 : rowSum potGrid 2 (rowsDone true) = 0 := by decide
  have g1 : rowSum potGrid 1 (rowsToGo false) = 6 := by decide
  have g2 : rowSum potGrid 2 (rowsToGo true) = 7 := by decide
  constructor
  · rw [calc_score_eq]
    simp only [menValue, manOf, kingOf, Bool.not_false, if_true, if_false, c1, c2, c3, c4, r1,
      r2, Bool.false_eq_true]
    norm_num [INF]
  · rw [c1, c2, c3, c4, g1, g2]
    norm_num

/-- C15 (amended): in the mode "NumberAndPotential", on a board where both colours have a
piece, `calc_score` is `(S + 5k) / (OS + 5ok)`, where `S` adds `1 + 0.05 * rowsDone` over
the men of the favoured colour (`rowsDone` is `7 - i` for a white man on row `i` and `i`
for a black man: seven minus the distance to the promotion row) and `OS` does so for the
opponent. -/
theorem C15_potential_score (mtx : Grid) (color : Bool) (hfav : piecesOf mtx color ≠ 0)
    (hopp : piecesOf mtx (!color) ≠ 0) :
    calc_score "NumberAndPotential" mtx color =
      ((countCode mtx (manOf color) : ℚ) +
          0.05 * ((rowSum mtx (manOf color) (rowsDone color) : Int) : ℚ) +
          5 * (countCode mtx (kingOf color) : ℚ)) /
        ((countCode mtx (manOf (!color)) : ℚ) +
          0.05 * ((rowSum mtx (manOf (!color)) (rowsDone (!color)) : Int) : ℚ) +
          5 * (countCode mtx (kingOf (!color)) : ℚ)) := by
  rw [calc_score_cases, if_neg hopp, if_neg hfav]
  simp only [menValue, if_true]
  rw [mul_comm _ (5 : ℚ), mul_comm _ (5 : ℚ)]

/-- C16: in every scoring mode `calc_score` returns `INF` exactly when the opponent of the
favoured colour has no piece on the board; in particular a board without black pieces
scores `INF` for White in both modes. -/
theorem C16_sentinel_iff (scoring_mode : String) (mtx : Grid) (color : Bool) :
    (calc_score scoring_mode mtx color = INF ↔
      ∀ ij ∈ allSquares, ¬ hasColor (!color) (cell mtx ij.1 ij.2)) ∧
    ((∀ ij ∈ allSquares, ¬ hasColor true (cell mtx ij.1 ij.2)) →
      calc_score "Number" mtx false = INF ∧ calc_score "NumberAndPotential" mtx false = INF) := by
  constructor
  · rw [calc_score_eq_INF_iff, piecesOf_eq_zero_iff]
  · intro h
    have h0 : piecesOf mtx (!false) = 0 := (piecesOf_eq_zero_iff mtx true).2 h
    exact ⟨(calc_score_eq_INF_iff _ mtx false).2 h0, (calc_score_eq_INF_iff _ mtx false).2 h0⟩

/-- C17 as stated fails: on the empty board the favoured colour has no piece, yet the
score is `INF`, not 0, because the opponent's counters are tested first. -/
theorem C17_counterexample :
    (∀ ij ∈ allSquares, ¬ hasColor false (cell emptyGrid ij.1 ij.2)) ∧
      calc_score "Number" emptyGrid false = INF ∧ calc_score "Number" emptyGrid false ≠ 0 := by
  have h0 : piecesOf emptyGrid (!false) = 0 := by decide
  have h1 := (calc_score_eq_INF_iff "Number" emptyGrid false).2 h0
  refine ⟨by decide, h1, ?_⟩
  rw [h1]
  norm_num [INF]

/-- C17 (amended): in every scoring mode `calc_score` returns 0 exactly when the favoured
colour has no piece on the board and its opponent has at least one. -/
theorem C17_zero_iff (scoring_mode : String) (mtx : Grid) (color : Bool) :
    calc_score scoring_mode mtx color = 0 ↔
      (∀ ij ∈ allSquares, ¬ hasColor color (cell mtx ij.1 ij.2)) ∧
        ∃ ij ∈ allSquares, hasColor (!color) (cell mtx ij.1 ij.2) := by
  rw [calc_score_eq_zero_iff, piecesOf_eq_zero_iff, Ne, piecesOf_eq_zero_iff]
  constructor
  · rintro ⟨h1, h2⟩
    refine ⟨h1, ?_⟩
    by_contra hne
    apply h2
    intro ij hij hc
    exact hne ⟨ij, hij, hc⟩
  · rintro ⟨h1, ij, hij, hc⟩
    exact ⟨h1, fun h => h ij hij hc⟩

/-! ## The starting position -/

/-- Two 8x8 grids with the same cells are equal. -/
theorem grid_ext {g g' : Grid} (h : is8x8 g) (h' : is8x8 g')
    (hc : ∀ i j : Int, onBoard i j → cell g i j = cell g' i j) : g = g' := by
  apply List.ext_getElem (by rw [h.1, h'.1])
  intro n hn hn'
  have hr : g[n].length = 8 := h.2 _ (List.getElem_mem hn)
  have hr' : g'[n].length = 8 := h'.2 _ (List.getElem_mem hn')
  apply List.ext_getElem (by rw [hr, hr'])
  intro k hk hk'
  have hn8 : n < 8 := by rw [← h.1]; exact hn
  have hk8 : k < 8 := by rw [← hr]; exact hk
  have hcell := hc (n : Int) (k : Int) (by unfold onBoard; omega)
  unfold cell at hcell
  rw [if_pos (by omega), if_pos (by omega)] at hcell
  simp only [Int.toNat_ofNat] at hcell
  rw [List.getD_eq_getElem g [] hn, List.getD_eq_getElem g' [] hn',
    List.getD_eq_getElem _ 0 hk, List.getD_eq_getElem _ 0 hk'] at hcell
  exact hcell

theorem start_cell_is8x8 {mtx : Grid} (h8 : is8x8 mtx) (ij : Int × Int) :
    is8x8 (start_cell mtx ij) := by
  have h0 := setCell_is8x8 h8 ij.1 ij.2 0
  simp only [start_cell]
  split_ifs <;> first | exact h0 | exact setCell_is8x8 h0 _ _ _ |
    exact setCell_is8x8 (setCell_is8x8 h0 _ _ _) _ _ _

theorem start_cell_same {mtx : Grid} (h8 : is8x8 mtx) (ij : Int × Int)
    (hon : onBoard ij.1 ij.2) : cell (start_cell mtx ij) ij.1 ij.2 = startVal ij.1 ij.2 := by
  simp only [start_cell, startVal]
  have h0 := setCell_is8x8 h8 ij.1 ij.2 0
  by_cases h1 : ij.1 > 4 ∧ (ij.1 + ij.2).tmod 2 = 1
  · have hn : ¬ (ij.1 < 3 ∧ (ij.1 + ij.2).tmod 2 = 1) := by omega
    simp only [if_pos h1, if_neg hn]
    exact cell_setCell_eq h0 hon 1
  · by_cases h2 : ij.1 < 3 ∧ (ij.1 + ij.2).tmod 2 = 1
    · simp only [if_neg h1, if_pos h2]
      exact cell_setCell_eq h0 hon 2
    · simp only [if_neg h1, if_neg h2]
      exact cell_setCell_eq h8 hon 0

theorem start_cell_other (mtx : Grid) (ij : Int × Int) (i j : Int) (hne : ij ≠ (i, j)) :
    cell (start_cell mtx ij) i j = cell mtx i j := by
  have hne' : (ij.1, ij.2) ≠ (i, j) := hne
  simp only [start_cell]
  split_ifs <;> simp only [cell_setCell_ne _ _ _ _ _ _ hne']

/-- The cells after the loops of `make_start_mtx` have visited the squares of `l`. -/
theorem start_fold_cell (l : List (Int × Int)) :
    ∀ (mtx : Grid), is8x8 mtx → (∀ ij ∈ l, onBoard ij.1 ij.2) →
      is8x8 (l.foldl start_cell mtx) ∧
        ∀ i j : Int, cell (l.foldl start_cell mtx) i j =
          if (i, j) ∈ l then startVal i j else cell mtx i j := by
  induction l with
  | nil => intro mtx h8 _; exact ⟨h8, fun i j => by simp⟩
  | cons a l ih =>
    intro mtx h8 hon
    rw [List.foldl_cons]
    obtain ⟨h1, h2⟩ := ih (start_cell mtx a) (start_cell_is8x8 h8 a)
      (fun ij hij => hon ij (List.mem_cons_of_mem _ hij))
    refine ⟨h1, fun i j => ?_⟩
    rw [h2]
    by_cases hl : (i, j) ∈ l
    · rw [if_pos hl, if_pos (List.mem_cons_of_mem _ hl)]
    · rw [if_neg hl]
      by_cases ha : a = (i, j)
      · rw [if_pos (by rw [ha]; exact List.mem_cons_self _ _)]
        have := start_cell_same h8 a (hon a (List.mem_cons_self _ _))
        subst ha
        exact this
      · rw [if_neg (by
          intro hm
          rcases List.mem_cons.1 hm with h | h
          · exact ha h.symm
          · exact hl h), start_cell_other mtx a i j ha]

/-- The loops of `make_start_mtx` turn every 8x8 grid into the starting position. -/
theorem make_start_fold {mtx : Grid} (h8 : is8x8 mtx) :
    allSquares.foldl start_cell mtx = startGrid := by
  obtain ⟨h1, h2⟩ := start_fold_cell allSquares mtx h8 allSquares_onBoard
  apply grid_ext h1 (by decide)
  intro i j hon
  rw [h2, if_pos (mem_allSquares hon)]
  have hall : ∀ ij ∈ allSquares, startVal ij.1 ij.2 = cell startGrid ij.1 ij.2 := by decide
  exact hall (i, j) (mem_allSquares hon)

/-- C19: `make_start_mtx` (run by `start_draw` and `redraw`) leaves, on every 8x8 grid,
the position with a black man exactly on the squares `(i, j)` with `i <= 2` and `i + j`
odd, a white man exactly on those with `i >= 5` and `i + j` odd, and nothing elsewhere:
twelve men a side and no king; after `redraw` the history is that grid alone, with beat
count 0. -/
theorem C19_start_position (b : Board) (h8 : is8x8 b.mtx) :
    b.make_start_mtx.mtx = startGrid ∧ b.start_draw.mtx = startGrid ∧
    b.redraw.mtx = startGrid ∧
    (∀ ij ∈ allSquares,
      (cell startGrid ij.1 ij.2 = 2 ↔ ij.1 ≤ 2 ∧ (ij.1 + ij.2) % 2 = 1) ∧
      (cell startGrid ij.1 ij.2 = 1 ↔ ij.1 ≥ 5 ∧ (ij.1 + ij.2) % 2 = 1) ∧
      (cell startGrid ij.1 ij.2 = 0 ∨ cell startGrid ij.1 ij.2 = 1 ∨
        cell startGrid ij.1 ij.2 = 2)) ∧
    countCode startGrid 1 = 12 ∧ countCode startGrid 2 = 12 ∧
    countCode startGrid 3 = 0 ∧ countCode startGrid 4 = 0 ∧
    b.redraw.history_mtx = [startGrid] ∧ b.redraw.history_beat_series = [0] := by
  have hf := make_start_fold h8
  refine ⟨?_, ?_, ?_, by decide, by decide, by decide, by decide, by decide, ?_, ?_⟩
  · simp [Board.make_start_mtx, Board.add_history, hf]
  · simp [Board.start_draw, Board.make_start_mtx, Board.add_history, hf]
  · simp [Board.redraw, Board.make_start_mtx, Board.add_history, hf]
  · simp [Board.redraw, Board.make_start_mtx, Board.add_history, hf]
  · simp [Board.redraw, Board.make_start_mtx, Board.add_history]

/-! ## The per-square query against the per-colour query -/

theorem steps_of_src {mtx : Grid} {x y : Int} {m : move_pos}
    (hm : m ∈ steps_of x y mtx) : m.x = x ∧ m.y = y := by
  simp only [steps_of] at hm
  split at hm
  · rw [man_steps_iff] at hm
    obtain ⟨dy, _, _, _, rfl⟩ := hm
    exact ⟨rfl, rfl⟩
  · simp only [king_steps, List.mem_flatMap] at hm
    obtain ⟨i, _, j, _, h⟩ := hm
    rw [king_steps_ray_iff] at h
    obtain ⟨n, _, _, rfl⟩ := h
    exact ⟨rfl, rfl⟩

/-- Every move `find_turns(x, y, mtx)` produces starts on `(x, y)`. -/
theorem find_turns_src {mtx : Grid} {x y : Int} {m : move_pos}
    (hm : m ∈ (find_turns x y mtx).turns) : m.x = x ∧ m.y = y := by
  unfold find_turns at hm
  split at hm
  · exact beats_of_src hm
  · exact steps_of_src hm

theorem allSquares_nodup : allSquares.Nodup := by decide

/-- Filtering the moves gathered over distinct squares by their source square. -/
theorem filter_src_flatMap (f : Int × Int → List move_pos)
    (hf : ∀ ij, ∀ m ∈ f ij, (m.x, m.y) = ij) (s : Int × Int) :
    ∀ l : List (Int × Int), l.Nodup →
      (l.flatMap f).filter (fun m => decide ((m.x, m.y) = s)) = if s ∈ l then f s else [] := by
  intro l
  induction l with
  | nil => intro _; simp
  | cons a l ih =>
    intro hnd
    rw [List.nodup_cons] at hnd
    rw [List.flatMap_cons, List.filter_append, ih hnd.2]
    by_cases ha : a = s
    · subst ha
      have h1 : (f a).filter (fun m => decide ((m.x, m.y) = a)) = f a :=
        List.filter_eq_self.2 (fun m hm => by simpa using hf a m hm)
      rw [h1, if_neg hnd.1, if_pos (List.mem_cons_self _ _), List.append_nil]
    · have h1 : (f a).filter (fun m => decide ((m.x, m.y) = s)) = [] :=
        List.filter_eq_nil_iff.2 (fun m hm => by
          have := hf a m hm
          simp only [decide_eq_true_eq]
          rw [this]
          exact ha)
      rw [h1, List.nil_append]
      by_cases hs : s ∈ l
      · rw [if_pos hs, if_pos (List.mem_cons_of_mem _ hs)]
      · rw [if_neg hs, if_neg (by
          intro hm
          rcases List.mem_cons.1 hm with h | h
          · exact ha h.symm
          · exact hs h)]

/-- C18 as stated fails: on `scenarioGrid` the white man on (5,6) has two moves of its
own, but the moves for White are the capture by the man on (4,3) only, so none of them
starts on (5,6). -/
theorem C18_counterexample :
    hasColor false (cell scenarioGrid 5 6) ∧
      (find_turns 5 6 scenarioGrid).turns = [⟨5, 6, 4, 5, -1, -1⟩, ⟨5, 6, 4, 7, -1, -1⟩] ∧
      (find_turns_color id false scenarioGrid).turns.filter
        (fun m => decide ((m.x, m.y) = ((5 : Int), (6 : Int)))) = [] := by
  decide

/-- C18 (amended): for a square `(x, y)` holding a piece of the colour, the moves of
`find_turns(color, mtx)` that start on `(x, y)` are, up to order, the moves of
`find_turns(x, y, mtx)`, unless the colour has a capture and this piece has none: then
`find_turns(color, mtx)` has no move from `(x, y)`, while `find_turns(x, y, mtx)` yields
the piece's ordinary moves. -/
theorem C18_square_vs_color (shuffle : List move_pos → List move_pos)
    (hshuffle : ∀ l, (shuffle l).Perm l) (color : Bool) (mtx : Grid) (hv : validGrid mtx)
    (x y : Int) (hxy : onBoard x y) (hown : hasColor color (cell mtx x y)) :
    (((find_turns_color shuffle color mtx).have_beats = false ∨
        (find_turns x y mtx).have_beats = true) →
      ((find_turns_color shuffle color mtx).turns.filter
        (fun m => decide ((m.x, m.y) = (x, y)))).Perm (find_turns x y mtx).turns) ∧
    (((find_turns_color shuffle color mtx).have_beats = true ∧
        (find_turns x y mtx).have_beats = false) →
      (find_turns_color shuffle color mtx).turns.filter
        (fun m => decide ((m.x, m.y) = (x, y))) = [] ∧
      (find_turns x y mtx).turns = steps_of x y mtx) := by
  have hsrc : ∀ ij : Int × Int, ∀ m ∈ (find_turns ij.1 ij.2 mtx).turns, (m.x, m.y) = ij := by
    intro ij m hm
    have := find_turns_src hm
    exact Prod.ext this.1 this.2
  have hmem : (x, y) ∈ allSquares := mem_allSquares hxy
  have hot : ownTest color mtx (x, y) = true := by
    rw [ownTest_eq hv]; simpa using hown
  rw [find_turns_color_eq]
  by_cases hany : (allSquares.any fun ij => ownTest color mtx ij && beatTest mtx ij) = true
  · rw [if_pos hany]
    have hfilt := filter_src_flatMap (fun ij => (find_turns ij.1 ij.2 mtx).turns) hsrc (x, y)
      (allSquares.filter fun ij => ownTest color mtx ij && beatTest mtx ij)
      (List.Nodup.filter _ allSquares_nodup)
    have hperm := List.Perm.filter (fun m => decide ((m.x, m.y) = (x, y)))
      (hshuffle ((allSquares.filter fun ij => ownTest color mtx ij && beatTest mtx ij).flatMap
        fun ij => (find_turns ij.1 ij.2 mtx).turns))
    rw [hfilt] at hperm
    constructor
    · rintro (h | h)
      · exact absurd h (by simp)
      · have hin : (x, y) ∈ allSquares.filter fun ij => ownTest color mtx ij && beatTest mtx ij :=
          List.mem_filter.2 ⟨hmem, by simp [hot, beatTest, h]⟩
        rw [if_pos hin] at hperm
        exact hperm
    · rintro ⟨_, h⟩
      have hin : (x, y) ∉ allSquares.filter fun ij => ownTest color mtx ij && beatTest mtx ij := by
        intro hc
        have := (List.mem_filter.1 hc).2
        simp [beatTest, h] at this
      rw [if_neg hin] at hperm
      exact ⟨List.Perm.eq_nil hperm, (find_turns_false h).1⟩
  · rw [if_neg hany]
    have hfilt := filter_src_flatMap (fun ij => (find_turns ij.1 ij.2 mtx).turns) hsrc (x, y)
      (allSquares.filter fun ij => ownTest color mtx ij)
      (List.Nodup.filter _ allSquares_nodup)
    have hperm := List.Perm.filter (fun m => decide ((m.x, m.y) = (x, y)))
      (hshuffle ((allSquares.filter fun ij => ownTest color mtx ij).flatMap
        fun ij => (find_turns ij.1 ij.2 mtx).turns))
    have hin : (x, y) ∈ allSquares.filter fun ij => ownTest color mtx ij :=
      List.mem_filter.2 ⟨hmem, hot⟩
    rw [hfilt, if_pos hin] at hperm
    constructor
    · intro _
      exact hperm
    · rintro ⟨h, _⟩
      exact absurd h (by simp)

/-- Instance of C14 on `scenarioGrid`, favouring White. -/
theorem C14_default_score_witness :
    "Number" ≠ "NumberAndPotential" ∧ piecesOf scenarioGrid false ≠ 0 ∧
      piecesOf scenarioGrid (!false) ≠ 0 ∧
      calc_score "Number" scenarioGrid false =
        ((countCode scenarioGrid (manOf false) : ℚ) +
            4 * (countCode scenarioGrid (kingOf false) : ℚ)) /
          ((countCode scenarioGrid (manOf (!false)) : ℚ) +
            4 * (countCode scenarioGrid (kingOf (!false)) : ℚ)) :=
  ⟨by decide, by decide, by decide,
    C14_default_score "Number" (by decide) scenarioGrid false (by decide) (by decide)⟩

/-- Instance of C15 (amended) on `potGrid`, favouring White. -/
theorem C15_potential_score_witness :
    piecesOf potGrid false ≠ 0 ∧ piecesOf potGrid (!false) ≠ 0 ∧
      calc_score "NumberAndPotential" potGrid false =
        ((countCode potGrid (manOf false) : ℚ) +
            0.05 * ((rowSum potGrid (manOf false) (rowsDone false) : Int) : ℚ) +
            5 * (countCode potGrid (kingOf false) : ℚ)) /
          ((countCode potGrid (manOf (!false)) : ℚ) +
            0.05 * ((rowSum potGrid (manOf (!false)) (rowsDone (!false)) : Int) : ℚ) +
            5 * (countCode potGrid (kingOf (!false)) : ℚ)) :=
  ⟨by decide, by decide, C15_potential_score potGrid false (by decide) (by decide)⟩

/-- Instance of C18 (amended): the moves for White on `scenarioGrid` that start on (4,3)
are those of the man on (4,3). -/
theorem C18_square_vs_color_witness :
    validGrid scenarioGrid ∧ onBoard 4 3 ∧ hasColor false (cell scenarioGrid 4 3) ∧
      ((find_turns_color id false scenarioGrid).turns.filter
        (fun m => decide ((m.x, m.y) = ((4 : Int), (3 : Int))))).Perm
        (find_turns 4 3 scenarioGrid).turns :=
  ⟨by decide, by decide, by decide,
    (C18_square_vs_color id (fun l => List.Perm.refl l) false scenarioGrid (by decide) 4 3
      (by decide) (by decide)).1 (Or.inr (by decide))⟩

/-- Instance of C19 on a default-constructed board. -/
theorem C19_start_position_witness :
    is8x8 Board.new.mtx ∧ Board.new.start_draw.mtx = startGrid ∧
      Board.new.redraw.history_mtx = [startGrid] :=
  ⟨by decide, (C19_start_position Board.new (by decide)).2.1,
    (C19_start_position Board.new (by decide)).2.2.2.2.2.2.2.2.1⟩

/-! ## Moves the generator produces, and what applying them does -/

/-- The moves of `find_turns(x, y, mtx)` for a piece on a valid board are good moves, all
captures when `have_beats` is set and all ordinary otherwise. -/
theorem find_turns_good {mtx : Grid} (hv : validGrid mtx) {x y : Int} (hxy : onBoard x y)
    (hp : cell mtx x y ≠ 0) {m : move_pos} (hm : m ∈ (find_turns x y mtx).turns) :
    GoodMove mtx (find_turns x y mtx).have_beats m := by
  have hr := cell_range hv x y
  have hxy' := hxy
  obtain ⟨hx0, hx7, hy0, hy7⟩ := hxy'
  cases hb : (find_turns x y mtx).have_beats with
  | true =>
    rw [(find_turns_true hb).1] at hm
    by_cases hman : isMan (cell mtx x y)
    · have hbo : beats_of x y mtx = man_beats mtx (cell mtx x y) x y := by
        simp only [beats_of]; exact if_pos hman
      have e1 : x - 2 = x + 2 * (-1) := by ring
      have e2 : x + 2 = x + 2 * 1 := by ring
      have e3 : y - 2 = y + 2 * (-1) := by ring
      have e4 : y + 2 = y + 2 * 1 := by ring
      rw [hbo, man_beats_eq, e1, e2, e3, e4] at hm
      simp only [List.mem_append] at hm
      rw [mem_man_cand hv hxy hman (-1) (-1), mem_man_cand hv hxy hman (-1) 1,
        mem_man_cand hv hxy hman 1 (-1), mem_man_cand hv hxy hman 1 1] at hm
      unfold GoodMove
      rcases hm with h | h | h | h <;> obtain ⟨hon, hc0, hop, rfl⟩ := h <;>
        (have hne := opposite_ne_zero hop
         unfold onBoard at hon ⊢
         refine ⟨⟨hx0, hx7, hy0, hy7⟩, hp, hon, hc0, ?_⟩
         simp only [if_true]
         refine ⟨by omega, by omega, hne, ?_⟩
         intro he
         rw [Prod.mk.injEq] at he
         omega)
    · have hking : isKing (cell mtx x y) := by
        unfold isMan at hman; unfold isKing; omega
      have hbo : beats_of x y mtx = king_beats mtx (cell mtx x y) x y := by
        simp only [beats_of]; exact if_neg hman
      rw [hbo] at hm
      simp only [king_beats, List.mem_flatMap] at hm
      obtain ⟨dx, hdx, dy, hdy, h⟩ := hm
      have hdx' : dx = -1 ∨ dx = 1 := by simpa using hdx
      have hdy' : dy = -1 ∨ dy = 1 := by simpa using hdy
      obtain ⟨p, n, hp1, hpn, hon, _, hop, hafter, rfl⟩ :=
        (king_ray_iff hv hxy hking hdx' hdy' m).1 h
      have hne := opposite_ne_zero hop
      have hc0 := hafter n hpn (le_refl n)
      unfold GoodMove
      refine ⟨hxy, hp, hon, hc0, ?_⟩
      simp only [if_true]
      unfold onBoard at hon ⊢
      have hpn' : (p : Int) < n := by exact_mod_cast hpn
      have hp1' : (1 : Int) ≤ p := by exact_mod_cast hp1
      refine ⟨?_, ?_, hne, ?_⟩
      · rcases hdx' with rfl | rfl <;> omega
      · rcases hdx' with rfl | rfl <;> rcases hdy' with rfl | rfl <;> omega
      · intro he
        rw [Prod.mk.injEq] at he
        rcases hdx' with rfl | rfl <;> omega
  | false =>
    rw [(find_turns_false hb).1] at hm
    unfold GoodMove
    by_cases hman : isMan (cell mtx x y)
    · have hs : steps_of x y mtx = man_steps mtx (cell mtx x y) x y := by
        simp only [steps_of]; exact if_pos hman
      rw [hs, man_steps_iff] at hm
      obtain ⟨dy, _, hon, hc0, rfl⟩ := hm
      exact ⟨hxy, hp, hon, hc0, by simp⟩
    · have hs : steps_of x y mtx = king_steps mtx x y := by
        simp only [steps_of]; exact if_neg hman
      rw [hs] at hm
      simp only [king_steps, List.mem_flatMap] at hm
      obtain ⟨dx, hdx, dy, hdy, h⟩ := hm
      have hdx' : dx = -1 ∨ dx = 1 := by simpa using hdx
      have hdy' : dy = -1 ∨ dy = 1 := by simpa using hdy
      obtain ⟨n, hn1, hon, hall, rfl⟩ := (king_slide_iff hxy hdx' hdy' m).1 h
      exact ⟨hxy, hp, hon, hall n hn1 (le_refl n), by simp⟩

/-- The moves `find_turns(color, mtx)` leaves in `turns` on a valid board are good moves,
all captures when `have_beats` is set and all ordinary otherwise. -/
theorem find_turns_color_good {σ : Type} (sh : σ → List move_pos → List move_pos × σ)
    (hsh : ∀ s l, (sh s l).1.Perm l) (L : Logic σ) (color : Bool) {mtx : Grid}
    (hv : validGrid mtx) {m : move_pos} (hm : m ∈ (L.find_turns_color sh color mtx).turns) :
    GoodMove mtx (L.find_turns_color sh color mtx).have_beats m := by
  have e1 : (L.find_turns_color sh color mtx).turns =
      (find_turns_color (fun l => (sh L.rand_eng l).1) color mtx).turns := rfl
  have e2 : (L.find_turns_color sh color mtx).have_beats =
      (find_turns_color (fun l => (sh L.rand_eng l).1) color mtx).have_beats := rfl
  rw [e1] at hm
  rw [e2]
  rw [find_turns_color_eq] at hm ⊢
  have hsq : ∀ ij : Int × Int, ij ∈ allSquares → ownTest color mtx ij = true →
      onBoard ij.1 ij.2 ∧ cell mtx ij.1 ij.2 ≠ 0 := by
    intro ij hij ho
    simp only [ownTest, decide_eq_true_eq] at ho
    exact ⟨allSquares_onBoard ij hij, ho.1⟩
  by_cases hany : (allSquares.any fun ij => ownTest color mtx ij && beatTest mtx ij) = true
  · rw [if_pos hany] at hm ⊢
    have hm2 := (hsh L.rand_eng _).mem_iff.1 hm
    obtain ⟨ij, hij, hmij⟩ := List.mem_flatMap.1 hm2
    obtain ⟨hin, hob⟩ := List.mem_filter.1 hij
    rw [Bool.and_eq_true] at hob
    obtain ⟨hon, hp⟩ := hsq ij hin hob.1
    have hg := find_turns_good hv hon hp hmij
    have hb : (find_turns ij.1 ij.2 mtx).have_beats = true := hob.2
    rw [hb] at hg
    exact hg
  · rw [if_neg hany] at hm ⊢
    have hm2 := (hsh L.rand_eng _).mem_iff.1 hm
    obtain ⟨ij, hij, hmij⟩ := List.mem_flatMap.1 hm2
    obtain ⟨hin, hob⟩ := List.mem_filter.1 hij
    obtain ⟨hon, hp⟩ := hsq ij hin hob
    have hg := find_turns_good hv hon hp hmij
    have hb : (find_turns ij.1 ij.2 mtx).have_beats = false := by
      cases hb : (find_turns ij.1 ij.2 mtx).have_beats with
      | false => rfl
      | true =>
        exfalso
        apply hany
        rw [List.any_eq_true]
        exact ⟨ij, hin, by rw [Bool.and_eq_true]; exact ⟨hob, hb⟩⟩
    rw [hb] at hg
    exact hg

theorem setCell_valid {mtx : Grid} (hv : validGrid mtx) (i j : Int) {v : Int} (h0 : 0 ≤ v)
    (h4 : v ≤ 4) : validGrid (setCell mtx i j v) := by
  unfold setCell
  split
  · refine ⟨by rw [List.length_set]; exact hv.1, ?_⟩
    intro r hr
    rcases List.mem_or_eq_of_mem_set hr with h | h
    · exact hv.2 r h
    · have hrow : (mtx.getD i.toNat []).length = 8 ∧
          ∀ v ∈ mtx.getD i.toNat [], 0 ≤ v ∧ v ≤ 4 := by
        rw [List.getD_eq_getElem?_getD]
        cases hg : mtx[i.toNat]? with
        | none =>
          have : mtx.length ≤ i.toNat := List.getElem?_eq_none_iff.1 hg
          rw [List.set_eq_of_length_le this] at hr
          have hr8 := (hv.2 r hr).1
          rw [h, List.length_set, List.getD_eq_getElem?_getD, hg] at hr8
          simp at hr8
        | some row => exact hv.2 row (List.getElem?_mem hg)
      rw [h]
      refine ⟨by rw [List.length_set]; exact hrow.1, ?_⟩
      intro w hw
      rcases List.mem_or_eq_of_mem_set hw with h' | h'
      · exact hrow.2 w h'
      · rw [h']; exact ⟨h0, h4⟩
  · exact hv

/-- Writing a cell changes the number of occupied squares by what the cell gains or
loses. -/
theorem countP_change {α : Type} [DecidableEq α] (p q : α → Bool) (a : α)
    (hpq : ∀ b, b ≠ a → p b = q b) :
    ∀ l : List α, l.Nodup → a ∈ l →
      l.countP q + (if p a = true then 1 else 0) = l.countP p + (if q a = true then 1 else 0) := by
  intro l
  induction l with
  | nil => intro _ h; simp at h
  | cons b l ih =>
    intro hnd hmem
    rw [List.nodup_cons] at hnd
    by_cases hb : b = a
    · subst hb
      have hrest : l.countP q = l.countP p := by
        apply List.countP_congr
        intro c hc
        have hne : c ≠ b := fun h => hnd.1 (h ▸ hc)
        rw [hpq c hne]
      rw [List.countP_cons, List.countP_cons, hrest]
      omega
    · have hmem' : a ∈ l := by
        rcases List.mem_cons.1 hmem with h | h
        · exact absurd h.symm hb
        · exact h
      have := ih hnd.2 hmem'
      rw [List.countP_cons, List.countP_cons, hpq b hb]
      omega

theorem pieces_setCell {mtx : Grid} (h8 : is8x8 mtx) {i j : Int} (hon : onBoard i j) (v : Int) :
    pieces (setCell mtx i j v) + (if cell mtx i j ≠ 0 then 1 else 0) =
      pieces mtx + (if v ≠ 0 then 1 else 0) := by
  have h := countP_change (fun ij : Int × Int => decide (cell mtx ij.1 ij.2 ≠ 0))
    (fun ij : Int × Int => decide (cell (setCell mtx i j v) ij.1 ij.2 ≠ 0)) (i, j)
    (fun b hb => by
      have : cell (setCell mtx i j v) b.1 b.2 = cell mtx b.1 b.2 :=
        cell_setCell_ne mtx i j v b.1 b.2 (fun h => hb h.symm)
      simp only [this])
    allSquares allSquares_nodup (mem_allSquares hon)
  simp only [cell_setCell_eq h8 hon, decide_eq_true_eq] at h
  unfold pieces
  exact h

/-- Applying a good move: the grid stays valid, the destination holds a piece, and the
number of pieces drops by one for a capture and is unchanged otherwise. -/
theorem make_turn_good {mtx : Grid} (hv : validGrid mtx) {capture : Bool} {m : move_pos}
    (hg : GoodMove mtx capture m) :
    validGrid (make_turn mtx m) ∧ cell (make_turn mtx m) m.x2 m.y2 ≠ 0 ∧
      pieces (make_turn mtx m) + (if capture then 1 else 0) = pieces mtx := by
  obtain ⟨hsrc, hp, hdst, hd0, hcap⟩ := hg
  have hne : (m.x, m.y) ≠ (m.x2, m.y2) := by
    intro he
    rw [Prod.mk.injEq] at he
    rw [he.1, he.2] at hp
    exact hp hd0
  -- the grid after the beaten piece has been taken off
  have h1 : validGrid (drop_beaten mtx m) ∧
      cell (drop_beaten mtx m) m.x m.y = cell mtx m.x m.y ∧
      cell (drop_beaten mtx m) m.x2 m.y2 = 0 ∧
      pieces (drop_beaten mtx m) + (if capture then 1 else 0) = pieces mtx := by
    unfold drop_beaten
    cases capture with
    | true =>
      simp only [if_true] at hcap
      obtain ⟨hb, hbon, hbp, hbs⟩ := hcap
      have hbd : (m.xb, m.yb) ≠ (m.x2, m.y2) := by
        intro he
        rw [Prod.mk.injEq] at he
        rw [he.1, he.2] at hbp
        exact hbp hd0
      rw [if_pos hb]
      refine ⟨setCell_valid hv _ _ (le_refl 0) (by decide), cell_setCell_ne _ _ _ _ _ _ hbs, ?_, ?_⟩
      · rw [cell_setCell_ne _ _ _ _ _ _ hbd]; exact hd0
      · have := pieces_setCell (validGrid_is8x8 hv) hbon 0
        rw [if_pos hbp] at this
        simpa using this
    | false =>
      simp only [Bool.false_eq_true, if_false] at hcap
      rw [if_neg (not_not.2 hcap)]
      exact ⟨hv, rfl, hd0, by simp⟩
  obtain ⟨hv1, hs1, hd1, hp1⟩ := h1
  have h81 := validGrid_is8x8 hv1
  have hr := cell_range hv m.x m.y
  -- the grid after the promotion test
  have hprom := promote_src_cell h81 m hsrc
  rw [hs1] at hprom
  have hq : cell (promote_src (drop_beaten mtx m) m) m.x m.y ≠ 0 ∧
      0 ≤ cell (promote_src (drop_beaten mtx m) m) m.x m.y ∧
      cell (promote_src (drop_beaten mtx m) m) m.x m.y ≤ 4 := by
    obtain ⟨a, b, c, d⟩ := hprom
    unfold isKing at a d
    by_cases hk : cell mtx m.x m.y = 3 ∨ cell mtx m.x m.y = 4
    · rw [a hk]; omega
    · by_cases hw : cell mtx m.x m.y = 1 ∧ m.x2 = 0
      · rw [b hw]; omega
      · by_cases hbk : cell mtx m.x m.y = 2 ∧ m.x2 = 7
        · rw [c hbk]; omega
        · rw [d ⟨hk, hw, hbk⟩]; omega
  have h2 : validGrid (promote_src (drop_beaten mtx m) m) ∧
      pieces (promote_src (drop_beaten mtx m) m) = pieces (drop_beaten mtx m) := by
    unfold promote_src
    split
    · rename_i hc
      rw [hs1] at hc ⊢
      refine ⟨setCell_valid hv1 _ _ (by omega) (by omega), ?_⟩
      have := pieces_setCell h81 hsrc (cell mtx m.x m.y + 2)
      rw [hs1, if_pos hp, if_pos (by omega)] at this
      omega
    · exact ⟨hv1, rfl⟩
  obtain ⟨hv2, hp2⟩ := h2
  have h82 := validGrid_is8x8 hv2
  have hd2 : cell (promote_src (drop_beaten mtx m) m) m.x2 m.y2 = 0 := by
    rw [promote_src_other _ _ _ _ hne]; exact hd1
  -- the piece is put on the destination, then the source is cleared
  have hv3 := setCell_valid hv2 m.x2 m.y2 hq.2.1 hq.2.2
  have hp3 := pieces_setCell h82 hdst (cell (promote_src (drop_beaten mtx m) m) m.x m.y)
  rw [if_neg (not_not.2 hd2), if_pos hq.1] at hp3
  have hs3 : cell (setCell (promote_src (drop_beaten mtx m) m) m.x2 m.y2
      (cell (promote_src (drop_beaten mtx m) m) m.x m.y)) m.x m.y ≠ 0 := by
    rw [cell_setCell_ne _ _ _ _ _ _ (fun h => hne h.symm)]; exact hq.1
  have hp4 := pieces_setCell (validGrid_is8x8 hv3) hsrc 0
  rw [if_pos hs3] at hp4
  simp only [ne_eq, not_true_eq_false, if_false, add_zero] at hp4
  refine ⟨?_, ?_, ?_⟩
  · rw [make_turn_eq]
    exact setCell_valid hv3 _ _ (le_refl 0) (by decide)
  · rw [make_turn_dest (validGrid_is8x8 hv) m hdst hne]
    exact hq.1
  · rw [make_turn_eq]
    omega

/-! ## The alternating search returns -/

theorem pieces_le (mtx : Grid) : pieces mtx ≤ 64 := by
  unfold pieces
  exact le_trans (List.countP_le_length _) (by decide)

theorem INF_pos : (0 : ℚ) < INF := by norm_num [INF]

/-- The loop of `find_best_turns_rec` returns when every call does, and its value is not
negative when the calls made with `alpha < 0 <= beta` return non-negative values. -/
theorem rec_loop_total {σ : Type} (call : Logic σ → move_pos → ℚ → ℚ → Option (ℚ × Logic σ))
    (odd prune : Bool) :
    ∀ (turns : List move_pos),
      (∀ t ∈ turns, ∀ (L : Logic σ) (a b : ℚ),
        ∃ v L', call L t a b = some (v, L') ∧ (a < 0 → 0 ≤ b → 0 ≤ v)) →
      ∀ (L : Logic σ) (mn mx alpha beta : ℚ),
        ∃ v L', rec_loop call odd prune turns L mn mx alpha beta = some (v, L') ∧
          (odd = true → (0 ≤ mx ∨ (turns ≠ [] ∧ alpha < 0 ∧ 0 ≤ beta)) → 0 ≤ v) ∧
          (odd = false → alpha < 0 → 0 ≤ beta → 0 ≤ mn → 0 ≤ v) := by
  intro turns
  induction turns with
  | nil =>
    intro _ L mn mx alpha beta
    refine ⟨_, L, rfl, ?_, ?_⟩
    · intro ho h
      rw [ho]
      rcases h with h | h
      · simpa using h
      · exact absurd rfl h.1
    · intro ho _ _ h
      rw [ho]
      simpa using h
  | cons t rest ih =>
    intro hcall L mn mx alpha beta
    obtain ⟨s, L1, hs, hs0⟩ := hcall t (List.mem_cons_self _ _) L alpha beta
    have hrest : ∀ u ∈ rest, ∀ (L : Logic σ) (a b : ℚ),
        ∃ v L', call L u a b = some (v, L') ∧ (a < 0 → 0 ≤ b → 0 ≤ v) :=
      fun u hu => hcall u (List.mem_cons_of_mem _ hu)
    rw [rec_loop, hs]
    simp only
    by_cases hcut : prune = true ∧
        (if odd = true then max alpha (max mx s) else alpha) ≥
          (if odd = true then beta else min beta (min mn s))
    · rw [if_pos hcut]
      refine ⟨_, L1, rfl, ?_, ?_⟩
      · intro ho h
        rw [ho]
        simp only [if_true]
        have : 0 ≤ max mx s := by
          rcases h with h | h
          · exact le_trans h (le_max_left _ _)
          · exact le_trans (hs0 h.2.1 h.2.2) (le_max_right _ _)
        linarith
      · intro ho ha hb hmn
        exfalso
        rw [ho] at hcut
        simp only [Bool.false_eq_true, if_false] at hcut
        have h1 : 0 ≤ min beta (min mn s) := le_min hb (le_min hmn (hs0 ha hb))
        linarith [hcut.2]
    · rw [if_neg hcut]
      obtain ⟨v, L', hv, hodd, heven⟩ := ih hrest L1 (min mn s) (max mx s)
        (if odd = true then max alpha (max mx s) else alpha)
        (if odd = true then beta else min beta (min mn s))
      refine ⟨v, L', hv, ?_, ?_⟩
      · intro ho h
        apply hodd ho
        left
        rcases h with h | h
        · exact le_trans h (le_max_left _ _)
        · exact le_trans (hs0 h.2.1 h.2.2) (le_max_right _ _)
      · intro ho ha hb hmn
        have hmin : 0 ≤ min mn s := le_min hmn (hs0 ha hb)
        have := heven ho
        rw [ho] at this
        simp only [Bool.false_eq_true, if_false] at this
        exact this ha (le_min hb hmin) hmin

/-- `find_best_turns_rec` returns on every valid board once the bound on the recursion
is at least `recFuel`, and its value is not negative when called with
`alpha < 0 <= beta`. -/
theorem rec_total {σ : Type} (sh : σ → List move_pos → List move_pos × σ)
    (hsh : ∀ s l, (sh s l).1.Perm l) (cfg : Settings) :
    ∀ (fuel : Nat) (L : Logic σ) (mtx : Grid) (color : Bool) (depth : Nat) (alpha beta : ℚ)
      (x y : Int), validGrid mtx → (depth : Int) ≤ cfg.Max_depth →
      (x ≠ -1 → onBoard x y ∧ cell mtx x y ≠ 0) → recFuel cfg mtx depth x ≤ fuel →
      ∃ v L', find_best_turns_rec sh cfg fuel L mtx color depth alpha beta x y = some (v, L') ∧
        (alpha < 0 → 0 ≤ beta → 0 ≤ v) := by
  intro fuel
  induction fuel with
  | zero =>
    intro L mtx color depth alpha beta x y _ _ _ hf
    unfold recFuel at hf
    omega
  | succ n ih =>
    intro L mtx color depth alpha beta x y hv hd hxy hf
    rw [find_best_turns_rec]
    by_cases hleaf : (depth : Int) = cfg.Max_depth
    · rw [if_pos hleaf]
      exact ⟨_, L, rfl, fun _ _ => calc_score_nonneg _ _ _⟩
    · rw [if_neg hleaf]
      have hlt : (depth : Int) < cfg.Max_depth := lt_of_le_of_ne hd hleaf
      have hstep : (cfg.Max_depth - (depth : Int)).toNat =
          (cfg.Max_depth - ((depth + 1 : Nat) : Int)).toNat + 1 := by
        push_cast; omega
      have hp64 := pieces_le mtx
      -- the moves found are good moves
      have hgood : ∀ m ∈ (if x ≠ -1 then L.find_turns_xy x y mtx
            else L.find_turns_color sh color mtx).turns,
          GoodMove mtx (if x ≠ -1 then L.find_turns_xy x y mtx
            else L.find_turns_color sh color mtx).have_beats m := by
        intro m hm
        by_cases hx : x ≠ -1
        · rw [if_pos hx] at hm ⊢
          exact find_turns_good hv (hxy hx).1 (hxy hx).2 hm
        · rw [if_neg hx] at hm ⊢
          exact find_turns_color_good sh hsh L color hv hm
      generalize (if x ≠ -1 then L.find_turns_xy x y mtx
        else L.find_turns_color sh color mtx) = L1 at hgood ⊢
      simp only
      by_cases hpass : L1.have_beats = false ∧ x ≠ -1
      · rw [if_pos hpass]
        apply ih L1 mtx (!color) (depth + 1) alpha beta (-1) (-1) hv
          (by push_cast; omega) (fun h => absurd rfl h)
        unfold recFuel at hf ⊢
        rw [hstep] at hf
        rw [if_pos hpass.2] at hf
        rw [if_neg (by simp)]
        omega
      · rw [if_neg hpass]
        by_cases hemp : L1.turns = []
        · rw [if_pos hemp]
          refine ⟨_, L1, rfl, fun _ _ => ?_⟩
          split_ifs
          · exact le_refl 0
          · exact le_of_lt INF_pos
        · rw [if_neg hemp]
          have hcall : ∀ t ∈ L1.turns, ∀ (L2 : Logic σ) (a b : ℚ),
              ∃ v L', (if L1.have_beats = false ∧ x = -1 then
                  find_best_turns_rec sh cfg n L2 (make_turn mtx t) (!color) (depth + 1) a b
                    (-1) (-1)
                else
                  find_best_turns_rec sh cfg n L2 (make_turn mtx t) color depth a b
                    t.x2 t.y2) = some (v, L') ∧ (a < 0 → 0 ≤ b → 0 ≤ v) := by
            intro t ht L2 a b
            have hg := hgood t ht
            obtain ⟨hv', hdp, hpc⟩ := make_turn_good hv hg
            have hp64' := pieces_le (make_turn mtx t)
            by_cases hord : L1.have_beats = false ∧ x = -1
            · rw [if_pos hord]
              apply ih L2 (make_turn mtx t) (!color) (depth + 1) a b (-1) (-1) hv'
                (by push_cast; omega) (fun h => absurd rfl h)
              unfold recFuel at hf ⊢
              rw [hstep] at hf
              rw [if_neg (by simp)]
              omega
            · rw [if_neg hord]
              have hb : L1.have_beats = true := by
                cases hb : L1.have_beats with
                | true => rfl
                | false =>
                  exfalso
                  by_cases hx : x = -1
                  · exact hord ⟨hb, hx⟩
                  · exact hpass ⟨hb, hx⟩
              rw [hb] at hpc hg
              simp only [if_true] at hpc
              have hon : onBoard t.x2 t.y2 := hg.2.2.1
              have hx2 : t.x2 ≠ -1 := by unfold onBoard at hon; omega
              apply ih L2 (make_turn mtx t) color depth a b t.x2 t.y2 hv' hd
                (fun _ => ⟨hon, hdp⟩)
              unfold recFuel at hf ⊢
              rw [if_pos hx2]
              split_ifs at hf <;> omega
          obtain ⟨v, L', hv', hodd, heven⟩ := rec_loop_total _ (decide (depth % 2 ≠ 0))
            (decide (cfg.optimization ≠ "O0")) L1.turns hcall L1 (INF + 1) (-1) alpha beta
          refine ⟨v, L', hv', fun ha hb => ?_⟩
          cases ho : decide (depth % 2 ≠ 0) with
          | true => exact hodd ho (Or.inr ⟨hemp, ha, hb⟩)
          | false => exact heven ho ha hb (by linarith [INF_pos])
/-! ## The perspective of the alternating search -/

theorem moverAt_succ (c : Bool) (depth : Nat) : moverAt c (depth + 1) = !(moverAt c depth) := by
  unfold moverAt
  rcases Nat.mod_two_eq_zero_or_one depth with h | h
  · have : (depth + 1) % 2 = 1 := by omega
    rw [if_pos this, if_neg (by omega)]
    simp
  · have : (depth + 1) % 2 ≠ 1 := by omega
    rw [if_neg this, if_pos h]

theorem moverAt_zero (c : Bool) : moverAt c 0 = !c := rfl

/-- At a leaf the code's favoured colour `depth % 2 == color` is the colour the search was
started for. -/
theorem leaf_favoured (c : Bool) (depth : Nat) :
    decide (depth % 2 = if moverAt c depth = true then 1 else 0) = c := by
  unfold moverAt
  rcases Nat.mod_two_eq_zero_or_one depth with h | h
  · rw [if_neg (show ¬ depth % 2 = 1 by omega), h]
    cases c <;> simp
  · rw [if_pos h, h]
    cases c <;> simp

theorem rec_loop_odd {σ : Type} (call : Logic σ → move_pos → ℚ → ℚ → Option (ℚ × Logic σ))
    (prune : Bool) : ∀ (turns : List move_pos) (L : Logic σ) (mn mx alpha beta : ℚ),
      rec_loop call true prune turns L mn mx alpha beta =
        max_loop call prune turns L mx alpha beta := by
  intro turns
  induction turns with
  | nil => intro L mn mx alpha beta; rfl
  | cons t rest ih =>
    intro L mn mx alpha beta
    rw [rec_loop, max_loop]
    cases hc : call L t alpha beta with
    | none => rfl
    | some r =>
      obtain ⟨s, L1⟩ := r
      simp only [if_true]
      rw [ih]

theorem rec_loop_even {σ : Type} (call : Logic σ → move_pos → ℚ → ℚ → Option (ℚ × Logic σ))
    (prune : Bool) : ∀ (turns : List move_pos) (L : Logic σ) (mn mx alpha beta : ℚ),
      rec_loop call false prune turns L mn mx alpha beta =
        min_loop call prune turns L mn alpha beta := by
  intro turns
  induction turns with
  | nil => intro L mn mx alpha beta; rfl
  | cons t rest ih =>
    intro L mn mx alpha beta
    rw [rec_loop, min_loop]
    cases hc : call L t alpha beta with
    | none => rfl
    | some r =>
      obtain ⟨s, L1⟩ := r
      simp only [Bool.false_eq_true, if_false]
      rw [ih]

/-- The recursion of the code, entered with the mover the depth calls for, is the
recursion written from the perspective of the colour the search was started for. -/
theorem rec_eq_search_from {σ : Type} (sh : σ → List move_pos → List move_pos × σ)
    (cfg : Settings) (c : Bool) :
    ∀ (fuel : Nat) (L : Logic σ) (mtx : Grid) (depth : Nat) (alpha beta : ℚ) (x y : Int),
      find_best_turns_rec sh cfg fuel L mtx (moverAt c depth) depth alpha beta x y =
        search_from sh cfg c fuel L mtx depth alpha beta x y := by
  intro fuel
  induction fuel with
  | zero => intro L mtx depth alpha beta x y; rfl
  | succ n ih =>
    intro L mtx depth alpha beta x y
    rw [find_best_turns_rec, search_from]
    by_cases hleaf : (depth : Int) = cfg.Max_depth
    · rw [if_pos hleaf, if_pos hleaf, leaf_favoured]
    · rw [if_neg hleaf, if_neg hleaf]
      generalize (if x ≠ -1 then L.find_turns_xy x y mtx
        else L.find_turns_color sh (moverAt c depth) mtx) = L1
      simp only
      have hnext : ∀ (L2 : Logic σ) (m : Grid) (a b : ℚ),
          find_best_turns_rec sh cfg n L2 m (!moverAt c depth) (depth + 1) a b (-1) (-1) =
            search_from sh cfg c n L2 m (depth + 1) a b (-1) (-1) := by
        intro L2 m a b
        rw [← moverAt_succ]
        exact ih L2 m (depth + 1) a b (-1) (-1)
      by_cases hpass : L1.have_beats = false ∧ x ≠ -1
      · rw [if_pos hpass, if_pos hpass]
        exact hnext L1 mtx alpha beta
      · rw [if_neg hpass, if_neg hpass]
        by_cases hemp : L1.turns = []
        · rw [if_pos hemp, if_pos hemp]
          rcases Nat.mod_two_eq_zero_or_one depth with h | h
          · rw [if_neg (by omega), if_neg (by omega)]
          · rw [if_pos (by omega), if_pos h]
        · rw [if_neg hemp, if_neg hemp]
          have hcall : (fun (L2 : Logic σ) (turn : move_pos) (a b : ℚ) =>
              if L1.have_beats = false ∧ x = -1 then
                find_best_turns_rec sh cfg n L2 (make_turn mtx turn) (!moverAt c depth)
                  (depth + 1) a b (-1) (-1)
              else find_best_turns_rec sh cfg n L2 (make_turn mtx turn) (moverAt c depth)
                  depth a b turn.x2 turn.y2) =
              (fun (L2 : Logic σ) (turn : move_pos) (a b : ℚ) =>
              if L1.have_beats = false ∧ x = -1 then
                search_from sh cfg c n L2 (make_turn mtx turn) (depth + 1) a b (-1) (-1)
              else search_from sh cfg c n L2 (make_turn mtx turn) depth a b
                  turn.x2 turn.y2) := by
            funext L2 turn a b
            rw [hnext, ih]
          rw [hcall]
          rcases Nat.mod_two_eq_zero_or_one depth with h | h
          · have hd : decide (depth % 2 ≠ 0) = false := by simp [h]
            rw [hd, rec_loop_even, if_neg (by omega)]
          · have hd : decide (depth % 2 ≠ 0) = true := by simp [h]
            rw [hd, rec_loop_odd, if_pos h]
/-! ## The root candidates of the search -/

/-- With one cached ordinary move and `Max_depth = 0` the search returns that move,
whatever the board and the colour. -/
theorem cached_single {σ : Type} (sh : σ → List move_pos → List move_pos × σ) (cfg : Settings)
    (hd : cfg.Max_depth = 0) (n : Nat) (L : Logic σ) (t : move_pos) (hL : L.turns = [t])
    (hb : L.have_beats = false) (board : Board) (color : Bool) :
    find_best_turns sh cfg (n + 2) L board color = some ([t], L, ⟨[t], [-1]⟩) := by
  have hs := calc_score_nonneg cfg.scoring_mode (make_turn board.mtx t)
    (decide (0 % 2 = if (!color) = true then 1 else 0))
  have hrec : find_best_turns_rec sh cfg (n + 1) L (make_turn board.mtx t) (!color) 0 (-1)
      (INF + 1) (-1) (-1) = some (calc_score cfg.scoring_mode (make_turn board.mtx t)
        (decide (0 % 2 = if (!color) = true then 1 else 0)), L) := by
    rw [find_best_turns_rec, if_pos (by rw [hd]; rfl)]
  unfold find_best_turns
  rw [find_first_best_turn]
  simp only [ne_eq, not_true_eq_false, if_false, and_false, hL, hb, Bool.false_eq_true]
  rw [first_loop]
  simp only [hrec, Option.map_some']
  rw [if_pos (by linarith)]
  rw [first_loop]
  simp [collect_turns]

/-- C13, as stated, fails: on the start position, for White and depth 0, the search
returns the black man's move 2,7 -> 3,6 when the last query of the move generator was for
the square 2,7, and White's move 5,0 -> 4,1 when it was for the square 5,0. -/
theorem C13_counterexample :
    (find_best_turns noShuffle ⟨0, "NumberAndPotential", "O1"⟩ 2
        (freshLogic.find_turns_xy 2 7 startGrid) startBoard false).map (fun r => r.1) =
      some [⟨2, 7, 3, 6, -1, -1⟩] ∧
    (find_best_turns noShuffle ⟨0, "NumberAndPotential", "O1"⟩ 2
        (freshLogic.find_turns_xy 5 0 startGrid) startBoard false).map (fun r => r.1) =
      some [⟨5, 0, 4, 1, -1, -1⟩] := by
  constructor
  · rw [cached_single noShuffle _ rfl 0 _ ⟨2, 7, 3, 6, -1, -1⟩ (by decide) (by decide)]
    rfl
  · rw [cached_single noShuffle _ rfl 0 _ ⟨5, 0, 4, 1, -1, -1⟩ (by decide) (by decide)]
    rfl

/-- C13 (amended): `find_best_turns` takes as its root candidates the list cached by the
last query of the move generator; when that query was `find_turns(color)` on the live
board, the result depends only on the grid of the live board, the colour, the
configuration and the state of the random engine: not on what the generator held before
that query, nor on the history of the board. -/
theorem C13_depends_on_cached_query {σ : Type} (sh : σ → List move_pos → List move_pos × σ)
    (cfg : Settings) (fuel : Nat) (La Lb : Logic σ) (ba bb : Board) (color : Bool)
    (heng : La.rand_eng = Lb.rand_eng) (hmtx : ba.mtx = bb.mtx) :
    (La.find_turns_color sh color ba.mtx).turns = (sh La.rand_eng (find_turns_color id color ba.mtx).1).1 ∧
    find_best_turns sh cfg fuel (La.find_turns_color sh color ba.mtx) ba color =
      find_best_turns sh cfg fuel (Lb.find_turns_color sh color bb.mtx) bb color := by
  refine ⟨rfl, ?_⟩
  have : La.find_turns_color sh color ba.mtx = Lb.find_turns_color sh color bb.mtx := by
    unfold Logic.find_turns_color
    rw [heng, hmtx]
  unfold find_best_turns
  rw [this, hmtx]
/-! ## The arrays of the first phase -/

theorem Enc_mono {nm nm' : List move_pos} {ns ns' : List Int} :
    ∀ (ch : List move_pos) (s : Nat), Enc nm ns s ch →
      (∀ i, s ≤ i → ∀ e, nm[i]? = some e → nm'[i]? = some e) →
      (∀ i, s ≤ i → ∀ e, ns[i]? = some e → ns'[i]? = some e) → Enc nm' ns' s ch := by
  intro ch
  induction ch with
  | nil =>
    intro s h h1 _
    obtain ⟨e, he, hx⟩ := h
    exact ⟨e, h1 s (le_refl _) e he, hx⟩
  | cons t sub ih =>
    intro s h h1 h2
    obtain ⟨ht, hx, hrest⟩ := h
    refine ⟨h1 s (le_refl _) t ht, hx, ?_⟩
    rcases hrest with ⟨hn, hs⟩ | ⟨s', hlt, hn, hsub⟩
    · exact Or.inl ⟨h2 s (le_refl _) _ hn, hs⟩
    · refine Or.inr ⟨s', hlt, h2 s (le_refl _) _ hn, ih s' hsub ?_ ?_⟩
      · exact fun i hi => h1 i (by omega)
      · exact fun i hi => h2 i (by omega)

theorem Enc_length {nm : List move_pos} {ns : List Int} :
    ∀ (ch : List move_pos) (s : Nat), Enc nm ns s ch → s + ch.length ≤ nm.length := by
  intro ch
  induction ch with
  | nil =>
    intro s h
    obtain ⟨e, he, _⟩ := h
    have := (List.getElem?_eq_some_iff.mp he).1
    simp only [List.length_nil]; omega
  | cons t sub ih =>
    intro s h
    obtain ⟨ht, _, hrest⟩ := h
    have hs := (List.getElem?_eq_some_iff.mp ht).1
    rcases hrest with ⟨_, hs'⟩ | ⟨s', hlt, _, hsub⟩
    · rw [hs']; simp only [List.length_cons, List.length_nil]; omega
    · have := ih s' hsub
      simp only [List.length_cons]; omega

/-- Reading the arrays from a state that holds a non-empty chain gives that chain. -/
theorem collect_turns_Enc (P : Plan) :
    ∀ (fuel : Nat) (s : Nat) (t : move_pos) (sub : List move_pos),
      Enc P.next_move P.next_best_state s (t :: sub) → sub.length < fuel →
      collect_turns P fuel (s : Int) = some (t :: sub) := by
  intro fuel
  induction fuel with
  | zero => intro s t sub _ hf; omega
  | succ n ih =>
    intro s t sub h hf
    obtain ⟨ht, hx, hrest⟩ := h
    rw [collect_turns]
    simp only [Int.toNat_ofNat]
    have hget : P.next_move.getD s ⟨-1, -1, -1, -1, -1, -1⟩ = t := by
      rw [List.getD_eq_getElem?_getD, ht]; rfl
    rw [hget]
    rcases hrest with ⟨hn, hs⟩ | ⟨s', hlt, hn, hsub⟩
    · have hnext : P.next_best_state.getD s (-1) = -1 := by
        rw [List.getD_eq_getElem?_getD, hn]; rfl
      rw [hnext, hs]
      simp
    · have hnext : P.next_best_state.getD s (-1) = (s' : Int) := by
        rw [List.getD_eq_getElem?_getD, hn]; rfl
      rw [hnext]
      simp only [Int.toNat_ofNat]
      cases sub with
      | nil =>
        obtain ⟨e, he, hex⟩ := hsub
        have : P.next_move.getD s' ⟨-1, -1, -1, -1, -1, -1⟩ = e := by
          rw [List.getD_eq_getElem?_getD, he]; rfl
        have hc : ¬ (((s' : Nat) : Int) ≠ -1 ∧
            (P.next_move.getD s' ⟨-1, -1, -1, -1, -1, -1⟩).x ≠ -1) := by
          rw [this]; simp [hex]
        rw [if_neg hc]
      | cons t' sub' =>
        have hsub' := hsub
        obtain ⟨ht', hx', _⟩ := hsub'
        have : P.next_move.getD s' ⟨-1, -1, -1, -1, -1, -1⟩ = t' := by
          rw [List.getD_eq_getElem?_getD, ht']; rfl
        have hc : ((s' : Nat) : Int) ≠ -1 ∧
            (P.next_move.getD s' ⟨-1, -1, -1, -1, -1, -1⟩).x ≠ -1 := by
          rw [this]; exact ⟨by omega, hx'⟩
        rw [if_pos hc]
        rw [ih s' t' sub' hsub (by simp only [List.length_cons] at hf; omega)]
        rfl
theorem getElem?_lt_of_some {α : Type} {l : List α} {i : Nat} {e : α} (h : l[i]? = some e) :
    i < l.length := (List.getElem?_eq_some_iff.mp h).1

theorem Keeps_trans_set {P P1 P' : Plan} {state : Nat} {t : move_pos} {v : Int}
    (h1 : Keeps P P1 P.next_move.length) (hs : state < P.next_move.length)
    (h2 : Keeps ⟨P1.next_move.set state t, P1.next_best_state.set state v⟩ P' state) :
    Keeps P P' state := by
  obtain ⟨hl1, he1⟩ := h1
  obtain ⟨hl2, he2⟩ := h2
  simp only [List.length_set] at hl2
  refine ⟨le_trans hl1 hl2, fun i hi => ?_⟩
  have h := he2 i hi
  have h' := he1 i (by omega)
  simp only at h
  rw [List.getElem?_set_ne (by omega), List.getElem?_set_ne (by omega)] at h
  exact ⟨h.1.trans h'.1, h.2.trans h'.2⟩

theorem Keeps_trans {P P1 P' : Plan} {state : Nat}
    (h1 : Keeps P P1 P.next_move.length) (hs : state < P.next_move.length)
    (h2 : Keeps P1 P' state) : Keeps P P' state := by
  obtain ⟨hl1, he1⟩ := h1
  obtain ⟨hl2, he2⟩ := h2
  refine ⟨le_trans hl1 hl2, fun i hi => ?_⟩
  have h := he2 i hi
  have h' := he1 i (by omega)
  exact ⟨h.1.trans h'.1, h.2.trans h'.2⟩

/-- The loop of `find_first_best_turn` writes to the arrays the chain that `chain_loop`
returns. -/
theorem first_loop_refines {σ : Type}
    (callc : Logic σ → Plan → move_pos → Nat → ℚ → Option (ℚ × Logic σ × Plan))
    (callf : Logic σ → move_pos → ℚ → Option (ℚ × List move_pos × Logic σ))
    (hb : Bool) (state : Nat) :
    ∀ (turns : List move_pos), (∀ t ∈ turns, t.x ≠ -1) →
      (∀ t ∈ turns, ∀ (L2 : Logic σ) (P2 : Plan) (best : ℚ), P2.WF →
        state < P2.next_move.length →
        (callf L2 t best = none → callc L2 P2 t P2.next_move.length best = none) ∧
        (∀ v sub L', callf L2 t best = some (v, sub, L') →
          ∃ P', callc L2 P2 t P2.next_move.length best = some (v, L', P') ∧ P'.WF ∧
            Keeps P2 P' P2.next_move.length ∧
            (if hb = true then Enc P'.next_move P'.next_best_state P2.next_move.length sub
              else sub = []))) →
      ∀ (L : Logic σ) (P : Plan) (best : ℚ) (ch : List move_pos), P.WF →
        state < P.next_move.length → Enc P.next_move P.next_best_state state ch →
        (chain_loop callf turns L best ch = none →
          first_loop callc hb state turns L P best = none) ∧
        (∀ v ch' L', chain_loop callf turns L best ch = some (v, ch', L') →
          ∃ P', first_loop callc hb state turns L P best = some (v, L', P') ∧ P'.WF ∧
            Keeps P P' state ∧ Enc P'.next_move P'.next_best_state state ch') := by
  intro turns
  induction turns with
  | nil =>
    intro _ _ L P best ch hwf hs henc
    constructor
    · intro h; simp [chain_loop] at h
    · intro v ch' L' h
      simp only [chain_loop, Option.some.injEq, Prod.mk.injEq] at h
      obtain ⟨rfl, rfl, rfl⟩ := h
      exact ⟨P, rfl, hwf, ⟨le_refl _, fun i _ => ⟨rfl, rfl⟩⟩, henc⟩
  | cons t rest ih =>
    intro hx hcall L P best ch hwf hs henc
    have hxr : ∀ u ∈ rest, u.x ≠ -1 := fun u hu => hx u (List.mem_cons_of_mem _ hu)
    have hcr := fun u (hu : u ∈ rest) => hcall u (List.mem_cons_of_mem _ hu)
    obtain ⟨hnone, hsome⟩ := hcall t (List.mem_cons_self _ _) L P best hwf hs
    rw [chain_loop, first_loop]
    cases hf : callf L t best with
    | none =>
      rw [hnone hf]
      exact ⟨fun _ => rfl, fun v ch' L' h => by simp at h⟩
    | some r =>
      obtain ⟨score, sub, L1⟩ := r
      obtain ⟨P1, hc, hwf1, hk1, hsub⟩ := hsome score sub L1 hf
      rw [hc]
      simp only
      have hlen1 : P.next_move.length ≤ P1.next_move.length := hk1.1
      by_cases hgt : score > best
      · rw [if_pos hgt, if_pos hgt]
        have hwfn : Plan.WF ⟨P1.next_move.set state t, P1.next_best_state.set state
            (if hb = true then (P.next_move.length : Int) else -1)⟩ := by
          unfold Plan.WF at hwf1 ⊢
          simp only [List.length_set]
          exact hwf1
        have hencn : Enc (P1.next_move.set state t) (P1.next_best_state.set state
            (if hb = true then (P.next_move.length : Int) else -1)) state (t :: sub) := by
          refine ⟨List.getElem?_set_self (by omega), hx t (List.mem_cons_self _ _), ?_⟩
          have hs1 : state < P1.next_best_state.length := by
            unfold Plan.WF at hwf1; omega
          cases hb with
          | false =>
            left
            simp only [Bool.false_eq_true, if_false] at hsub ⊢
            exact ⟨List.getElem?_set_self hs1, hsub⟩
          | true =>
            right
            simp only [if_true] at hsub ⊢
            refine ⟨P.next_move.length, hs, List.getElem?_set_self hs1, ?_⟩
            apply Enc_mono sub _ hsub
            · intro i hi e he
              rw [List.getElem?_set_ne (by omega)]; exact he
            · intro i hi e he
              rw [List.getElem?_set_ne (by omega)]; exact he
        obtain ⟨hn2, hs2⟩ := ih hxr hcr L1 _ score (t :: sub) hwfn
          (by simp only [List.length_set]; omega) hencn
        refine ⟨hn2, fun v ch' L' h => ?_⟩
        obtain ⟨P', hfl, hwf', hk', henc'⟩ := hs2 v ch' L' h
        exact ⟨P', hfl, hwf', Keeps_trans_set hk1 hs hk', henc'⟩
      · rw [if_neg hgt, if_neg hgt]
        have henc1 : Enc P1.next_move P1.next_best_state state ch := by
          apply Enc_mono ch _ henc
          · intro i _ e he
            rw [(hk1.2 i (getElem?_lt_of_some he)).1]; exact he
          · intro i _ e he
            have : i < P.next_move.length := by
              have := getElem?_lt_of_some he
              unfold Plan.WF at hwf; omega
            rw [(hk1.2 i this).2]; exact he
        obtain ⟨hn2, hs2⟩ := ih hxr hcr L1 P1 best ch hwf1 (by omega) henc1
        refine ⟨hn2, fun v ch' L' h => ?_⟩
        obtain ⟨P', hfl, hwf', hk', henc'⟩ := hs2 v ch' L' h
        exact ⟨P', hfl, hwf', Keeps_trans hk1 hs hk', henc'⟩
theorem goodMove_x {mtx : Grid} {capture : Bool} {m : move_pos} (h : GoodMove mtx capture m) :
    m.x ≠ -1 ∧ m.x2 ≠ -1 := by
  obtain ⟨h1, _, h2, _⟩ := h
  unfold onBoard at h1 h2
  constructor <;> omega

/-- The arrays written by `find_first_best_turn` hold, from its own state on, the chain
that `first_chain` returns; the value and the state of the generator are the same. -/
theorem first_refines {σ : Type} (sh : σ → List move_pos → List move_pos × σ) (cfg : Settings) :
    ∀ (fuel : Nat) (L : Logic σ) (P : Plan) (mtx : Grid) (color : Bool) (x y : Int)
      (state : Nat) (alpha : ℚ), P.WF → P.next_move.length = state → validGrid mtx →
      (state ≠ 0 → onBoard x y ∧ cell mtx x y ≠ 0) →
      (state = 0 → ∀ t ∈ L.turns, GoodMove mtx L.have_beats t) →
      (first_chain sh cfg fuel L mtx color x y (decide (state = 0)) alpha = none →
        find_first_best_turn sh cfg fuel L P mtx color x y state alpha = none) ∧
      (∀ v ch L', first_chain sh cfg fuel L mtx color x y (decide (state = 0)) alpha =
          some (v, ch, L') →
        ∃ P', find_first_best_turn sh cfg fuel L P mtx color x y state alpha = some (v, L', P') ∧
          P'.WF ∧ Keeps P P' state ∧ Enc P'.next_move P'.next_best_state state ch) := by
  intro fuel
  induction fuel with
  | zero =>
    intro L P mtx color x y state alpha _ _ _ _ _
    exact ⟨fun _ => rfl, fun v ch L' h => by simp [first_chain] at h⟩
  | succ n ih =>
    intro L P mtx color x y state alpha hwf hlen hv hxy hroot
    rw [first_chain, find_first_best_turn]
    have hL1 : (if decide (state = 0) = false then L.find_turns_xy x y mtx else L) =
        (if state ≠ 0 then L.find_turns_xy x y mtx else L) := by
      by_cases h : state = 0 <;> simp [h]
    rw [hL1]
    have hgood : ∀ t ∈ (if state ≠ 0 then L.find_turns_xy x y mtx else L).turns,
        GoodMove mtx (if state ≠ 0 then L.find_turns_xy x y mtx else L).have_beats t := by
      intro t ht
      by_cases h : state = 0
      · rw [if_neg (by simpa using h)] at ht ⊢
        exact hroot h t ht
      · rw [if_pos h] at ht ⊢
        exact find_turns_good hv (hxy h).1 (hxy h).2 ht
    generalize (if state ≠ 0 then L.find_turns_xy x y mtx else L) = L1 at hgood ⊢
    have hwf0 : Plan.WF ⟨P.next_move ++ [⟨-1, -1, -1, -1, -1, -1⟩], P.next_best_state ++ [-1]⟩ := by
      unfold Plan.WF at hwf ⊢
      simp only [List.length_append, List.length_singleton]
      omega
    have hk0 : Keeps P ⟨P.next_move ++ [⟨-1, -1, -1, -1, -1, -1⟩], P.next_best_state ++ [-1]⟩
        state := by
      refine ⟨by simp, fun i hi => ?_⟩
      have h2 : i < P.next_best_state.length := by unfold Plan.WF at hwf; omega
      exact ⟨List.getElem?_append_left (by omega), List.getElem?_append_left h2⟩
    have henc0 : Enc (P.next_move ++ [⟨-1, -1, -1, -1, -1, -1⟩]) (P.next_best_state ++ [-1])
        state [] := by
      refine ⟨⟨-1, -1, -1, -1, -1, -1⟩, ?_, rfl⟩
      rw [← hlen]
      exact List.getElem?_concat_length _ _
    have hcond : (L1.have_beats = false ∧ decide (state = 0) = false) ↔
        (L1.have_beats = false ∧ state ≠ 0) := by
      by_cases h : state = 0 <;> simp [h]
    by_cases hpass : L1.have_beats = false ∧ state ≠ 0
    · rw [if_pos (hcond.mpr hpass), if_pos hpass]
      cases hr : find_best_turns_rec sh cfg n L1 mtx (!color) 0 alpha (INF + 1) (-1) (-1) with
      | none => exact ⟨fun _ => rfl, fun v ch L' h => by simp at h⟩
      | some r =>
        refine ⟨fun h => by simp at h, fun v ch L' h => ?_⟩
        simp only [Option.map_some', Option.some.injEq, Prod.mk.injEq] at h
        obtain ⟨rfl, rfl, rfl⟩ := h
        exact ⟨_, rfl, hwf0, hk0, henc0⟩
    · rw [if_neg (fun h => hpass (hcond.mp h)), if_neg hpass]
      have hs0 : state < (P.next_move ++ [(⟨-1, -1, -1, -1, -1, -1⟩ : move_pos)]).length := by
        simp only [List.length_append, List.length_singleton]; omega
      have key := first_loop_refines
        (fun L2 P2 turn next_state best_score =>
          if L1.have_beats = true then
            find_first_best_turn sh cfg n L2 P2 (make_turn mtx turn) color turn.x2 turn.y2
              next_state best_score
          else (find_best_turns_rec sh cfg n L2 (make_turn mtx turn) (!color) 0 best_score
              (INF + 1) (-1) (-1)).map fun r => (r.1, r.2, P2))
        (fun L2 turn best_score =>
          if L1.have_beats = true then
            first_chain sh cfg n L2 (make_turn mtx turn) color turn.x2 turn.y2 false best_score
          else
            (find_best_turns_rec sh cfg n L2 (make_turn mtx turn) (!color) 0 best_score
              (INF + 1) (-1) (-1)).map fun r => (r.1, [], r.2))
        L1.have_beats state L1.turns (fun t ht => (goodMove_x (hgood t ht)).1) ?_ L1
        ⟨P.next_move ++ [⟨-1, -1, -1, -1, -1, -1⟩], P.next_best_state ++ [-1]⟩ (-1) [] hwf0 hs0
        henc0
      · obtain ⟨k1, k2⟩ := key
        refine ⟨k1, fun v ch L' h => ?_⟩
        obtain ⟨P', h1, h2, h3, h4⟩ := k2 v ch L' h
        refine ⟨P', h1, h2, ⟨?_, fun i hi => ?_⟩, h4⟩
        · have := h3.1
          simp only [List.length_append, List.length_singleton] at this
          omega
        · have a := h3.2 i hi
          have b := hk0.2 i hi
          exact ⟨a.1.trans b.1, a.2.trans b.2⟩
      · intro t ht L2 P2 best hwf2 hs2
        have hg := hgood t ht
        obtain ⟨hv', hdp, _⟩ := make_turn_good hv hg
        simp only
        cases hb : L1.have_beats with
        | true =>
          simp only [if_true]
          have hne : P2.next_move.length ≠ 0 := by omega
          have hdec : decide (P2.next_move.length = 0) = false := by simp [hne]
          have := ih L2 P2 (make_turn mtx t) color t.x2 t.y2 P2.next_move.length best hwf2 rfl
            hv' (fun _ => ⟨hg.2.2.1, hdp⟩) (fun h => absurd h hne)
          rw [hdec] at this
          exact this
        | false =>
          simp only [Bool.false_eq_true, if_false]
          cases hr : find_best_turns_rec sh cfg n L2 (make_turn mtx t) (!color) 0 best (INF + 1)
              (-1) (-1) with
          | none => exact ⟨fun _ => rfl, fun v ch L' h => by simp at h⟩
          | some r =>
            refine ⟨fun h => by simp at h, fun v ch L' h => ?_⟩
            simp only [Option.map_some', Option.some.injEq, Prod.mk.injEq] at h
            obtain ⟨rfl, rfl, rfl⟩ := h
            exact ⟨P2, rfl, hwf2, ⟨le_refl _, fun i _ => ⟨rfl, rfl⟩⟩, rfl⟩
/-! ## The chain returned by the first phase -/

/-- The loop of the first phase returns when every call does; its value is the starting
value with the starting chain, or a larger value with a chain that starts with one of the
candidates; the first candidate always scores above a negative starting value. -/
theorem chain_loop_spec {σ : Type}
    (callf : Logic σ → move_pos → ℚ → Option (ℚ × List move_pos × Logic σ))
    (Q : move_pos → List move_pos → Prop) :
    ∀ (turns : List move_pos),
      (∀ t ∈ turns, ∀ (L2 : Logic σ) (best : ℚ), ∃ v sub L',
        callf L2 t best = some (v, sub, L') ∧ Q t sub ∧ (best < 0 → 0 ≤ v)) →
      ∀ (L : Logic σ) (best : ℚ) (ch : List move_pos), ∃ v ch' L',
        chain_loop callf turns L best ch = some (v, ch', L') ∧ best ≤ v ∧
        ((v = best ∧ ch' = ch) ∨ (best < v ∧ ∃ t ∈ turns, ∃ sub, ch' = t :: sub ∧ Q t sub)) ∧
        (turns ≠ [] → best < 0 → 0 ≤ v) := by
  intro turns
  induction turns with
  | nil =>
    intro _ L best ch
    exact ⟨best, ch, L, rfl, le_refl _, Or.inl ⟨rfl, rfl⟩, fun h => absurd rfl h⟩
  | cons t rest ih =>
    intro hcall L best ch
    have hcr : ∀ u ∈ rest, ∀ (L2 : Logic σ) (best : ℚ), ∃ v sub L',
        callf L2 u best = some (v, sub, L') ∧ Q u sub ∧ (best < 0 → 0 ≤ v) :=
      fun u hu => hcall u (List.mem_cons_of_mem _ hu)
    obtain ⟨score, sub, L1, hc, hq, h0⟩ := hcall t (List.mem_cons_self _ _) L best
    rw [chain_loop, hc]
    simp only
    by_cases hgt : score > best
    · rw [if_pos hgt]
      obtain ⟨v, ch', L', hl, hle, hcase, _⟩ := ih hcr L1 score (t :: sub)
      refine ⟨v, ch', L', hl, by linarith, Or.inr ⟨by linarith, ?_⟩, fun _ hb => ?_⟩
      · rcases hcase with ⟨_, hch⟩ | ⟨_, u, hu, sub', hch, hq'⟩
        · exact ⟨t, List.mem_cons_self _ _, sub, hch, hq⟩
        · exact ⟨u, List.mem_cons_of_mem _ hu, sub', hch, hq'⟩
      · linarith [h0 hb]
    · rw [if_neg hgt]
      obtain ⟨v, ch', L', hl, hle, hcase, _⟩ := ih hcr L1 best ch
      refine ⟨v, ch', L', hl, hle, ?_, fun _ hb => ?_⟩
      · rcases hcase with h | ⟨hlt, u, hu, sub', hch, hq'⟩
        · exact Or.inl h
        · exact Or.inr ⟨hlt, u, List.mem_cons_of_mem _ hu, sub', hch, hq'⟩
      · have := h0 hb
        linarith

/-- `first_chain` returns once the bound on the recursion is at least `firstFuel`. Away
from the root its chain is a complete chain of captures from the landing square; at the
root, with candidates cached, it starts with one of them, and continues with a complete
chain of captures when the candidates are captures. -/
theorem first_chain_spec {σ : Type} (sh : σ → List move_pos → List move_pos × σ)
    (hsh : ∀ s l, (sh s l).1.Perm l) (cfg : Settings) (hd : 0 ≤ cfg.Max_depth) :
    ∀ (fuel : Nat) (L : Logic σ) (mtx : Grid) (color : Bool) (x y : Int) (root : Bool)
      (alpha : ℚ), validGrid mtx → (root = false → onBoard x y ∧ cell mtx x y ≠ 0) →
      (root = true → ∀ t ∈ L.turns, GoodMove mtx L.have_beats t) →
      firstFuel cfg mtx ≤ fuel →
      ∃ v ch L', first_chain sh cfg fuel L mtx color x y root alpha = some (v, ch, L') ∧
        (root = false → ChainFrom mtx x y ch ∧
          (alpha < 0 ∨ (find_turns x y mtx).have_beats = true → 0 ≤ v)) ∧
        (root = true → L.turns ≠ [] → 0 ≤ v ∧ ∃ m rest, ch = m :: rest ∧ m ∈ L.turns ∧
          (L.have_beats = false → rest = []) ∧
          (L.have_beats = true → ChainFrom (make_turn mtx m) m.x2 m.y2 rest)) := by
  intro fuel
  induction fuel with
  | zero =>
    intro L mtx color x y root alpha _ _ _ hf
    unfold firstFuel at hf
    omega
  | succ n ih =>
    intro L mtx color x y root alpha hv hxy hroot hf
    have hp64 := pieces_le mtx
    have hD : (cfg.Max_depth - ((0 : Nat) : Int)).toNat = cfg.Max_depth.toNat := by simp
    rw [first_chain]
    have hgood : ∀ t ∈ (if root = false then L.find_turns_xy x y mtx else L).turns,
        GoodMove mtx (if root = false then L.find_turns_xy x y mtx else L).have_beats t := by
      intro t ht
      by_cases h : root = false
      · rw [if_pos h] at ht ⊢
        exact find_turns_good hv (hxy h).1 (hxy h).2 ht
      · rw [if_neg h] at ht ⊢
        exact hroot (by simpa using h) t ht
    have hL1t : root = false → (if root = false then L.find_turns_xy x y mtx else L).turns =
        (find_turns x y mtx).turns := fun h => by rw [if_pos h]; rfl
    have hL1b : root = false → (if root = false then L.find_turns_xy x y mtx else L).have_beats =
        (find_turns x y mtx).have_beats := fun h => by rw [if_pos h]; rfl
    have hL1r : root = true → (if root = false then L.find_turns_xy x y mtx else L) = L :=
      fun h => by rw [if_neg (by simp [h])]
    generalize (if root = false then L.find_turns_xy x y mtx else L) = L1 at hgood hL1t hL1b hL1r ⊢
    by_cases hpass : L1.have_beats = false ∧ root = false
    · rw [if_pos hpass]
      obtain ⟨v, L', hr, h0⟩ := rec_total sh hsh cfg n L1 mtx (!color) 0 alpha (INF + 1) (-1) (-1)
        hv (by simpa using hd) (fun h => absurd rfl h) (by
          unfold recFuel; unfold firstFuel at hf
          rw [hD, if_neg (by simp)]; omega)
      refine ⟨v, [], L', by rw [hr]; rfl, fun _ => ⟨?_, fun h => ?_⟩, fun h => ?_⟩
      · intro m hm
        rw [← hL1t hpass.2] at hm
        have := hgood m hm
        rw [hpass.1] at this
        exact this.2.2.2.2
      · rcases h with h | h
        · exact h0 h (by linarith [INF_pos])
        · rw [← hL1b hpass.2, hpass.1] at h; exact absurd h (by simp)
      · rw [hpass.2] at h; exact absurd h (by simp)
    · rw [if_neg hpass]
      obtain ⟨v, ch', L', hl, _, hcase, h0⟩ := chain_loop_spec
        (fun L2 turn best_score =>
          if L1.have_beats = true then
            first_chain sh cfg n L2 (make_turn mtx turn) color turn.x2 turn.y2 false best_score
          else
            (find_best_turns_rec sh cfg n L2 (make_turn mtx turn) (!color) 0 best_score
              (INF + 1) (-1) (-1)).map fun r => (r.1, [], r.2))
        (fun t sub => (L1.have_beats = true → ChainFrom (make_turn mtx t) t.x2 t.y2 sub) ∧
          (L1.have_beats = false → sub = []))
        L1.turns (by
          intro t ht L2 best
          have hg := hgood t ht
          obtain ⟨hv', hdp, hpc⟩ := make_turn_good hv hg
          have hp64' := pieces_le (make_turn mtx t)
          simp only
          cases hb : L1.have_beats with
          | true =>
            rw [hb] at hpc
            simp only [if_true] at hpc ⊢
            obtain ⟨v, sub, L', hfc, hnr, _⟩ := ih L2 (make_turn mtx t) color t.x2 t.y2 false best
              hv' (fun _ => ⟨hg.2.2.1, hdp⟩) (fun h => by simp at h) (by
                unfold firstFuel at hf ⊢; omega)
            exact ⟨v, sub, L', hfc, ⟨fun _ => (hnr rfl).1, fun h => by simp at h⟩,
              fun hb0 => (hnr rfl).2 (Or.inl hb0)⟩
          | false =>
            simp only [Bool.false_eq_true, if_false]
            obtain ⟨v, L', hr, h0⟩ := rec_total sh hsh cfg n L2 (make_turn mtx t) (!color) 0 best
              (INF + 1) (-1) (-1) hv' (by simpa using hd) (fun h => absurd rfl h) (by
                unfold recFuel; unfold firstFuel at hf
                rw [hD, if_neg (by simp)]; omega)
            exact ⟨v, [], L', by rw [hr]; rfl, ⟨fun h => by simp at h, fun _ => rfl⟩,
              fun hb0 => h0 hb0 (by linarith [INF_pos])⟩)
        L1 (-1) []
      refine ⟨v, ch', L', hl, fun hr => ?_, fun hr hne => ?_⟩
      · have hb : L1.have_beats = true := by
          cases hb : L1.have_beats with
          | true => rfl
          | false => exact absurd ⟨hb, hr⟩ hpass
        have hbt : (find_turns x y mtx).have_beats = true := by rw [← hL1b hr]; exact hb
        have hne : L1.turns ≠ [] := by
          rw [hL1t hr, (find_turns_true hbt).1]; exact (find_turns_true hbt).2
        have hv0 := h0 hne (by norm_num)
        rcases hcase with ⟨h1, _⟩ | ⟨_, t, ht, sub, hch, hq⟩
        · rw [h1] at hv0; norm_num at hv0
        · refine ⟨?_, fun _ => hv0⟩
          rw [hch]
          have hg := hgood t ht
          rw [hb] at hg
          rw [hL1t hr] at ht
          exact ⟨ht, hg.2.2.2.2.1, (find_turns_src ht).1, (find_turns_src ht).2, hq.1 hb⟩
      · rw [hL1r hr] at h0 hcase
        have hv0 := h0 hne (by norm_num)
        rcases hcase with ⟨h1, _⟩ | ⟨_, t, ht, sub, hch, hq⟩
        · rw [h1] at hv0; norm_num at hv0
        · exact ⟨hv0, t, sub, hch, ht, hq.2, hq.1⟩
/-- C11: called right after `find_turns(color)` on the live board found at least one
move, `find_best_turns` returns (pruning on or off) a complete legal Turn `m1 :: rest`:
`m1` is one of the moves of `find_turns(color)` on the live board; when `m1` is not a
capture the Turn has no further move; when it is a capture, every later move starts on
the landing square of the move before it and is a capturing move of `find_turns` for
that square on the board with the moves before it applied, and after the last move no
capturing move is available from its landing square. -/
theorem C11_best_turn_is_legal {σ : Type} (sh : σ → List move_pos → List move_pos × σ)
    (hsh : ∀ s l, (sh s l).1.Perm l) (cfg : Settings) (hd : 0 ≤ cfg.Max_depth)
    (L0 : Logic σ) (board : Board) (hv : validGrid board.mtx) (color : Bool)
    (hne : (find_turns_color id color board.mtx).turns ≠ [])
    (fuel : Nat) (hf : cfg.Max_depth.toNat * 130 + 194 ≤ fuel) :
    ∃ m1 rest L' P',
      find_best_turns sh cfg fuel (L0.find_turns_color sh color board.mtx) board color =
        some (m1 :: rest, L', P') ∧
      m1 ∈ (find_turns_color id color board.mtx).turns ∧
      (m1.xb = -1 → rest = []) ∧
      (m1.xb ≠ -1 → ChainFrom (make_turn board.mtx m1) m1.x2 m1.y2 rest) := by
  have hperm : (L0.find_turns_color sh color board.mtx).turns.Perm
      (find_turns_color id color board.mtx).turns := hsh _ _
  have hgood : ∀ t ∈ (L0.find_turns_color sh color board.mtx).turns,
      GoodMove board.mtx (L0.find_turns_color sh color board.mtx).have_beats t :=
    fun t ht => find_turns_color_good sh hsh L0 color hv ht
  have hne' : (L0.find_turns_color sh color board.mtx).turns ≠ [] := by
    intro h
    rw [h] at hperm
    exact hne (List.Perm.eq_nil (List.Perm.symm hperm))
  generalize L0.find_turns_color sh color board.mtx = L at hperm hgood hne'
  obtain ⟨v, ch, L', hfc, _, hr⟩ := first_chain_spec sh hsh cfg hd fuel L board.mtx color (-1)
    (-1) true (-1) hv (fun h => by simp at h) (fun _ => hgood) (by
      have := pieces_le board.mtx
      unfold firstFuel; omega)
  obtain ⟨_, m, rest, hch, hm, hnb, hbt⟩ := hr rfl hne'
  obtain ⟨_, hsome⟩ := first_refines sh cfg fuel L ⟨[], []⟩ board.mtx color (-1) (-1) 0 (-1)
    rfl rfl hv (fun h => absurd rfl h) (fun _ => hgood)
  obtain ⟨P', hff, _, _, henc⟩ := hsome v ch L' hfc
  rw [hch] at henc
  have hlen := Enc_length _ _ henc
  refine ⟨m, rest, L', P', ?_, hperm.mem_iff.mp hm, fun hx => ?_, fun hx => ?_⟩
  · unfold find_best_turns
    rw [hff]
    simp only
    have := collect_turns_Enc P' P'.next_move.length 0 m rest henc (by
      simp only [List.length_cons] at hlen; omega)
    simp only [Nat.cast_zero] at this
    rw [this]
    rfl
  · have hg := hgood m hm
    cases hb : L.have_beats with
    | false => exact hnb hb
    | true =>
      rw [hb] at hg
      exact absurd hx hg.2.2.2.2.1
  · have hg := hgood m hm
    cases hb : L.have_beats with
    | true => exact hbt hb
    | false =>
      rw [hb] at hg
      exact absurd hg.2.2.2.2 hx

/-- C11 at the start position: White at depth 1 with pruning on. -/
theorem C11_best_turn_is_legal_witness :
    (∀ (s : Unit) (l : List move_pos), (noShuffle s l).1.Perm l) ∧
    (0 : Int) ≤ (⟨1, "NumberAndPotential", "O1"⟩ : Settings).Max_depth ∧
    validGrid startBoard.mtx ∧
    (find_turns_color id false startBoard.mtx).turns ≠ [] ∧
    ∃ m1 rest L' P',
      find_best_turns noShuffle ⟨1, "NumberAndPotential", "O1"⟩ 324
          (freshLogic.find_turns_color noShuffle false startBoard.mtx) startBoard false =
        some (m1 :: rest, L', P') ∧
      m1 ∈ (find_turns_color id false startBoard.mtx).turns ∧
      (m1.xb = -1 → rest = []) ∧
      (m1.xb ≠ -1 → ChainFrom (make_turn startBoard.mtx m1) m1.x2 m1.y2 rest) :=
  ⟨fun _ _ => List.Perm.refl _, by decide, by decide, by decide,
    C11_best_turn_is_legal noShuffle (fun _ _ => List.Perm.refl _)
      ⟨1, "NumberAndPotential", "O1"⟩ (by decide) freshLogic startBoard (by decide) false
      (by decide) 324 (by decide)⟩
/-- C20: in a search started by `find_best_turns` for colour `c`, every node of
`find_best_turns_rec` entered with the mover `moverAt c depth` (the opponent of `c` at
even depth, `c` at odd depth) behaves as `search_from c`: its recursive calls are again
made for the mover their depth calls for (a capture chain keeps depth and mover), a leaf
is scored with `c` as the favoured colour, odd depths maximise and even depths minimise;
and `find_first_best_turn` enters the recursion only at depth 0 with the opponent of `c`
as mover, so only through `search_from c`. -/
theorem C20_search_perspective {σ : Type} (sh : σ → List move_pos → List move_pos × σ)
    (cfg : Settings) (c : Bool) :
    (∀ (fuel : Nat) (L : Logic σ) (mtx : Grid) (depth : Nat) (alpha beta : ℚ) (x y : Int),
      find_best_turns_rec sh cfg fuel L mtx (moverAt c depth) depth alpha beta x y =
        search_from sh cfg c fuel L mtx depth alpha beta x y) ∧
    (∀ (fuel : Nat) (L : Logic σ) (P : Plan) (mtx : Grid) (x y : Int) (state : Nat) (alpha : ℚ),
      find_first_best_turn sh cfg (fuel + 1) L P mtx c x y state alpha =
        let P0 : Plan :=
          { next_best_state := P.next_best_state ++ [-1]
            next_move := P.next_move ++ [⟨-1, -1, -1, -1, -1, -1⟩] }
        let L1 := if state ≠ 0 then L.find_turns_xy x y mtx else L
        if L1.have_beats = false ∧ state ≠ 0 then
          (search_from sh cfg c fuel L1 mtx 0 alpha (INF + 1) (-1) (-1)).map
            fun r => (r.1, r.2, P0)
        else
          first_loop (fun L2 P2 turn next_state best_score =>
              if L1.have_beats = true then
                find_first_best_turn sh cfg fuel L2 P2 (make_turn mtx turn) c turn.x2 turn.y2
                  next_state best_score
              else
                (search_from sh cfg c fuel L2 (make_turn mtx turn) 0 best_score (INF + 1)
                  (-1) (-1)).map fun r => (r.1, r.2, P2))
            L1.have_beats state L1.turns L1 P0 (-1)) := by
  refine ⟨rec_eq_search_from sh cfg c, ?_⟩
  intro fuel L P mtx x y state alpha
  have key : ∀ (L2 : Logic σ) (m : Grid) (a b : ℚ),
      find_best_turns_rec sh cfg fuel L2 m (!c) 0 a b (-1) (-1) =
        search_from sh cfg c fuel L2 m 0 a b (-1) (-1) := by
    intro L2 m a b
    rw [← moverAt_zero c]
    exact rec_eq_search_from sh cfg c fuel L2 m 0 a b (-1) (-1)
  rw [find_first_best_turn]
  simp only [key]

/-- C13 (amended) on the start position: two generators that were last asked about
different squares, and two boards with different histories. -/
theorem C13_depends_on_cached_query_witness :
    (freshLogic.find_turns_xy 2 7 startGrid).rand_eng =
      (freshLogic.find_turns_xy 5 0 startGrid).rand_eng ∧
    startBoard.mtx = (⟨startGrid, [], []⟩ : Board).mtx ∧
    (((freshLogic.find_turns_xy 2 7 startGrid).find_turns_color noShuffle false
        startBoard.mtx).turns =
      (noShuffle (freshLogic.find_turns_xy 2 7 startGrid).rand_eng
        (find_turns_color id false startBoard.mtx).1).1 ∧
    find_best_turns noShuffle ⟨2, "NumberAndPotential", "O1"⟩ 400
        ((freshLogic.find_turns_xy 2 7 startGrid).find_turns_color noShuffle false
          startBoard.mtx) startBoard false =
      find_best_turns noShuffle ⟨2, "NumberAndPotential", "O1"⟩ 400
        ((freshLogic.find_turns_xy 5 0 startGrid).find_turns_color noShuffle false
          (⟨startGrid, [], []⟩ : Board).mtx) ⟨startGrid, [], []⟩ false) :=
  ⟨rfl, rfl, C13_depends_on_cached_query noShuffle ⟨2, "NumberAndPotential", "O1"⟩ 400
    (freshLogic.find_turns_xy 2 7 startGrid) (freshLogic.find_turns_xy 5 0 startGrid)
    startBoard ⟨startGrid, [], []⟩ false rfl rfl⟩

/-! ## The value of the search without pruning -/

theorem max_loop_value {σ : Type} (call : Logic σ → move_pos → ℚ → ℚ → Option (ℚ × Logic σ))
    (f : move_pos → ℚ) :
    ∀ (turns : List move_pos),
      (∀ t ∈ turns, ∀ (L2 : Logic σ) (a b v2 : ℚ) (L2' : Logic σ),
        call L2 t a b = some (v2, L2') → v2 = f t) →
      ∀ (L : Logic σ) (mx alpha beta v : ℚ) (L' : Logic σ),
        max_loop call false turns L mx alpha beta = some (v, L') →
        v = (turns.map f).foldl max mx := by
  intro turns
  induction turns with
  | nil =>
    intro _ L mx alpha beta v L' h
    simp only [max_loop, Option.some.injEq, Prod.mk.injEq] at h
    simp [h.1]
  | cons t rest ih =>
    intro hcall L mx alpha beta v L' h
    rw [max_loop] at h
    cases hc : call L t alpha beta with
    | none => rw [hc] at h; simp at h
    | some r =>
      obtain ⟨s, L1⟩ := r
      rw [hc] at h
      simp only [Bool.false_eq_true, false_and, if_false] at h
      have hs := hcall t (List.mem_cons_self _ _) L alpha beta s L1 hc
      rw [List.map_cons, List.foldl_cons, ← hs]
      exact ih (fun u hu => hcall u (List.mem_cons_of_mem _ hu)) L1 _ _ _ v L' h

theorem min_loop_value {σ : Type} (call : Logic σ → move_pos → ℚ → ℚ → Option (ℚ × Logic σ))
    (f : move_pos → ℚ) :
    ∀ (turns : List move_pos),
      (∀ t ∈ turns, ∀ (L2 : Logic σ) (a b v2 : ℚ) (L2' : Logic σ),
        call L2 t a b = some (v2, L2') → v2 = f t) →
      ∀ (L : Logic σ) (mn alpha beta v : ℚ) (L' : Logic σ),
        min_loop call false turns L mn alpha beta = some (v, L') →
        v = (turns.map f).foldl min mn := by
  intro turns
  induction turns with
  | nil =>
    intro _ L mn alpha beta v L' h
    simp only [min_loop, Option.some.injEq, Prod.mk.injEq] at h
    simp [h.1]
  | cons t rest ih =>
    intro hcall L mn alpha beta v L' h
    rw [min_loop] at h
    cases hc : call L t alpha beta with
    | none => rw [hc] at h; simp at h
    | some r =>
      obtain ⟨s, L1⟩ := r
      rw [hc] at h
      simp only [Bool.false_eq_true, false_and, if_false] at h
      have hs := hcall t (List.mem_cons_self _ _) L alpha beta s L1 hc
      rw [List.map_cons, List.foldl_cons, ← hs]
      exact ih (fun u hu => hcall u (List.mem_cons_of_mem _ hu)) L1 _ _ _ v L' h

theorem foldl_max_perm {l1 l2 : List ℚ} (h : l1.Perm l2) (a : ℚ) :
    l1.foldl max a = l2.foldl max a :=
  List.Perm.foldl_eq' h (fun x _ y _ z => by
    rw [max_assoc, max_comm x y, ← max_assoc]) a

theorem foldl_min_perm {l1 l2 : List ℚ} (h : l1.Perm l2) (a : ℚ) :
    l1.foldl min a = l2.foldl min a :=
  List.Perm.foldl_eq' h (fun x _ y _ z => by
    rw [min_assoc, min_comm x y, ← min_assoc]) a
/-- Without pruning the value returned by the recursion is the minimax value of the
node, whatever the window, the state of the generator and the shuffle. -/
theorem search_value {σ : Type} (sh : σ → List move_pos → List move_pos × σ)
    (hsh : ∀ s l, (sh s l).1.Perm l) (cfg : Settings) (hO : cfg.optimization = "O0")
    (c : Bool) :
    ∀ (f1 : Nat) (L : Logic σ) (mtx : Grid) (depth : Nat) (alpha beta : ℚ) (x y : Int)
      (f2 : Nat) (v : ℚ) (L' : Logic σ), validGrid mtx → (depth : Int) ≤ cfg.Max_depth →
      (x ≠ -1 → onBoard x y ∧ cell mtx x y ≠ 0) → recFuel cfg mtx depth x ≤ f2 →
      search_from sh cfg c f1 L mtx depth alpha beta x y = some (v, L') →
      v = minimax cfg c f2 mtx depth x y := by
  intro f1
  induction f1 with
  | zero =>
    intro L mtx depth alpha beta x y f2 v L' _ _ _ _ h
    simp [search_from] at h
  | succ n ih =>
    intro L mtx depth alpha beta x y f2 v L' hv hd hxy hf h
    cases f2 with
    | zero => unfold recFuel at hf; omega
    | succ m =>
      rw [search_from] at h
      rw [minimax]
      by_cases hleaf : (depth : Int) = cfg.Max_depth
      · rw [if_pos hleaf] at h ⊢
        simp only [Option.some.injEq, Prod.mk.injEq] at h
        exact h.1.symm
      · rw [if_neg hleaf] at h ⊢
        have hlt : (depth : Int) < cfg.Max_depth := lt_of_le_of_ne hd hleaf
        have hstep : (cfg.Max_depth - (depth : Int)).toNat =
            (cfg.Max_depth - ((depth + 1 : Nat) : Int)).toNat + 1 := by
          push_cast; omega
        have hp64 := pieces_le mtx
        have hgood : ∀ t ∈ (if x ≠ -1 then L.find_turns_xy x y mtx
              else L.find_turns_color sh (moverAt c depth) mtx).turns,
            GoodMove mtx (if x ≠ -1 then L.find_turns_xy x y mtx
              else L.find_turns_color sh (moverAt c depth) mtx).have_beats t := by
          intro t ht
          by_cases hx : x ≠ -1
          · rw [if_pos hx] at ht ⊢
            exact find_turns_good hv (hxy hx).1 (hxy hx).2 ht
          · rw [if_neg hx] at ht ⊢
            exact find_turns_color_good sh hsh L _ hv ht
        have hbeq : (if x ≠ -1 then L.find_turns_xy x y mtx
              else L.find_turns_color sh (moverAt c depth) mtx).have_beats =
            (if x ≠ -1 then find_turns x y mtx
              else find_turns_color id (moverAt c depth) mtx).have_beats := by
          by_cases hx : x ≠ -1
          · rw [if_pos hx, if_pos hx]; rfl
          · rw [if_neg hx, if_neg hx]; rfl
        have hperm : (if x ≠ -1 then L.find_turns_xy x y mtx
              else L.find_turns_color sh (moverAt c depth) mtx).turns.Perm
            (if x ≠ -1 then find_turns x y mtx
              else find_turns_color id (moverAt c depth) mtx).turns := by
          by_cases hx : x ≠ -1
          · rw [if_pos hx, if_pos hx]; exact List.Perm.refl _
          · rw [if_neg hx, if_neg hx]; exact hsh _ _
        generalize (if x ≠ -1 then L.find_turns_xy x y mtx
          else L.find_turns_color sh (moverAt c depth) mtx) = L1 at h hgood hbeq hperm
        generalize (if x ≠ -1 then find_turns x y mtx
          else find_turns_color id (moverAt c depth) mtx) = T at hbeq hperm ⊢
        simp only at h ⊢
        rw [hbeq] at h
        by_cases hpass : T.have_beats = false ∧ x ≠ -1
        · rw [if_pos hpass] at h ⊢
          apply ih L1 mtx (depth + 1) alpha beta (-1) (-1) m v L' hv (by push_cast; omega)
            (fun h => absurd rfl h) _ h
          unfold recFuel at hf ⊢
          rw [hstep] at hf
          rw [if_pos hpass.2] at hf
          rw [if_neg (by simp)]
          omega
        · rw [if_neg hpass] at h ⊢
          by_cases hemp : T.turns = []
          · have hemp1 : L1.turns = [] := by
              rw [hemp] at hperm; exact List.Perm.eq_nil hperm
            rw [if_pos hemp1] at h
            rw [if_pos hemp]
            simp only [Option.some.injEq, Prod.mk.injEq] at h
            exact h.1.symm
          · have hemp1 : L1.turns ≠ [] := by
              intro h0
              rw [h0] at hperm
              exact hemp (List.Perm.eq_nil (List.Perm.symm hperm))
            rw [if_neg hemp1] at h
            rw [if_neg hemp]
            have hprune : decide (cfg.optimization ≠ "O0") = false := by simp [hO]
            rw [hprune] at h
            have hcall : ∀ t ∈ L1.turns, ∀ (L2 : Logic σ) (a b v2 : ℚ) (L2' : Logic σ),
                (if T.have_beats = false ∧ x = -1 then
                  search_from sh cfg c n L2 (make_turn mtx t) (depth + 1) a b (-1) (-1)
                else search_from sh cfg c n L2 (make_turn mtx t) depth a b t.x2 t.y2) =
                  some (v2, L2') →
                v2 = (fun t => if T.have_beats = false ∧ x = -1 then
                    minimax cfg c m (make_turn mtx t) (depth + 1) (-1) (-1)
                  else minimax cfg c m (make_turn mtx t) depth t.x2 t.y2) t := by
              intro t ht L2 a b v2 L2' hc
              have hg := hgood t ht
              obtain ⟨hv', hdp, hpc⟩ := make_turn_good hv hg
              have hp64' := pieces_le (make_turn mtx t)
              simp only
              by_cases hord : T.have_beats = false ∧ x = -1
              · rw [if_pos hord] at hc ⊢
                apply ih L2 (make_turn mtx t) (depth + 1) a b (-1) (-1) m v2 L2' hv'
                  (by push_cast; omega) (fun h => absurd rfl h) _ hc
                unfold recFuel at hf ⊢
                rw [hstep] at hf
                rw [if_neg (by simp)]
                omega
              · rw [if_neg hord] at hc ⊢
                have hb : T.have_beats = true := by
                  cases hb : T.have_beats with
                  | true => rfl
                  | false =>
                    exfalso
                    by_cases hx : x = -1
                    · exact hord ⟨hb, hx⟩
                    · exact hpass ⟨hb, hx⟩
                rw [hbeq, hb] at hpc hg
                simp only [if_true] at hpc
                have hon : onBoard t.x2 t.y2 := hg.2.2.1
                have hx2 : t.x2 ≠ -1 := by unfold onBoard at hon; omega
                apply ih L2 (make_turn mtx t) depth a b t.x2 t.y2 m v2 L2' hv' hd
                  (fun _ => ⟨hon, hdp⟩) _ hc
                unfold recFuel at hf ⊢
                rw [if_pos hx2]
                split_ifs at hf <;> omega
            by_cases hodd : depth % 2 = 1
            · rw [if_pos hodd] at h ⊢
              rw [max_loop_value _ _ L1.turns hcall L1 _ _ _ v L' h]
              exact foldl_max_perm (List.Perm.map _ hperm) _
            · rw [if_neg hodd] at h ⊢
              rw [min_loop_value _ _ L1.turns hcall L1 _ _ _ v L' h]
              exact foldl_min_perm (List.Perm.map _ hperm) _
/-! ## The first maximal chain -/

theorem FirstMax_append {val : List move_pos → ℚ} {l1 l2 : List (List move_pos)} {a v1 v2 : ℚ}
    {ch0 ch1 ch2 : List move_pos} (h1 : FirstMax val l1 a ch0 v1 ch1)
    (h2 : FirstMax val l2 v1 ch1 v2 ch2) : FirstMax val (l1 ++ l2) a ch0 v2 ch2 := by
  rcases h1 with ⟨hv1, hc1, hall1⟩ | ⟨hlt1, hval1, i1, hi1, hall1, hfirst1⟩
  · rcases h2 with ⟨hv2, hc2, hall2⟩ | ⟨hlt2, hval2, i2, hi2, hall2, hfirst2⟩
    · left
      refine ⟨by rw [hv2, hv1], by rw [hc2, hc1], fun p hp => ?_⟩
      rcases List.mem_append.mp hp with hp | hp
      · exact hall1 p hp
      · rw [← hv1]; exact hall2 p hp
    · right
      refine ⟨by rw [← hv1]; exact hlt2, hval2, l1.length + i2, ?_, fun p hp => ?_,
        fun j p hj hp => ?_⟩
      · rw [List.getElem?_append_right (by omega)]
        simpa using hi2
      · rcases List.mem_append.mp hp with hp | hp
        · have := hall1 p hp; linarith
        · exact hall2 p hp
      · by_cases hjl : j < l1.length
        · rw [List.getElem?_append_left hjl] at hp
          have := hall1 p (List.getElem?_mem hp)
          linarith
        · rw [List.getElem?_append_right (by omega)] at hp
          exact hfirst2 (j - l1.length) p (by omega) hp
  · have hi1' : i1 < l1.length := getElem?_lt_of_some hi1
    rcases h2 with ⟨hv2, hc2, hall2⟩ | ⟨hlt2, hval2, i2, hi2, hall2, hfirst2⟩
    · right
      refine ⟨by rw [hv2]; exact hlt1, by rw [hv2, hc2]; exact hval1, i1, ?_, fun p hp => ?_,
        fun j p hj hp => ?_⟩
      · rw [List.getElem?_append_left hi1', hc2]; exact hi1
      · rw [hv2]
        rcases List.mem_append.mp hp with hp | hp
        · exact hall1 p hp
        · exact hall2 p hp
      · rw [List.getElem?_append_left (by omega)] at hp
        rw [hv2]
        exact hfirst1 j p hj hp
    · right
      refine ⟨by linarith, hval2, l1.length + i2, ?_, fun p hp => ?_, fun j p hj hp => ?_⟩
      · rw [List.getElem?_append_right (by omega)]
        simpa using hi2
      · rcases List.mem_append.mp hp with hp | hp
        · have := hall1 p hp; linarith
        · exact hall2 p hp
      · by_cases hjl : j < l1.length
        · rw [List.getElem?_append_left hjl] at hp
          have := hall1 p (List.getElem?_mem hp)
          linarith
        · rw [List.getElem?_append_right (by omega)] at hp
          exact hfirst2 (j - l1.length) p (by omega) hp

theorem FirstMax_update {val : List move_pos → ℚ} {seg : List (List move_pos)} {vt : ℚ}
    {chs : List move_pos} (h : IsFirstMax val seg vt chs) (a : ℚ) (ch0 : List move_pos) :
    FirstMax val seg a ch0 (if vt > a then vt else a) (if vt > a then chs else ch0) := by
  by_cases hgt : vt > a
  · rw [if_pos hgt, if_pos hgt]
    exact Or.inr ⟨hgt, h⟩
  · rw [if_neg hgt, if_neg hgt]
    obtain ⟨_, _, _, hall, _⟩ := h
    exact Or.inl ⟨rfl, rfl, fun p hp => by have := hall p hp; linarith⟩

theorem IsFirstMax_map_cons {val val' : List move_pos → ℚ} {lt : List (List move_pos)} {vt : ℚ}
    {sub : List move_pos} (t : move_pos) (h : IsFirstMax val' lt vt sub)
    (hval : ∀ ch, val (t :: ch) = val' ch) :
    IsFirstMax val (lt.map fun ch => t :: ch) vt (t :: sub) := by
  obtain ⟨hv, i, hi, hall, hfirst⟩ := h
  refine ⟨by rw [hval]; exact hv, i, ?_, fun p hp => ?_, fun j p hj hp => ?_⟩
  · rw [List.getElem?_map, hi]; rfl
  · obtain ⟨q, hq, rfl⟩ := List.mem_map.mp hp
    rw [hval]; exact hall q hq
  · rw [List.getElem?_map] at hp
    cases hq : lt[j]? with
    | none => rw [hq] at hp; simp at hp
    | some q =>
      rw [hq] at hp
      simp only [Option.map_some', Option.some.injEq] at hp
      rw [← hp, hval]
      exact hfirst j q hj hq

theorem IsFirstMax_single (val : List move_pos → ℚ) (ch : List move_pos) :
    IsFirstMax val [ch] (val ch) ch := by
  refine ⟨rfl, 0, rfl, fun p hp => ?_, fun j p hj _ => by omega⟩
  rw [List.mem_singleton.mp hp]

/-- The loop of the first phase leaves the first maximal chain of the concatenated
enumerations of its candidates, when each call returns the first maximal chain of the
enumeration of its candidate. -/
theorem chain_loop_FirstMax {σ : Type}
    (callf : Logic σ → move_pos → ℚ → Option (ℚ × List move_pos × Logic σ))
    (val : List move_pos → ℚ) (seg : move_pos → List (List move_pos)) :
    ∀ (turns : List move_pos),
      (∀ t ∈ turns, ∀ (L2 : Logic σ) (best v : ℚ) (sub : List move_pos) (L' : Logic σ),
        callf L2 t best = some (v, sub, L') → IsFirstMax val (seg t) v (t :: sub)) →
      ∀ (L : Logic σ) (best : ℚ) (ch0 : List move_pos) (v : ℚ) (ch : List move_pos)
        (L' : Logic σ), chain_loop callf turns L best ch0 = some (v, ch, L') →
        FirstMax val (turns.flatMap seg) best ch0 v ch := by
  intro turns
  induction turns with
  | nil =>
    intro _ L best ch0 v ch L' h
    simp only [chain_loop, Option.some.injEq, Prod.mk.injEq] at h
    obtain ⟨rfl, rfl, _⟩ := h
    exact Or.inl ⟨rfl, rfl, fun p hp => by simp at hp⟩
  | cons t rest ih =>
    intro hcall L best ch0 v ch L' h
    rw [chain_loop] at h
    cases hc : callf L t best with
    | none => rw [hc] at h; simp at h
    | some r =>
      obtain ⟨score, sub, L1⟩ := r
      rw [hc] at h
      simp only at h
      have hseg := FirstMax_update (hcall t (List.mem_cons_self _ _) L best score sub L1 hc)
        best ch0
      rw [List.flatMap_cons]
      have hcr := fun u (hu : u ∈ rest) => hcall u (List.mem_cons_of_mem _ hu)
      by_cases hgt : score > best
      · rw [if_pos hgt] at h hseg
        rw [if_pos hgt] at hseg
        exact FirstMax_append hseg (ih hcr L1 score (t :: sub) v ch L' h)
      · rw [if_neg hgt] at h hseg
        rw [if_neg hgt] at hseg
        exact FirstMax_append hseg (ih hcr L1 best ch0 v ch L' h)
/-- Without pruning, the value with which the second phase is entered from the first is
the minimax value of the board, and it is not negative. -/
theorem rec_O0_value {σ : Type} (sh : σ → List move_pos → List move_pos × σ)
    (hsh : ∀ s l, (sh s l).1.Perm l) (cfg : Settings) (hO : cfg.optimization = "O0")
    (hd : 0 ≤ cfg.Max_depth) (color : Bool) {fuel : Nat} {L : Logic σ} {mtx : Grid}
    {alpha beta v : ℚ} {L' : Logic σ} (hv : validGrid mtx)
    (hf : recFuel cfg mtx 0 (-1) ≤ fuel)
    (h : find_best_turns_rec sh cfg fuel L mtx (!color) 0 alpha beta (-1) (-1) = some (v, L')) :
    v = minimaxVal cfg color mtx ∧ 0 ≤ v := by
  have hd' : ((0 : Nat) : Int) ≤ cfg.Max_depth := by simpa using hd
  have key : ∀ (a b w : ℚ) (L2 : Logic σ),
      find_best_turns_rec sh cfg fuel L mtx (!color) 0 a b (-1) (-1) = some (w, L2) →
      w = minimaxVal cfg color mtx := by
    intro a b w L2 hw
    rw [← moverAt_zero color, rec_eq_search_from] at hw
    exact search_value sh hsh cfg hO color fuel L mtx 0 a b (-1) (-1) _ w L2 hv hd'
      (fun h => absurd rfl h) (le_refl _) hw
  obtain ⟨v0, L0, h0, hnn⟩ := rec_total sh hsh cfg fuel L mtx (!color) 0 (-1) (INF + 1) (-1) (-1)
    hv hd' (fun h => absurd rfl h) hf
  have e0 := key _ _ _ _ h0
  have e1 := key _ _ _ _ h
  refine ⟨e1, ?_⟩
  rw [e1, ← e0]
  exact hnn (by norm_num) (by linarith [INF_pos])

/-- Without pruning, `first_chain` returns the first maximal chain of the enumeration of
the fully extended chains, with its value. -/
theorem first_chain_O0 {σ : Type} (sh : σ → List move_pos → List move_pos × σ)
    (hsh : ∀ s l, (sh s l).1.Perm l) (cfg : Settings) (hO : cfg.optimization = "O0")
    (hd : 0 ≤ cfg.Max_depth) :
    ∀ (fuel : Nat) (L : Logic σ) (mtx : Grid) (color : Bool) (x y : Int) (root : Bool)
      (alpha : ℚ) (j : Nat) (v : ℚ) (ch : List move_pos) (L' : Logic σ), validGrid mtx →
      (root = false → onBoard x y ∧ cell mtx x y ≠ 0) →
      (root = true → ∀ t ∈ L.turns, GoodMove mtx L.have_beats t) →
      firstFuel cfg mtx ≤ fuel → pieces mtx ≤ j →
      first_chain sh cfg fuel L mtx color x y root alpha = some (v, ch, L') →
      (root = false →
        IsFirstMax (chainValue cfg color mtx) (chainsFrom (j + 1) mtx x y) v ch ∧ 0 ≤ v) ∧
      (root = true →
        FirstMax (chainValue cfg color mtx) (rootChains j mtx L.turns L.have_beats) (-1) [] v
          ch) := by
  intro fuel
  induction fuel with
  | zero =>
    intro L mtx color x y root alpha j v ch L' _ _ _ hf
    unfold firstFuel at hf
    omega
  | succ n ih =>
    intro L mtx color x y root alpha j v ch L' hv hxy hroot hf hj h
    have hspec := first_chain_spec sh hsh cfg hd (n + 1) L mtx color x y root alpha hv hxy hroot hf
    have hp64 := pieces_le mtx
    have hD : (cfg.Max_depth - ((0 : Nat) : Int)).toNat = cfg.Max_depth.toNat := by simp
    have horig := h
    rw [first_chain] at h
    have hgood : ∀ t ∈ (if root = false then L.find_turns_xy x y mtx else L).turns,
        GoodMove mtx (if root = false then L.find_turns_xy x y mtx else L).have_beats t := by
      intro t ht
      by_cases h : root = false
      · rw [if_pos h] at ht ⊢
        exact find_turns_good hv (hxy h).1 (hxy h).2 ht
      · rw [if_neg h] at ht ⊢
        exact hroot (by simpa using h) t ht
    have hL1t : root = false → (if root = false then L.find_turns_xy x y mtx else L).turns =
        (find_turns x y mtx).turns := fun h => by rw [if_pos h]; rfl
    have hL1b : root = false → (if root = false then L.find_turns_xy x y mtx else L).have_beats =
        (find_turns x y mtx).have_beats := fun h => by rw [if_pos h]; rfl
    have hL1r : root = true → (if root = false then L.find_turns_xy x y mtx else L) = L :=
      fun h => by rw [if_neg (by simp [h])]
    generalize (if root = false then L.find_turns_xy x y mtx else L) = L1
      at h hgood hL1t hL1b hL1r
    by_cases hpass : L1.have_beats = false ∧ root = false
    · rw [if_pos hpass] at h
      cases hr : find_best_turns_rec sh cfg n L1 mtx (!color) 0 alpha (INF + 1) (-1) (-1) with
      | none => rw [hr] at h; simp at h
      | some r =>
        obtain ⟨v0, L0⟩ := r
        rw [hr] at h
        simp only [Option.map_some', Option.some.injEq, Prod.mk.injEq] at h
        obtain ⟨rfl, rfl, _⟩ := h
        obtain ⟨hval, hnn⟩ := rec_O0_value sh hsh cfg hO hd color hv (by
          unfold recFuel; unfold firstFuel at hf
          rw [hD, if_neg (by simp)]; omega) hr
        refine ⟨fun _ => ⟨?_, hnn⟩, fun hr => ?_⟩
        · have hnb : (find_turns x y mtx).have_beats = false := by
            rw [← hL1b hpass.2]; exact hpass.1
          rw [chainsFrom, if_pos hnb, hval]
          exact IsFirstMax_single (chainValue cfg color mtx) []
        · rw [hpass.2] at hr; exact absurd hr (by simp)
    · rw [if_neg hpass] at h
      have hFM := chain_loop_FirstMax
        (fun L2 turn best_score =>
          if L1.have_beats = true then
            first_chain sh cfg n L2 (make_turn mtx turn) color turn.x2 turn.y2 false best_score
          else
            (find_best_turns_rec sh cfg n L2 (make_turn mtx turn) (!color) 0 best_score
              (INF + 1) (-1) (-1)).map fun r => (r.1, [], r.2))
        (chainValue cfg color mtx)
        (fun t => if L1.have_beats = true then
            (chainsFrom j (make_turn mtx t) t.x2 t.y2).map fun ch => t :: ch
          else [[t]])
        L1.turns (by
          intro t ht L2 best w sub L2' hc
          have hg := hgood t ht
          obtain ⟨hv', hdp, hpc⟩ := make_turn_good hv hg
          have hp64' := pieces_le (make_turn mtx t)
          simp only at hc ⊢
          cases hb : L1.have_beats with
          | true =>
            rw [hb] at hpc hc
            simp only [if_true] at hpc hc ⊢
            cases j with
            | zero => omega
            | succ j' =>
              have := (ih L2 (make_turn mtx t) color t.x2 t.y2 false best j' w sub L2' hv'
                (fun _ => ⟨hg.2.2.1, hdp⟩) (fun h => by simp at h) (by
                  unfold firstFuel at hf ⊢; omega) (by omega) hc).1 rfl
              exact IsFirstMax_map_cons t this.1 (fun _ => rfl)
          | false =>
            rw [hb] at hc
            simp only [Bool.false_eq_true, if_false] at hc ⊢
            cases hr : find_best_turns_rec sh cfg n L2 (make_turn mtx t) (!color) 0 best
                (INF + 1) (-1) (-1) with
            | none => rw [hr] at hc; simp at hc
            | some r =>
              obtain ⟨v0, L0⟩ := r
              rw [hr] at hc
              simp only [Option.map_some', Option.some.injEq, Prod.mk.injEq] at hc
              obtain ⟨rfl, rfl, _⟩ := hc
              obtain ⟨hval, _⟩ := rec_O0_value sh hsh cfg hO hd color hv' (by
                unfold recFuel; unfold firstFuel at hf
                rw [hD, if_neg (by simp)]; omega) hr
              rw [hval]
              exact IsFirstMax_single (chainValue cfg color mtx) [t])
        L1 (-1) [] v ch L' h
      refine ⟨fun hr => ?_, fun hr => ?_⟩
      · have hb : L1.have_beats = true := by
          cases hb : L1.have_beats with
          | true => rfl
          | false => exact absurd ⟨hb, hr⟩ hpass
        have hbt : (find_turns x y mtx).have_beats = true := by rw [← hL1b hr]; exact hb
        obtain ⟨v', ch', L'', hfc, hnr, _⟩ := hspec
        rw [horig] at hfc
        simp only [Option.some.injEq, Prod.mk.injEq] at hfc
        obtain ⟨rfl, rfl, rfl⟩ := hfc
        have hnn : 0 ≤ v := (hnr hr).2 (Or.inr hbt)
        refine ⟨?_, hnn⟩
        rcases hFM with ⟨h1, _⟩ | ⟨_, hI⟩
        · rw [h1] at hnn; norm_num at hnn
        · rw [chainsFrom, if_neg (by simp [hbt]), ← hL1t hr]
          simp only [hb, if_true] at hI
          exact hI
      · rw [hL1r hr] at hFM
        exact hFM
/-! ## The enumeration of the candidate chains -/

/-- The enumeration `chainsFrom` holds exactly the complete chains of captures from the
square, once its bound exceeds the number of pieces. -/
theorem chainsFrom_iff :
    ∀ (k : Nat) (mtx : Grid) (x y : Int) (ch : List move_pos), validGrid mtx → onBoard x y →
      cell mtx x y ≠ 0 → pieces mtx < k →
      (ch ∈ chainsFrom k mtx x y ↔ ChainFrom mtx x y ch) := by
  intro k
  induction k with
  | zero => intro mtx x y ch _ _ _ hk; omega
  | succ k ih =>
    intro mtx x y ch hv hxy hp hk
    have hgood := fun m (hm : m ∈ (find_turns x y mtx).turns) => find_turns_good hv hxy hp hm
    rw [chainsFrom]
    cases hb : (find_turns x y mtx).have_beats with
    | false =>
      rw [hb] at hgood
      rw [if_pos rfl, List.mem_singleton]
      cases ch with
      | nil => exact ⟨fun _ m hm => (hgood m hm).2.2.2.2, fun _ => rfl⟩
      | cons m rest =>
        refine ⟨fun h => by simp at h, fun h => ?_⟩
        exact absurd (hgood m h.1).2.2.2.2 h.2.1
    | true =>
      rw [hb] at hgood
      rw [if_neg (by simp), List.mem_flatMap]
      cases ch with
      | nil =>
        refine ⟨fun h => ?_, fun h => ?_⟩
        · obtain ⟨t, _, ht⟩ := h
          simp at ht
        · exfalso
          obtain ⟨hturns, hne⟩ := find_turns_true hb
          cases hl : (find_turns x y mtx).turns with
          | nil => rw [hturns] at hl; exact hne hl
          | cons m ms =>
            have hm : m ∈ (find_turns x y mtx).turns := by rw [hl]; exact List.mem_cons_self _ _
            exact (hgood m hm).2.2.2.2.1 (h m hm)
      | cons m rest =>
        have hstep : ∀ t ∈ (find_turns x y mtx).turns, ∀ sub,
            (sub ∈ chainsFrom k (make_turn mtx t) t.x2 t.y2 ↔
              ChainFrom (make_turn mtx t) t.x2 t.y2 sub) := by
          intro t ht sub
          have hg := hgood t ht
          obtain ⟨hv', hdp, hpc⟩ := make_turn_good hv hg
          simp only [if_true] at hpc
          exact ih (make_turn mtx t) t.x2 t.y2 sub hv' hg.2.2.1 hdp (by omega)
        constructor
        · intro h
          obtain ⟨t, ht, hmem⟩ := h
          obtain ⟨sub, hsub, heq⟩ := List.mem_map.mp hmem
          simp only [List.cons.injEq] at heq
          obtain ⟨rfl, rfl⟩ := heq
          exact ⟨ht, (hgood t ht).2.2.2.2.1, (find_turns_src ht).1, (find_turns_src ht).2,
            (hstep t ht sub).mp hsub⟩
        · intro h
          obtain ⟨hm, _, _, _, hrest⟩ := h
          exact ⟨m, hm, List.mem_map.mpr ⟨rest, (hstep m hm rest).mpr hrest, rfl⟩⟩

/-- The enumeration `rootChains` holds exactly the complete legal Turns that start with
one of the candidates. -/
theorem rootChains_iff {mtx : Grid} (hv : validGrid mtx) {turns : List move_pos}
    {have_beats : Bool} (hgood : ∀ t ∈ turns, GoodMove mtx have_beats t) {k : Nat}
    (hk : pieces mtx ≤ k) (ch : List move_pos) :
    ch ∈ rootChains k mtx turns have_beats ↔
      ∃ m rest, ch = m :: rest ∧ m ∈ turns ∧ (have_beats = false → rest = []) ∧
        (have_beats = true → ChainFrom (make_turn mtx m) m.x2 m.y2 rest) := by
  unfold rootChains
  rw [List.mem_flatMap]
  cases have_beats with
  | false =>
    simp only [Bool.false_eq_true, if_false, List.mem_singleton]
    constructor
    · rintro ⟨t, ht, rfl⟩
      exact ⟨t, [], rfl, ht, fun _ => rfl, fun h => by simp at h⟩
    · rintro ⟨m, rest, rfl, hm, hr, _⟩
      exact ⟨m, hm, by rw [hr trivial]⟩
  | true =>
    simp only [if_true]
    have hstep : ∀ t ∈ turns, ∀ sub,
        (sub ∈ chainsFrom k (make_turn mtx t) t.x2 t.y2 ↔
          ChainFrom (make_turn mtx t) t.x2 t.y2 sub) := by
      intro t ht sub
      have hg := hgood t ht
      obtain ⟨hv', hdp, hpc⟩ := make_turn_good hv hg
      simp only [if_true] at hpc
      exact chainsFrom_iff k (make_turn mtx t) t.x2 t.y2 sub hv' hg.2.2.1 hdp (by omega)
    constructor
    · rintro ⟨t, ht, hmem⟩
      obtain ⟨sub, hsub, rfl⟩ := List.mem_map.mp hmem
      exact ⟨t, sub, rfl, ht, fun h => by simp at h, fun _ => (hstep t ht sub).mp hsub⟩
    · rintro ⟨m, rest, rfl, hm, _, hr⟩
      exact ⟨m, hm, List.mem_map.mpr ⟨rest, (hstep m hm rest).mpr (hr trivial), rfl⟩⟩
/-- C12: with pruning disabled (`optimization = "O0"`), called right after
`find_turns(color)` on the live board found at least one move, `find_best_turns` returns
the first, in depth-first order of the cached candidates and of `find_turns(x, y)`, of
the fully extended candidate chains whose value of the second phase (the minimax value of
the board with the chain applied) is maximal among all those chains, and the value that
`find_first_best_turn` returns at the root is that maximum. The enumeration holds exactly
the complete legal Turns that start with a cached candidate. -/
theorem C12_first_maximal_chain {σ : Type} (sh : σ → List move_pos → List move_pos × σ)
    (hsh : ∀ s l, (sh s l).1.Perm l) (cfg : Settings) (hO : cfg.optimization = "O0")
    (hd : 0 ≤ cfg.Max_depth) (L0 : Logic σ) (board : Board) (hv : validGrid board.mtx)
    (color : Bool) (hne : (find_turns_color id color board.mtx).turns ≠ [])
    (fuel : Nat) (hf : cfg.Max_depth.toNat * 130 + 194 ≤ fuel) (k : Nat) (hk : 64 ≤ k) :
    ∃ res v L' P',
      find_first_best_turn sh cfg fuel (L0.find_turns_color sh color board.mtx) ⟨[], []⟩
        board.mtx color (-1) (-1) 0 (-1) = some (v, L', P') ∧
      find_best_turns sh cfg fuel (L0.find_turns_color sh color board.mtx) board color =
        some (res, L', P') ∧
      IsFirstMax (chainValue cfg color board.mtx)
        (rootChains k board.mtx (L0.find_turns_color sh color board.mtx).turns
          (L0.find_turns_color sh color board.mtx).have_beats) v res ∧
      ∀ ch, ch ∈ rootChains k board.mtx (L0.find_turns_color sh color board.mtx).turns
          (L0.find_turns_color sh color board.mtx).have_beats ↔
        ∃ m rest, ch = m :: rest ∧ m ∈ (L0.find_turns_color sh color board.mtx).turns ∧
          ((L0.find_turns_color sh color board.mtx).have_beats = false → rest = []) ∧
          ((L0.find_turns_color sh color board.mtx).have_beats = true →
            ChainFrom (make_turn board.mtx m) m.x2 m.y2 rest) := by
  have hperm : (L0.find_turns_color sh color board.mtx).turns.Perm
      (find_turns_color id color board.mtx).turns := hsh _ _
  have hgood : ∀ t ∈ (L0.find_turns_color sh color board.mtx).turns,
      GoodMove board.mtx (L0.find_turns_color sh color board.mtx).have_beats t :=
    fun t ht => find_turns_color_good sh hsh L0 color hv ht
  have hne' : (L0.find_turns_color sh color board.mtx).turns ≠ [] := by
    intro h
    rw [h] at hperm
    exact hne (List.Perm.eq_nil (List.Perm.symm hperm))
  generalize L0.find_turns_color sh color board.mtx = L at hperm hgood hne'
  have hp64 := pieces_le board.mtx
  have hfuel : firstFuel cfg board.mtx ≤ fuel := by unfold firstFuel; omega
  obtain ⟨v, ch, L', hfc, _, hr⟩ := first_chain_spec sh hsh cfg hd fuel L board.mtx color (-1)
    (-1) true (-1) hv (fun h => by simp at h) (fun _ => hgood) hfuel
  obtain ⟨hnn, m, rest, hch, _⟩ := hr rfl hne'
  have hFM := (first_chain_O0 sh hsh cfg hO hd fuel L board.mtx color (-1) (-1) true (-1) k v ch
    L' hv (fun h => by simp at h) (fun _ => hgood) hfuel (by omega) hfc).2 rfl
  obtain ⟨_, hsome⟩ := first_refines sh cfg fuel L ⟨[], []⟩ board.mtx color (-1) (-1) 0 (-1)
    rfl rfl hv (fun h => absurd rfl h) (fun _ => hgood)
  obtain ⟨P', hff, _, _, henc⟩ := hsome v ch L' hfc
  have hI : IsFirstMax (chainValue cfg color board.mtx)
      (rootChains k board.mtx L.turns L.have_beats) v ch := by
    rcases hFM with ⟨h1, _⟩ | ⟨_, hI⟩
    · rw [h1] at hnn; norm_num at hnn
    · exact hI
  rw [hch] at henc
  have hlen := Enc_length _ _ henc
  refine ⟨ch, v, L', P', hff, ?_, hI, fun c => rootChains_iff hv hgood (by omega) c⟩
  unfold find_best_turns
  rw [hff]
  simp only
  have := collect_turns_Enc P' P'.next_move.length 0 m rest henc (by
    simp only [List.length_cons] at hlen; omega)
  simp only [Nat.cast_zero] at this
  rw [this, hch]
  rfl

/-- C12 at the start position: White at depth 1 without pruning. -/
theorem C12_first_maximal_chain_witness :
    (∀ (s : Unit) (l : List move_pos), (noShuffle s l).1.Perm l) ∧
    (⟨1, "NumberAndPotential", "O0"⟩ : Settings).optimization = "O0" ∧
    (0 : Int) ≤ (⟨1, "NumberAndPotential", "O0"⟩ : Settings).Max_depth ∧
    validGrid startBoard.mtx ∧
    (find_turns_color id false startBoard.mtx).turns ≠ [] ∧
    ∃ res v L' P',
      find_first_best_turn noShuffle ⟨1, "NumberAndPotential", "O0"⟩ 324
        (freshLogic.find_turns_color noShuffle false startBoard.mtx) ⟨[], []⟩
        startBoard.mtx false (-1) (-1) 0 (-1) = some (v, L', P') ∧
      find_best_turns noShuffle ⟨1, "NumberAndPotential", "O0"⟩ 324
        (freshLogic.find_turns_color noShuffle false startBoard.mtx) startBoard false =
        some (res, L', P') ∧
      IsFirstMax (chainValue ⟨1, "NumberAndPotential", "O0"⟩ false startBoard.mtx)
        (rootChains 64 startBoard.mtx
          (freshLogic.find_turns_color noShuffle false startBoard.mtx).turns
          (freshLogic.find_turns_color noShuffle false startBoard.mtx).have_beats) v res ∧
      ∀ ch, ch ∈ rootChains 64 startBoard.mtx
          (freshLogic.find_turns_color noShuffle false startBoard.mtx).turns
          (freshLogic.find_turns_color noShuffle false startBoard.mtx).have_beats ↔
        ∃ m rest, ch = m :: rest ∧
          m ∈ (freshLogic.find_turns_color noShuffle false startBoard.mtx).turns ∧
          ((freshLogic.find_turns_color noShuffle false startBoard.mtx).have_beats = false →
            rest = []) ∧
          ((freshLogic.find_turns_color noShuffle false startBoard.mtx).have_beats = true →
            ChainFrom (make_turn startBoard.mtx m) m.x2 m.y2 rest) :=
  ⟨fun _ _ => List.Perm.refl _, rfl, by decide, by decide, by decide,
    C12_first_maximal_chain noShuffle (fun _ _ => List.Perm.refl _)
      ⟨1, "NumberAndPotential", "O0"⟩ rfl (by decide) freshLogic startBoard (by decide) false
      (by decide) 324 (by decide) 64 (le_refl _)⟩

/-! ## Generated moves are well-formed -/

/-- Every move of `find_turns(x, y, mtx)` for a piece on a valid board is well-formed and
starts on the square of the piece; it names a beaten square exactly when the piece has a
capture. -/
theorem find_turns_wf {mtx : Grid} (hv : validGrid mtx) {x y : Int} (hxy : onBoard x y)
    (hp : cell mtx x y ≠ 0) {m : move_pos} (hm : m ∈ (find_turns x y mtx).turns) :
    WellFormed mtx m ∧ m.x = x ∧ m.y = y ∧
      (m.xb ≠ -1 ↔ (find_turns x y mtx).have_beats = true) := by
  have hr := cell_range hv x y
  have hkind : isMan (cell mtx x y) ∨ isKing (cell mtx x y) := by
    unfold isMan isKing; omega
  cases hb : (find_turns x y mtx).have_beats with
  | true =>
    have hmb : m ∈ beats_of x y mtx := by rw [← (find_turns_true hb).1]; exact hm
    rcases hkind with hman | hking
    · have hbo : beats_of x y mtx = man_beats mtx (cell mtx x y) x y := by
        simp only [beats_of]
        exact if_pos hman
      have e1 : x - 2 = x + 2 * (-1) := by ring
      have e2 : x + 2 = x + 2 * 1 := by ring
      have e3 : y - 2 = y + 2 * (-1) := by ring
      have e4 : y + 2 = y + 2 * 1 := by ring
      rw [hbo, man_beats_eq, e1, e2, e3, e4] at hmb
      simp only [List.mem_append] at hmb
      rw [mem_man_cand hv hxy hman (-1) (-1), mem_man_cand hv hxy hman (-1) 1,
        mem_man_cand hv hxy hman 1 (-1), mem_man_cand hv hxy hman 1 1] at hmb
      have key : ∀ dx dy : Int, (dx = -1 ∨ dx = 1) → (dy = -1 ∨ dy = 1) →
          (onBoard (x + 2 * dx) (y + 2 * dy) ∧ cell mtx (x + 2 * dx) (y + 2 * dy) = 0 ∧
            opposite (cell mtx (x + dx) (y + dy)) (cell mtx x y) ∧
            m = ⟨x, y, x + 2 * dx, y + 2 * dy, x + dx, y + dy⟩) →
          WellFormed mtx m ∧ m.x = x ∧ m.y = y ∧ (m.xb ≠ -1 ↔ true = true) := by
        rintro dx dy hdx hdy ⟨hon, hc, hop, rfl⟩
        refine ⟨⟨hxy, hp, hon, hc, dx, dy, hdx, hdy, 2, by omega, by push_cast; ring,
          by push_cast; ring, Or.inr ⟨1, le_refl 1, by omega, by push_cast; ring,
            by push_cast; ring, hop⟩⟩, rfl, rfl, ?_⟩
        simp only [iff_true]
        show x + dx ≠ -1
        obtain ⟨h0, h7, _, _⟩ := hxy
        obtain ⟨h0', h7', _, _⟩ := hon
        rcases hdx with rfl | rfl <;> omega
      rcases hmb with h | h | h | h
      · exact key (-1) (-1) (Or.inl rfl) (Or.inl rfl) h
      · exact key (-1) 1 (Or.inl rfl) (Or.inr rfl) h
      · exact key 1 (-1) (Or.inr rfl) (Or.inl rfl) h
      · exact key 1 1 (Or.inr rfl) (Or.inr rfl) h
    · have hbo : beats_of x y mtx = king_beats mtx (cell mtx x y) x y := by
        simp only [beats_of]
        exact if_neg (by unfold isKing at hking; omega)
      rw [hbo] at hmb
      simp only [king_beats, List.mem_flatMap] at hmb
      obtain ⟨dx, hdx, dy, hdy, h⟩ := hmb
      have hdx' : dx = -1 ∨ dx = 1 := by simpa using hdx
      have hdy' : dy = -1 ∨ dy = 1 := by simpa using hdy
      obtain ⟨p, n, hp1, hpn, hon, _, hop, hafter, rfl⟩ :=
        (king_ray_iff hv hxy hking hdx' hdy' m).1 h
      refine ⟨⟨hxy, hp, hon, hafter n hpn (le_refl n), dx, dy, hdx', hdy', n, by omega, rfl, rfl,
        Or.inr ⟨p, hp1, hpn, rfl, rfl, hop⟩⟩, rfl, rfl, ?_⟩
      simp only [iff_true]
      obtain ⟨h0, h7, _, _⟩ := hxy
      obtain ⟨h0', h7', _, _⟩ := hon
      show x + (p : Int) * dx ≠ -1
      have hpn' : (p : Int) < n := by exact_mod_cast hpn
      have hp1' : (1 : Int) ≤ p := by exact_mod_cast hp1
      rcases hdx' with rfl | rfl
      · intro he
        have : (0 : Int) ≤ x + (p : Int) * (-1) := by nlinarith
        omega
      · intro he
        have : (0 : Int) ≤ x + (p : Int) * 1 := by nlinarith
        omega
  | false =>
    have hms : m ∈ steps_of x y mtx := by rw [← (find_turns_false hb).1]; exact hm
    rcases hkind with hman | hking
    · have hs : steps_of x y mtx = man_steps mtx (cell mtx x y) x y := by
        simp only [steps_of]
        exact if_pos hman
      rw [hs, man_steps_iff] at hms
      obtain ⟨dy, hdy, hon, hc, rfl⟩ := hms
      refine ⟨⟨hxy, hp, hon, hc, if (cell mtx x y).tmod 2 ≠ 0 then -1 else 1, dy, ?_, hdy, 1,
        le_refl 1, ?_, by push_cast; ring, Or.inl ⟨rfl, rfl⟩⟩, rfl, rfl, by simp⟩
      · split_ifs
        · exact Or.inl rfl
        · exact Or.inr rfl
      · simp only
        split_ifs <;> push_cast <;> ring
    · have hs : steps_of x y mtx = king_steps mtx x y := by
        simp only [steps_of]
        exact if_neg (by unfold isKing at hking; omega)
      rw [hs] at hms
      simp only [king_steps, List.mem_flatMap] at hms
      obtain ⟨dx, hdx, dy, hdy, h⟩ := hms
      have hdx' : dx = -1 ∨ dx = 1 := by simpa using hdx
      have hdy' : dy = -1 ∨ dy = 1 := by simpa using hdy
      obtain ⟨n, hn1, hon, hempty, rfl⟩ := (king_slide_iff hxy hdx' hdy' m).1 h
      exact ⟨⟨hxy, hp, hon, hempty n hn1 (le_refl n), dx, dy, hdx', hdy', n, hn1, rfl, rfl,
        Or.inl ⟨rfl, rfl⟩⟩, rfl, rfl, by simp⟩
/-- Every move of `find_turns(color, mtx)` on a valid board is well-formed and moves a
piece of the colour; it names a beaten square exactly when `have_beats` is set. -/
theorem find_turns_color_wf (shuffle : List move_pos → List move_pos)
    (hsh : ∀ l, (shuffle l).Perm l) (color : Bool) {mtx : Grid} (hv : validGrid mtx)
    {m : move_pos} (hm : m ∈ (find_turns_color shuffle color mtx).turns) :
    WellFormed mtx m ∧ hasColor color (cell mtx m.x m.y) ∧
      (m.xb ≠ -1 ↔ (find_turns_color shuffle color mtx).have_beats = true) := by
  rw [find_turns_color_eq] at hm ⊢
  have hsq : ∀ ij : Int × Int, ij ∈ allSquares → ownTest color mtx ij = true →
      onBoard ij.1 ij.2 ∧ cell mtx ij.1 ij.2 ≠ 0 ∧ hasColor color (cell mtx ij.1 ij.2) := by
    intro ij hij ho
    have hc : hasColor color (cell mtx ij.1 ij.2) := by
      rw [ownTest_eq hv] at ho
      simpa using ho
    simp only [ownTest, decide_eq_true_eq] at ho
    exact ⟨allSquares_onBoard ij hij, ho.1, hc⟩
  by_cases hany : (allSquares.any fun ij => ownTest color mtx ij && beatTest mtx ij) = true
  · rw [if_pos hany] at hm ⊢
    have hm2 := (hsh _).mem_iff.1 hm
    obtain ⟨ij, hij, hmij⟩ := List.mem_flatMap.1 hm2
    obtain ⟨hin, hob⟩ := List.mem_filter.1 hij
    rw [Bool.and_eq_true] at hob
    obtain ⟨hon, hp, hc⟩ := hsq ij hin hob.1
    obtain ⟨hwf, hx, hy, hxb⟩ := find_turns_wf hv hon hp hmij
    have hb : (find_turns ij.1 ij.2 mtx).have_beats = true := hob.2
    rw [hb] at hxb
    rw [hx, hy]
    exact ⟨hwf, hc, by simpa using hxb⟩
  · rw [if_neg hany] at hm ⊢
    have hm2 := (hsh _).mem_iff.1 hm
    obtain ⟨ij, hij, hmij⟩ := List.mem_flatMap.1 hm2
    obtain ⟨hin, hob⟩ := List.mem_filter.1 hij
    obtain ⟨hon, hp, hc⟩ := hsq ij hin hob
    obtain ⟨hwf, hx, hy, hxb⟩ := find_turns_wf hv hon hp hmij
    have hb : (find_turns ij.1 ij.2 mtx).have_beats = false := by
      cases hb : (find_turns ij.1 ij.2 mtx).have_beats with
      | false => rfl
      | true =>
        exfalso
        apply hany
        rw [List.any_eq_true]
        exact ⟨ij, hin, by rw [Bool.and_eq_true]; exact ⟨hob, hb⟩⟩
    rw [hb] at hxb
    rw [hx, hy]
    exact ⟨hwf, hc, by simpa using hxb⟩

theorem abs_step (n : Nat) {d : Int} (hd : d = -1 ∨ d = 1) : |(n : Int) * d| = (n : Int) := by
  rcases hd with rfl | rfl
  · rw [mul_neg, mul_one, abs_neg, Nat.abs_cast]
  · rw [mul_one, Nat.abs_cast]

theorem step_between {x d : Int} {p n : Nat} (hd : d = -1 ∨ d = 1) (hp1 : 1 ≤ p) (hpn : p < n)
    (h0 : 0 ≤ x) (h7 : x ≤ 7) (c0 : 0 ≤ x + (n : Int) * d) (c7 : x + (n : Int) * d ≤ 7) :
    0 ≤ x + (p : Int) * d ∧ x + (p : Int) * d ≤ 7 ∧ x + (p : Int) * d ≠ x ∧
      0 < ((n : Int) * d) * ((p : Int) * d) := by
  rcases hd with rfl | rfl
  · simp only [mul_neg, mul_one] at c0 c7 ⊢
    refine ⟨by omega, by omega, by omega, ?_⟩
    have h1 : (0 : Int) < n := by omega
    have h2 : (0 : Int) < p := by omega
    have := mul_pos h1 h2
    linarith
  · simp only [mul_one] at c0 c7 ⊢
    refine ⟨by omega, by omega, by omega, ?_⟩
    have h1 : (0 : Int) < n := by omega
    have h2 : (0 : Int) < p := by omega
    exact mul_pos h1 h2

/-- What a well-formed move is to `GoodMove`, and where its squares lie: source,
destination and beaten square are pairwise different, the rows and columns change by the
same non-zero amount, and the beaten square of a capture is on the board, on the same
diagonal and on the same side of the source as the destination, nearer to the source. -/
theorem wf_facts {mtx : Grid} {m : move_pos} (h : WellFormed mtx m) :
    GoodMove mtx (decide (m.xb ≠ -1)) m ∧ (m.x, m.y) ≠ (m.x2, m.y2) ∧
      (m.xb, m.yb) ≠ (m.x, m.y) ∧ (m.xb, m.yb) ≠ (m.x2, m.y2) ∧
      |m.x2 - m.x| = |m.y2 - m.y| ∧ 1 ≤ |m.x2 - m.x| ∧
      (m.xb ≠ -1 → onBoard m.xb m.yb ∧ opposite (cell mtx m.xb m.yb) (cell mtx m.x m.y) ∧
        |m.xb - m.x| = |m.yb - m.y| ∧ 1 ≤ |m.xb - m.x| ∧ |m.xb - m.x| < |m.x2 - m.x| ∧
        (m.x2 - m.x) * (m.yb - m.y) = (m.y2 - m.y) * (m.xb - m.x) ∧
        0 < (m.x2 - m.x) * (m.xb - m.x)) := by
  obtain ⟨hsrc, hp, hdst, hd0, dx, dy, hdx, hdy, n, hn, hx2, hy2, hcap⟩ := h
  have hsrc' := hsrc
  have hdst' := hdst
  obtain ⟨a0, a7, b0, b7⟩ := hsrc'
  obtain ⟨c0, c7, d0, d7⟩ := hdst'
  have hn' : (1 : Int) ≤ n := by exact_mod_cast hn
  have hne : (m.x, m.y) ≠ (m.x2, m.y2) := by
    intro he
    rw [Prod.mk.injEq] at he
    rw [he.1, he.2] at hp
    exact hp hd0
  have ex2 : m.x2 - m.x = (n : Int) * dx := by rw [hx2]; ring
  have ey2 : m.y2 - m.y = (n : Int) * dy := by rw [hy2]; ring
  have habs : |m.x2 - m.x| = |m.y2 - m.y| ∧ 1 ≤ |m.x2 - m.x| := by
    rw [ex2, ey2, abs_step n hdx, abs_step n hdy]
    exact ⟨rfl, hn'⟩
  rcases hcap with ⟨hb, hyb⟩ | ⟨p, hp1, hpn, hxb, hyb, hop⟩
  · have hdec : decide (m.xb ≠ -1) = false := by simp [hb]
    rw [hdec]
    refine ⟨⟨hsrc, hp, hdst, hd0, hb⟩, hne, ?_, ?_, habs.1, habs.2, fun h => absurd hb h⟩
    · intro he
      rw [Prod.mk.injEq] at he
      omega
    · intro he
      rw [Prod.mk.injEq] at he
      omega
  · have hp1' : (1 : Int) ≤ p := by exact_mod_cast hp1
    have hpn' : (p : Int) < n := by exact_mod_cast hpn
    rw [hx2] at c0 c7
    rw [hy2] at d0 d7
    obtain ⟨x0, x7, xne, xpos⟩ := step_between hdx hp1 hpn a0 a7 c0 c7
    obtain ⟨y0, y7, _, _⟩ := step_between hdy hp1 hpn b0 b7 d0 d7
    have hbon : onBoard m.xb m.yb := by
      unfold onBoard
      rw [hxb, hyb]
      exact ⟨x0, x7, y0, y7⟩
    have hbne : m.xb ≠ -1 := by
      have := hbon.1
      omega
    have hbp : cell mtx m.xb m.yb ≠ 0 := opposite_ne_zero hop
    have hbs : (m.xb, m.yb) ≠ (m.x, m.y) := by
      intro he
      rw [Prod.mk.injEq] at he
      have h1 := he.1
      rw [hxb] at h1
      exact xne h1
    have hbd : (m.xb, m.yb) ≠ (m.x2, m.y2) := by
      intro he
      rw [Prod.mk.injEq] at he
      rw [he.1, he.2] at hbp
      exact hbp hd0
    have hdec : decide (m.xb ≠ -1) = true := by simp [hbne]
    rw [hdec]
    have exb : m.xb - m.x = (p : Int) * dx := by rw [hxb]; ring
    have eyb : m.yb - m.y = (p : Int) * dy := by rw [hyb]; ring
    refine ⟨⟨hsrc, hp, hdst, hd0, hbne, hbon, hbp, hbs⟩, hne, hbs, hbd, habs.1, habs.2,
      fun _ => ⟨hbon, hop, ?_⟩⟩
    rw [ex2, ey2, exb, eyb, abs_step n hdx, abs_step p hdx, abs_step p hdy]
    exact ⟨rfl, hp1', hpn', by ring, xpos⟩

/-- `Board::move_piece` accepts every well-formed move. -/
theorem move_piece_wf {b : Board} {m : move_pos} (h : WellFormed b.mtx m) (beat_series : Int) :
    (b.move_piece m beat_series).2 = none := by
  obtain ⟨_, _, hbs, hbd, _⟩ := wf_facts h
  obtain ⟨_, hp, _, hd0, _⟩ := h
  rw [move_piece_ok_iff]
  unfold drop_beaten
  split
  · rw [cell_setCell_ne _ _ _ _ _ _ hbd, cell_setCell_ne _ _ _ _ _ _ hbs]
    exact ⟨hd0, hp⟩
  · exact ⟨hd0, hp⟩
/-! ## Pieces of a colour before and after a move -/

theorem countCode_setCell {mtx : Grid} (h8 : is8x8 mtx) {i j : Int} (hon : onBoard i j)
    (v a : Int) :
    countCode (setCell mtx i j v) a + (if cell mtx i j = a then 1 else 0) =
      countCode mtx a + (if v = a then 1 else 0) := by
  have h := countP_change (fun ij : Int × Int => decide (cell mtx ij.1 ij.2 = a))
    (fun ij : Int × Int => decide (cell (setCell mtx i j v) ij.1 ij.2 = a)) (i, j)
    (fun b hb => by
      have : cell (setCell mtx i j v) b.1 b.2 = cell mtx b.1 b.2 :=
        cell_setCell_ne mtx i j v b.1 b.2 (fun h => hb h.symm)
      simp only [this])
    allSquares allSquares_nodup (mem_allSquares hon)
  simp only [cell_setCell_eq h8 hon, decide_eq_true_eq] at h
  unfold countCode
  exact h

theorem hasColor_iff (color : Bool) (v : Int) :
    hasColor color v ↔ v = manOf color ∨ v = kingOf color := by
  cases color <;> simp [hasColor, isWhite, isBlack, manOf, kingOf]

theorem piecesOf_setCell {mtx : Grid} (h8 : is8x8 mtx) {i j : Int} (hon : onBoard i j)
    (v : Int) (color : Bool) :
    piecesOf (setCell mtx i j v) color + (if hasColor color (cell mtx i j) then 1 else 0) =
      piecesOf mtx color + (if hasColor color v then 1 else 0) := by
  have h1 := countCode_setCell h8 hon v (manOf color)
  have h2 := countCode_setCell h8 hon v (kingOf color)
  have hne : manOf color ≠ kingOf color := by cases color <;> simp [manOf, kingOf]
  have e : ∀ w : Int, (if hasColor color w then 1 else 0) =
      (if w = manOf color then 1 else 0) + (if w = kingOf color then 1 else 0) := by
    intro w
    by_cases ha : w = manOf color
    · rw [if_pos ((hasColor_iff color w).2 (Or.inl ha)), if_pos ha,
        if_neg (fun hb => hne (ha.symm.trans hb))]
    · by_cases hb : w = kingOf color
      · rw [if_pos ((hasColor_iff color w).2 (Or.inr hb)), if_neg ha, if_pos hb]
      · rw [if_neg (fun h => by
          rcases (hasColor_iff color w).1 h with h | h
          · exact ha h
          · exact hb h), if_neg ha, if_neg hb]
  rw [e, e]
  unfold piecesOf
  omega

theorem hasColor_opposite {a t : Int} (h : opposite a t) (color : Bool) :
    hasColor color a ↔ hasColor (!color) t := by
  unfold opposite isWhite isBlack at h
  cases color <;> simp only [hasColor, isWhite, isBlack, Bool.not_false, Bool.not_true,
    if_true, if_false, Bool.false_eq_true] <;> omega

theorem hasColor_not {color : Bool} {v : Int} (h : hasColor color v) :
    ¬ hasColor (!color) v := by
  cases color <;> simp only [hasColor, isWhite, isBlack, Bool.not_false, Bool.not_true,
    if_true, if_false, Bool.false_eq_true] at h ⊢ <;> omega

/-- Applying a well-formed move changes the number of pieces of a colour only by the
beaten piece: it drops by one when the move names a beaten square holding a piece of
that colour. -/
theorem piecesOf_make_turn {mtx : Grid} (hv : validGrid mtx) {m : move_pos}
    (h : WellFormed mtx m) (k : Bool) :
    piecesOf (make_turn mtx m) k +
        (if m.xb ≠ -1 ∧ hasColor k (cell mtx m.xb m.yb) then 1 else 0) =
      piecesOf mtx k := by
  obtain ⟨hgood, hne, hbs, hbd, _, _, hcap⟩ := wf_facts h
  obtain ⟨hsrc, hp, hdst, hd0, _⟩ := h
  have h8 := validGrid_is8x8 hv
  have hr := cell_range hv m.x m.y
  -- the beaten piece is taken off
  have h1 : piecesOf (drop_beaten mtx m) k +
      (if m.xb ≠ -1 ∧ hasColor k (cell mtx m.xb m.yb) then 1 else 0) = piecesOf mtx k ∧
      cell (drop_beaten mtx m) m.x m.y = cell mtx m.x m.y ∧
      cell (drop_beaten mtx m) m.x2 m.y2 = 0 := by
    unfold drop_beaten
    by_cases hb : m.xb ≠ -1
    · rw [if_pos hb]
      have := piecesOf_setCell h8 (hcap hb).1 0 k
      have hz : ¬ hasColor k 0 := by cases k <;> simp [hasColor, isWhite, isBlack]
      rw [if_neg hz] at this
      refine ⟨?_, cell_setCell_ne _ _ _ _ _ _ hbs, ?_⟩
      · by_cases hc : hasColor k (cell mtx m.xb m.yb)
        · rw [if_pos hc] at this
          rw [if_pos ⟨hb, hc⟩]
          omega
        · rw [if_neg hc] at this
          rw [if_neg (fun h => hc h.2)]
          omega
      · rw [cell_setCell_ne _ _ _ _ _ _ hbd]; exact hd0
    · rw [if_neg hb, if_neg (fun h => hb h.1)]
      exact ⟨rfl, rfl, hd0⟩
  obtain ⟨hc1, hs1, hd1⟩ := h1
  have h81 := drop_beaten_is8x8 h8 m
  -- the promotion test keeps the colour of the piece on the source
  have h2 : piecesOf (promote_src (drop_beaten mtx m) m) k = piecesOf (drop_beaten mtx m) k ∧
      (hasColor k (cell (promote_src (drop_beaten mtx m) m) m.x m.y) ↔
        hasColor k (cell mtx m.x m.y)) := by
    unfold promote_src
    split
    · rename_i hc
      rw [hs1] at hc
      have := piecesOf_setCell h81 hsrc (cell (drop_beaten mtx m) m.x m.y + 2) k
      rw [cell_setCell_eq h81 hsrc, hs1]
      rw [hs1] at this
      have hcol : hasColor k (cell mtx m.x m.y + 2) ↔ hasColor k (cell mtx m.x m.y) := by
        cases k <;> simp only [hasColor, isWhite, isBlack, if_true, if_false,
          Bool.false_eq_true] <;> omega
      refine ⟨?_, hcol⟩
      by_cases hk : hasColor k (cell mtx m.x m.y)
      · rw [if_pos hk, if_pos (hcol.2 hk)] at this
        omega
      · rw [if_neg hk, if_neg (fun h => hk (hcol.1 h))] at this
        omega
    · rw [hs1]
      exact ⟨rfl, Iff.rfl⟩
  obtain ⟨hc2, hcol2⟩ := h2
  have h82 := promote_src_is8x8 h81 m
  have hd2 : cell (promote_src (drop_beaten mtx m) m) m.x2 m.y2 = 0 := by
    rw [promote_src_other _ _ _ _ hne]; exact hd1
  -- the piece is put on the destination, then the source is cleared
  have hz : ¬ hasColor k 0 := by cases k <;> simp [hasColor, isWhite, isBlack]
  have hc3 := piecesOf_setCell h82 hdst (cell (promote_src (drop_beaten mtx m) m) m.x m.y) k
  rw [hd2, if_neg hz] at hc3
  have hs3 : cell (setCell (promote_src (drop_beaten mtx m) m) m.x2 m.y2
      (cell (promote_src (drop_beaten mtx m) m) m.x m.y)) m.x m.y =
      cell (promote_src (drop_beaten mtx m) m) m.x m.y :=
    cell_setCell_ne _ _ _ _ _ _ (fun h => hne h.symm)
  have hc4 := piecesOf_setCell (setCell_is8x8 h82 m.x2 m.y2
    (cell (promote_src (drop_beaten mtx m) m) m.x m.y)) hsrc 0 k
  rw [hs3, if_neg hz] at hc4
  rw [make_turn_eq]
  by_cases hk : hasColor k (cell (promote_src (drop_beaten mtx m) m) m.x m.y)
  · rw [if_pos hk] at hc3 hc4
    omega
  · rw [if_neg hk] at hc3 hc4
    omega
/-! ## The result does not depend on the bound -/

theorem rec_loop_congr {σ : Type}
    (call1 call2 : Logic σ → move_pos → ℚ → ℚ → Option (ℚ × Logic σ)) (odd prune : Bool) :
    ∀ (turns : List move_pos),
      (∀ t ∈ turns, ∀ (L : Logic σ) (a b : ℚ) (r : ℚ × Logic σ),
        call1 L t a b = some r → call2 L t a b = some r) →
      ∀ (L : Logic σ) (mn mx alpha beta : ℚ) (r : ℚ × Logic σ),
        rec_loop call1 odd prune turns L mn mx alpha beta = some r →
        rec_loop call2 odd prune turns L mn mx alpha beta = some r := by
  intro turns
  induction turns with
  | nil => intro _ L mn mx alpha beta r h; exact h
  | cons t rest ih =>
    intro hcall L mn mx alpha beta r h
    rw [rec_loop] at h ⊢
    cases hc : call1 L t alpha beta with
    | none => rw [hc] at h; simp at h
    | some r1 =>
      obtain ⟨s, L1⟩ := r1
      rw [hc] at h
      rw [hcall t (List.mem_cons_self _ _) L alpha beta (s, L1) hc]
      simp only at h ⊢
      by_cases hcut : prune = true ∧
          (if odd = true then max alpha (max mx s) else alpha) ≥
            (if odd = true then beta else min beta (min mn s))
      · rw [if_pos hcut] at h ⊢; exact h
      · rw [if_neg hcut] at h ⊢
        exact ih (fun u hu => hcall u (List.mem_cons_of_mem _ hu)) L1 _ _ _ _ r h

/-- A larger bound gives `find_best_turns_rec` the same result. -/
theorem rec_fuel_succ {σ : Type} (sh : σ → List move_pos → List move_pos × σ) (cfg : Settings) :
    ∀ (n : Nat) (L : Logic σ) (mtx : Grid) (color : Bool) (depth : Nat) (alpha beta : ℚ)
      (x y : Int) (r : ℚ × Logic σ),
      find_best_turns_rec sh cfg n L mtx color depth alpha beta x y = some r →
      find_best_turns_rec sh cfg (n + 1) L mtx color depth alpha beta x y = some r := by
  intro n
  induction n with
  | zero =>
    intro L mtx color depth alpha beta x y r h
    simp [find_best_turns_rec] at h
  | succ n ih =>
    intro L mtx color depth alpha beta x y r h
    rw [find_best_turns_rec] at h ⊢
    by_cases hleaf : (depth : Int) = cfg.Max_depth
    · rw [if_pos hleaf] at h ⊢; exact h
    · rw [if_neg hleaf] at h ⊢
      generalize (if x ≠ -1 then L.find_turns_xy x y mtx
        else L.find_turns_color sh color mtx) = L1 at h ⊢
      simp only at h ⊢
      by_cases hpass : L1.have_beats = false ∧ x ≠ -1
      · rw [if_pos hpass] at h ⊢
        exact ih _ _ _ _ _ _ _ _ _ h
      · rw [if_neg hpass] at h ⊢
        by_cases hemp : L1.turns = []
        · rw [if_pos hemp] at h ⊢; exact h
        · rw [if_neg hemp] at h ⊢
          refine rec_loop_congr _ _ _ _ L1.turns ?_ L1 _ _ _ _ r h
          intro t _ L2 a b r2 hc
          simp only at hc ⊢
          split at hc
          · rename_i hord
            rw [if_pos hord]; exact ih _ _ _ _ _ _ _ _ _ hc
          · rename_i hord
            rw [if_neg hord]; exact ih _ _ _ _ _ _ _ _ _ hc

theorem rec_fuel_le {σ : Type} (sh : σ → List move_pos → List move_pos × σ) (cfg : Settings)
    {n n' : Nat} (hle : n ≤ n') {L : Logic σ} {mtx : Grid} {color : Bool} {depth : Nat}
    {alpha beta : ℚ} {x y : Int} {r : ℚ × Logic σ}
    (h : find_best_turns_rec sh cfg n L mtx color depth alpha beta x y = some r) :
    find_best_turns_rec sh cfg n' L mtx color depth alpha beta x y = some r := by
  induction hle with
  | refl => exact h
  | step _ ih => exact rec_fuel_succ sh cfg _ _ _ _ _ _ _ _ _ _ ih

theorem first_loop_congr {σ : Type}
    (call1 call2 : Logic σ → Plan → move_pos → Nat → ℚ → Option (ℚ × Logic σ × Plan))
    (hb : Bool) (state : Nat) :
    ∀ (turns : List move_pos),
      (∀ t ∈ turns, ∀ (L : Logic σ) (P : Plan) (s : Nat) (best : ℚ) (r : ℚ × Logic σ × Plan),
        call1 L P t s best = some r → call2 L P t s best = some r) →
      ∀ (L : Logic σ) (P : Plan) (best : ℚ) (r : ℚ × Logic σ × Plan),
        first_loop call1 hb state turns L P best = some r →
        first_loop call2 hb state turns L P best = some r := by
  intro turns
  induction turns with
  | nil => intro _ L P best r h; exact h
  | cons t rest ih =>
    intro hcall L P best r h
    rw [first_loop] at h ⊢
    cases hc : call1 L P t P.next_move.length best with
    | none => rw [hc] at h; simp at h
    | some r1 =>
      obtain ⟨s, L1, P1⟩ := r1
      rw [hc] at h
      rw [hcall t (List.mem_cons_self _ _) L P _ best (s, L1, P1) hc]
      simp only at h ⊢
      have hrest := fun u (hu : u ∈ rest) => hcall u (List.mem_cons_of_mem _ hu)
      split at h
      · rename_i hgt
        rw [if_pos hgt]
        exact ih hrest L1 _ _ r h
      · rename_i hgt
        rw [if_neg hgt]
        exact ih hrest L1 _ _ r h

/-- A larger bound gives `find_first_best_turn` the same result. -/
theorem first_fuel_succ {σ : Type} (sh : σ → List move_pos → List move_pos × σ)
    (cfg : Settings) :
    ∀ (n : Nat) (L : Logic σ) (P : Plan) (mtx : Grid) (color : Bool) (x y : Int) (state : Nat)
      (alpha : ℚ) (r : ℚ × Logic σ × Plan),
      find_first_best_turn sh cfg n L P mtx color x y state alpha = some r →
      find_first_best_turn sh cfg (n + 1) L P mtx color x y state alpha = some r := by
  intro n
  induction n with
  | zero =>
    intro L P mtx color x y state alpha r h
    simp [find_first_best_turn] at h
  | succ n ih =>
    intro L P mtx color x y state alpha r h
    rw [find_first_best_turn] at h ⊢
    generalize (if state ≠ 0 then L.find_turns_xy x y mtx else L) = L1 at h ⊢
    by_cases hpass : L1.have_beats = false ∧ state ≠ 0
    · rw [if_pos hpass] at h ⊢
      cases hr : find_best_turns_rec sh cfg n L1 mtx (!color) 0 alpha (INF + 1) (-1) (-1) with
      | none => rw [hr] at h; simp at h
      | some r1 =>
        rw [hr] at h
        rw [rec_fuel_succ sh cfg _ _ _ _ _ _ _ _ _ _ hr]
        exact h
    · rw [if_neg hpass] at h ⊢
      refine first_loop_congr _ _ _ _ L1.turns ?_ L1 _ _ r h
      intro t _ L2 P2 s best r2 hc
      simp only at hc ⊢
      split at hc
      · rename_i hbt
        rw [if_pos hbt]; exact ih _ _ _ _ _ _ _ _ _ hc
      · rename_i hbt
        rw [if_neg hbt]
        cases hr : find_best_turns_rec sh cfg n L2 (make_turn mtx t) (!color) 0 best (INF + 1)
            (-1) (-1) with
        | none => rw [hr] at hc; simp at hc
        | some r1 =>
          rw [hr] at hc
          rw [rec_fuel_succ sh cfg _ _ _ _ _ _ _ _ _ _ hr]
          exact hc

theorem first_fuel_le {σ : Type} (sh : σ → List move_pos → List move_pos × σ) (cfg : Settings)
    {n n' : Nat} (hle : n ≤ n') {L : Logic σ} {P : Plan} {mtx : Grid} {color : Bool}
    {x y : Int} {state : Nat} {alpha : ℚ} {r : ℚ × Logic σ × Plan}
    (h : find_first_best_turn sh cfg n L P mtx color x y state alpha = some r) :
    find_first_best_turn sh cfg n' L P mtx color x y state alpha = some r := by
  induction hle with
  | refl => exact h
  | step _ ih => exact first_fuel_succ sh cfg _ _ _ _ _ _ _ _ _ _ ih
/-- C23: on a valid board every move of `find_turns(x, y, mtx)` for a square holding a
piece, and every move of `find_turns(color, mtx)`, is well-formed: source and destination
on the board, a piece (of the colour asked for) on the source, the destination empty, the
move along a diagonal, and the beaten square of a capture strictly between source and
destination on that diagonal, holding a piece of the other colour. For every well-formed
move the rows and columns change by the same non-zero amount, `Board::move_piece` does
not throw, and on the grid it leaves the mover's colour has as many pieces as before while
the other colour has one less after a capture and as many otherwise. -/
theorem C23_generated_moves_well_formed (mtx : Grid) (hv : validGrid mtx) :
    (∀ (x y : Int) (m : move_pos), onBoard x y → cell mtx x y ≠ 0 →
      m ∈ (find_turns x y mtx).turns → WellFormed mtx m ∧ m.x = x ∧ m.y = y) ∧
    (∀ (shuffle : List move_pos → List move_pos), (∀ l, (shuffle l).Perm l) →
      ∀ (c : Bool) (m : move_pos), m ∈ (find_turns_color shuffle c mtx).turns →
        WellFormed mtx m ∧ hasColor c (cell mtx m.x m.y)) ∧
    (∀ m : move_pos, WellFormed mtx m →
      |m.x2 - m.x| = |m.y2 - m.y| ∧ 1 ≤ |m.x2 - m.x| ∧
      (m.xb ≠ -1 → onBoard m.xb m.yb ∧ |m.xb - m.x| = |m.yb - m.y| ∧ 1 ≤ |m.xb - m.x| ∧
        |m.xb - m.x| < |m.x2 - m.x| ∧
        (m.x2 - m.x) * (m.yb - m.y) = (m.y2 - m.y) * (m.xb - m.x) ∧
        0 < (m.x2 - m.x) * (m.xb - m.x)) ∧
      ∀ (b : Board) (beat_series : Int), b.mtx = mtx →
        (b.move_piece m beat_series).2 = none ∧
        ∀ c : Bool, hasColor c (cell mtx m.x m.y) →
          piecesOf (b.move_piece m beat_series).1.mtx c = piecesOf mtx c ∧
          piecesOf (b.move_piece m beat_series).1.mtx (!c) + (if m.xb ≠ -1 then 1 else 0) =
            piecesOf mtx (!c)) := by
  refine ⟨fun x y m hxy hp hm => ?_, fun shuffle hsh c m hm => ?_, fun m hwf => ?_⟩
  · obtain ⟨h1, h2, h3, _⟩ := find_turns_wf hv hxy hp hm
    exact ⟨h1, h2, h3⟩
  · obtain ⟨h1, h2, _⟩ := find_turns_color_wf shuffle hsh c hv hm
    exact ⟨h1, h2⟩
  · obtain ⟨_, _, _, _, ha, hb, hcap⟩ := wf_facts hwf
    refine ⟨ha, hb, fun h => ?_, fun b beat_series hbm => ?_⟩
    · obtain ⟨c1, _, c3, c4, c5, c6, c7⟩ := hcap h
      exact ⟨c1, c3, c4, c5, c6, c7⟩
    · subst hbm
      have hok := move_piece_wf hwf beat_series
      refine ⟨hok, fun c hc => ?_⟩
      rw [move_piece_ok_state hok]
      simp only
      have hown := piecesOf_make_turn hv hwf c
      have hopp := piecesOf_make_turn hv hwf (!c)
      by_cases hx : m.xb ≠ -1
      · obtain ⟨_, hop, _⟩ := hcap hx
        have h1 : hasColor (!c) (cell b.mtx m.xb m.yb) := by
          rw [hasColor_opposite hop, Bool.not_not]; exact hc
        rw [if_neg (fun h => hasColor_not h1 (by rw [Bool.not_not]; exact h.2))] at hown
        rw [if_pos ⟨hx, h1⟩] at hopp
        rw [if_pos hx]
        exact ⟨hown, hopp⟩
      · rw [if_neg (fun h => hx h.1)] at hown hopp
        rw [if_neg hx]
        exact ⟨hown, hopp⟩

/-- C23 on the scenario board: White's capture 4,3 -> 2,1 over 3,2. -/
theorem C23_generated_moves_well_formed_witness :
    validGrid scenarioGrid ∧
    (WellFormed scenarioGrid ⟨4, 3, 2, 1, 3, 2⟩ ∧ (⟨4, 3, 2, 1, 3, 2⟩ : move_pos).x = 4 ∧
      (⟨4, 3, 2, 1, 3, 2⟩ : move_pos).y = 3) :=
  ⟨by decide, (C23_generated_moves_well_formed scenarioGrid (by decide)).1 4 3
    ⟨4, 3, 2, 1, 3, 2⟩ (by decide) (by decide) (by decide)⟩

/-- C24: the grid that a successful `Board::move_piece(turn, beat_series)` leaves on the
board is `make_turn` of the grid before the call and the move, for every board and move;
and on a valid board the call succeeds, with that grid, for every move generated by
`find_turns(x, y, mtx)` for a square holding a piece and by `find_turns(color, mtx)`. -/
theorem C24_make_turn_agrees (b : Board) (m : move_pos) (beat_series : Int) :
    ((b.move_piece m beat_series).2 = none →
      (b.move_piece m beat_series).1.mtx = make_turn b.mtx m) ∧
    (validGrid b.mtx →
      (∀ x y : Int, onBoard x y → cell b.mtx x y ≠ 0 → m ∈ (find_turns x y b.mtx).turns →
        (b.move_piece m beat_series).2 = none ∧
          (b.move_piece m beat_series).1.mtx = make_turn b.mtx m) ∧
      (∀ (shuffle : List move_pos → List move_pos), (∀ l, (shuffle l).Perm l) →
        ∀ c : Bool, m ∈ (find_turns_color shuffle c b.mtx).turns →
          (b.move_piece m beat_series).2 = none ∧
            (b.move_piece m beat_series).1.mtx = make_turn b.mtx m)) := by
  have key : (b.move_piece m beat_series).2 = none →
      (b.move_piece m beat_series).1.mtx = make_turn b.mtx m := by
    intro h
    rw [move_piece_ok_state h]
  refine ⟨key, fun hv => ⟨fun x y hxy hp hm => ?_, fun shuffle hsh c hm => ?_⟩⟩
  · have hok := move_piece_wf (find_turns_wf hv hxy hp hm).1 beat_series
    exact ⟨hok, key hok⟩
  · have hok := move_piece_wf (find_turns_color_wf shuffle hsh c hv hm).1 beat_series
    exact ⟨hok, key hok⟩

/-- C24 on the scenario board: White's capture 4,3 -> 2,1 over 3,2, a generated move. -/
theorem C24_make_turn_agrees_witness :
    validGrid scenarioGrid ∧ onBoard 4 3 ∧ cell scenarioGrid 4 3 ≠ 0 ∧
    (⟨4, 3, 2, 1, 3, 2⟩ : move_pos) ∈ (find_turns 4 3 scenarioGrid).turns ∧
    ((⟨scenarioGrid, [scenarioGrid], [0]⟩ : Board).move_piece ⟨4, 3, 2, 1, 3, 2⟩ 1).2 = none ∧
    ((⟨scenarioGrid, [scenarioGrid], [0]⟩ : Board).move_piece ⟨4, 3, 2, 1, 3, 2⟩ 1).1.mtx =
      make_turn scenarioGrid ⟨4, 3, 2, 1, 3, 2⟩ :=
  ⟨by decide, by decide, by decide, by decide,
    ((C24_make_turn_agrees ⟨scenarioGrid, [scenarioGrid], [0]⟩ ⟨4, 3, 2, 1, 3, 2⟩ 1).2
      (by decide)).1 4 3 (by decide) (by decide) (by decide)⟩

/-- C22: on every valid board, for every colour and depth limit `Max_depth >= 0`, the
search returns. `find_best_turns_rec` started at depth 0 and `find_first_best_turn`
started at the root on the moves of `find_turns(color)` give, for every bound on the
recursion from `130 * Max_depth + 129` (respectively `+ 194`) on, one and the same result.
The recursion descends because a call either raises `depth` towards `Max_depth` or
follows a capturing move at the same depth, and every capturing move generated leaves a
valid board with one piece less. -/
theorem C22_search_terminates {σ : Type} (sh : σ → List move_pos → List move_pos × σ)
    (hsh : ∀ s l, (sh s l).1.Perm l) (cfg : Settings) (hd : 0 ≤ cfg.Max_depth) (mtx : Grid)
    (hv : validGrid mtx) (color : Bool) :
    (∀ (L : Logic σ) (alpha beta : ℚ), ∃ r, ∀ fuel, cfg.Max_depth.toNat * 130 + 129 ≤ fuel →
      find_best_turns_rec sh cfg fuel L mtx color 0 alpha beta (-1) (-1) = some r) ∧
    (∀ (L0 : Logic σ) (alpha : ℚ), ∃ r, ∀ fuel, cfg.Max_depth.toNat * 130 + 194 ≤ fuel →
      find_first_best_turn sh cfg fuel (L0.find_turns_color sh color mtx) ⟨[], []⟩ mtx color
        (-1) (-1) 0 alpha = some r) ∧
    (∀ (x y : Int) (m : move_pos), onBoard x y → cell mtx x y ≠ 0 →
      m ∈ (find_turns x y mtx).turns → m.xb ≠ -1 →
      validGrid (make_turn mtx m) ∧ pieces (make_turn mtx m) + 1 = pieces mtx) ∧
    (∀ m : move_pos, m ∈ (find_turns_color id color mtx).turns →
      validGrid (make_turn mtx m) ∧
        pieces (make_turn mtx m) + (if m.xb ≠ -1 then 1 else 0) = pieces mtx) := by
  have hp64 := pieces_le mtx
  have hD : (cfg.Max_depth - ((0 : Nat) : Int)).toNat = cfg.Max_depth.toNat := by simp
  refine ⟨fun L alpha beta => ?_, fun L0 alpha => ?_, fun x y m hxy hp hm hx => ?_, fun m hm => ?_⟩
  · obtain ⟨v, L', hr, _⟩ := rec_total sh hsh cfg (cfg.Max_depth.toNat * 130 + 129) L mtx color 0
      alpha beta (-1) (-1) hv (by simpa using hd) (fun h => absurd rfl h) (by
        unfold recFuel
        rw [hD, if_neg (by simp)]; omega)
    exact ⟨(v, L'), fun fuel hf => rec_fuel_le sh cfg hf hr⟩
  · have hgood : ∀ t ∈ (L0.find_turns_color sh color mtx).turns,
        GoodMove mtx (L0.find_turns_color sh color mtx).have_beats t :=
      fun t ht => find_turns_color_good sh hsh L0 color hv ht
    generalize L0.find_turns_color sh color mtx = L at hgood
    obtain ⟨v, ch, L', hfc, _⟩ := first_chain_spec sh hsh cfg hd
      (cfg.Max_depth.toNat * 130 + 194) L mtx color (-1) (-1) true alpha hv
      (fun h => by simp at h) (fun _ => hgood) (by unfold firstFuel; omega)
    obtain ⟨_, hsome⟩ := first_refines sh cfg (cfg.Max_depth.toNat * 130 + 194) L ⟨[], []⟩ mtx
      color (-1) (-1) 0 alpha rfl rfl hv (fun h => absurd rfl h) (fun _ => hgood)
    obtain ⟨P', hff, _⟩ := hsome v ch L' hfc
    exact ⟨(v, L', P'), fun fuel hf => first_fuel_le sh cfg hf hff⟩
  · obtain ⟨hwf, _, _, _⟩ := find_turns_wf hv hxy hp hm
    obtain ⟨hg, _⟩ := wf_facts hwf
    have hdec : decide (m.xb ≠ -1) = true := by simp [hx]
    rw [hdec] at hg
    obtain ⟨h1, _, h3⟩ := make_turn_good hv hg
    exact ⟨h1, by simpa using h3⟩
  · obtain ⟨hwf, _, _⟩ := find_turns_color_wf id (fun l => List.Perm.refl l) color hv hm
    obtain ⟨hg, _⟩ := wf_facts hwf
    obtain ⟨h1, _, h3⟩ := make_turn_good hv hg
    refine ⟨h1, ?_⟩
    by_cases hx : m.xb ≠ -1
    · have hdec : decide (m.xb ≠ -1) = true := by simp [hx]
      rw [hdec] at h3
      rw [if_pos hx]
      simpa using h3
    · have hdec : decide (m.xb ≠ -1) = false := by simpa using hx
      rw [hdec] at h3
      rw [if_neg hx]
      simpa using h3

/-- C22 at the start position: White, depth limit 2, pruning on. -/
theorem C22_search_terminates_witness :
    (∀ (s : Unit) (l : List move_pos), (noShuffle s l).1.Perm l) ∧
    (0 : Int) ≤ (⟨2, "NumberAndPotential", "O1"⟩ : Settings).Max_depth ∧
    validGrid startGrid ∧
    ∃ r, ∀ fuel, (⟨2, "NumberAndPotential", "O1"⟩ : Settings).Max_depth.toNat * 130 + 194 ≤ fuel →
      find_first_best_turn noShuffle ⟨2, "NumberAndPotential", "O1"⟩ fuel
        (freshLogic.find_turns_color noShuffle false startGrid) ⟨[], []⟩ startGrid false
        (-1) (-1) 0 (-1) = some r :=
  ⟨fun _ _ => List.Perm.refl _, by decide, by decide,
    (C22_search_terminates noShuffle (fun _ _ => List.Perm.refl _)
      ⟨2, "NumberAndPotential", "O1"⟩ (by decide) startGrid (by decide) false).2.1
      freshLogic (-1)⟩

/-! ## The search with pruning -/

theorem foldl_max_ge_init (l : List ℚ) (a : ℚ) : a ≤ l.foldl max a := by
  induction l generalizing a with
  | nil => exact le_refl _
  | cons x xs ih => exact le_trans (le_max_left a x) (ih (max a x))

theorem foldl_max_ge_mem {l : List ℚ} {v : ℚ} (hv : v ∈ l) (a : ℚ) : v ≤ l.foldl max a := by
  induction l generalizing a with
  | nil => simp at hv
  | cons x xs ih =>
    rcases List.mem_cons.1 hv with h | h
    · rw [h]; exact le_trans (le_max_right a x) (foldl_max_ge_init xs (max a x))
    · exact ih h (max a x)

theorem foldl_max_le {l : List ℚ} {a B : ℚ} (ha : a ≤ B) (hl : ∀ v ∈ l, v ≤ B) :
    l.foldl max a ≤ B := by
  induction l generalizing a with
  | nil => exact ha
  | cons x xs ih =>
    exact ih (max_le ha (hl x (List.mem_cons_self _ _)))
      (fun v hv => hl v (List.mem_cons_of_mem _ hv))

theorem foldl_min_le_init (l : List ℚ) (a : ℚ) : l.foldl min a ≤ a := by
  induction l generalizing a with
  | nil => exact le_refl _
  | cons x xs ih => exact le_trans (ih (min a x)) (min_le_left a x)

theorem foldl_min_le_mem {l : List ℚ} {v : ℚ} (hv : v ∈ l) (a : ℚ) : l.foldl min a ≤ v := by
  induction l generalizing a with
  | nil => simp at hv
  | cons x xs ih =>
    rcases List.mem_cons.1 hv with h | h
    · rw [h]; exact le_trans (foldl_min_le_init xs (min a x)) (min_le_right a x)
    · exact ih h (min a x)

theorem foldl_min_ge {l : List ℚ} {a B : ℚ} (ha : B ≤ a) (hl : ∀ v ∈ l, B ≤ v) :
    B ≤ l.foldl min a := by
  induction l generalizing a with
  | nil => exact ha
  | cons x xs ih =>
    exact ih (le_min ha (hl x (List.mem_cons_self _ _)))
      (fun v hv => hl v (List.mem_cons_of_mem _ hv))

theorem calc_score_le_INF (scoring_mode : String) (mtx : Grid) (color : Bool) :
    calc_score scoring_mode mtx color ≤ INF := by
  rw [calc_score_cases]
  by_cases hopp : piecesOf mtx (!color) = 0
  · rw [if_pos hopp]
  · rw [if_neg hopp]
    by_cases hfav : piecesOf mtx color = 0
    · rw [if_pos hfav]; exact le_of_lt INF_pos
    · rw [if_neg hfav]
      have := (quotient_bounds scoring_mode mtx color hopp hfav).2
      unfold INF
      linarith

/-- The minimax value lies between 0 and `INF`. -/
theorem minimax_range (cfg : Settings) (c : Bool) :
    ∀ (fuel : Nat) (mtx : Grid) (depth : Nat) (x y : Int),
      0 ≤ minimax cfg c fuel mtx depth x y ∧ minimax cfg c fuel mtx depth x y ≤ INF := by
  intro fuel
  induction fuel with
  | zero =>
    intro mtx depth x y
    rw [minimax]
    exact ⟨le_refl 0, le_of_lt INF_pos⟩
  | succ n ih =>
    intro mtx depth x y
    rw [minimax]
    by_cases hleaf : (depth : Int) = cfg.Max_depth
    · rw [if_pos hleaf]
      exact ⟨calc_score_nonneg _ _ _, calc_score_le_INF _ _ _⟩
    · rw [if_neg hleaf]
      generalize (if x ≠ -1 then find_turns x y mtx
        else find_turns_color id (moverAt c depth) mtx) = T
      simp only
      by_cases hpass : T.have_beats = false ∧ x ≠ -1
      · rw [if_pos hpass]; exact ih _ _ _ _
      · rw [if_neg hpass]
        by_cases hemp : T.turns = []
        · rw [if_pos hemp]
          split_ifs
          · exact ⟨le_refl 0, le_of_lt INF_pos⟩
          · exact ⟨le_of_lt INF_pos, le_refl _⟩
        · rw [if_neg hemp]
          have hvals : ∀ v ∈ (T.turns.map fun t =>
              if T.have_beats = false ∧ x = -1 then
                minimax cfg c n (make_turn mtx t) (depth + 1) (-1) (-1)
              else minimax cfg c n (make_turn mtx t) depth t.x2 t.y2), 0 ≤ v ∧ v ≤ INF := by
            intro v hv
            obtain ⟨t, _, rfl⟩ := List.mem_map.1 hv
            split_ifs
            · exact ih _ _ _ _
            · exact ih _ _ _ _
          obtain ⟨t0, ht0⟩ := List.exists_mem_of_ne_nil _ hemp
          have hmem := List.mem_map_of_mem (fun t =>
              if T.have_beats = false ∧ x = -1 then
                minimax cfg c n (make_turn mtx t) (depth + 1) (-1) (-1)
              else minimax cfg c n (make_turn mtx t) depth t.x2 t.y2) ht0
          have h0 := hvals _ hmem
          by_cases hodd : depth % 2 = 1
          · rw [if_pos hodd]
            exact ⟨le_trans h0.1 (foldl_max_ge_mem hmem _),
              foldl_max_le (by linarith [INF_pos]) (fun v hv => (hvals v hv).2)⟩
          · rw [if_neg hodd]
            exact ⟨foldl_min_ge (by linarith [INF_pos]) (fun v hv => (hvals v hv).1),
              le_trans (foldl_min_le_mem hmem _) h0.2⟩
theorem Bnd_of_eq (a b : ℚ) {r v : ℚ} (h : r = v) : Bnd a b r v := by
  rw [h]
  exact ⟨fun _ _ => rfl, fun h => h, fun h => h⟩

/-- A maximising layer with pruning on. When every call answers within `Bnd` of the value
`f t` of its move, the loop answers within `Bnd` of the maximum of the values. Here `a0`
is the lower end of the window the layer was entered with, `alpha` its current lower
end, `mx` the running maximum of the answers and `V` the running maximum of the
values. -/
theorem max_loop_bounds {σ : Type} (call : Logic σ → move_pos → ℚ → ℚ → Option (ℚ × Logic σ))
    (f : move_pos → ℚ) (beta a0 : ℚ) :
    ∀ (turns : List move_pos),
      (∀ t ∈ turns, ∀ (L : Logic σ) (a : ℚ), a0 ≤ a → a < beta →
        ∃ r L', call L t a beta = some (r, L') ∧ Bnd a beta r (f t)) →
      ∀ (L : Logic σ) (mx alpha V : ℚ), mx ≤ alpha → alpha < beta → a0 ≤ alpha → V ≤ alpha →
        (alpha = a0 ∨ alpha = V) → (a0 < V → mx = V) → (V ≤ a0 → mx ≤ a0) →
        ∃ r L', max_loop call true turns L mx alpha beta = some (r, L') ∧
          Bnd a0 beta r ((turns.map f).foldl max V) := by
  intro turns
  induction turns with
  | nil =>
    intro _ L mx alpha V _ hab _ hVa _ h1 h2
    refine ⟨mx, L, rfl, fun h _ => h1 h, h2, fun h => ?_⟩
    simp only [List.map_nil, List.foldl_nil] at h
    linarith
  | cons t rest ih =>
    intro hcall L mx alpha V hmx hab ha0 hVa halt h1 h2
    obtain ⟨r1, L1, hc, b1, b2, b3⟩ := hcall t (List.mem_cons_self _ _) L alpha ha0 hab
    have hrest := fun u (hu : u ∈ rest) => hcall u (List.mem_cons_of_mem _ hu)
    rw [max_loop, hc]
    simp only [List.map_cons, List.foldl_cons, true_and]
    by_cases hcut : max alpha (max mx r1) ≥ beta
    · rw [if_pos hcut]
      have hr1 : beta ≤ r1 := by
        by_contra hlt
        push_neg at hlt
        have : max alpha (max mx r1) < beta := max_lt hab (max_lt (by linarith) hlt)
        linarith
      have hft : beta ≤ f t := by
        by_contra hlt
        push_neg at hlt
        by_cases hin : alpha < f t
        · have := b1 hin hlt; linarith
        · have := b2 (by linarith); linarith
      have htot : beta ≤ (rest.map f).foldl max (max V (f t)) :=
        le_trans (le_trans hft (le_max_right _ _)) (foldl_max_ge_init _ _)
      refine ⟨_, L1, rfl, fun _ h => by linarith, fun h => by linarith, fun _ => ?_⟩
      have : r1 ≤ max mx r1 := le_max_right _ _
      linarith
    · rw [if_neg hcut]
      push_neg at hcut
      have hr1 : r1 < beta :=
        lt_of_le_of_lt (le_trans (le_max_right mx r1) (le_max_right alpha _)) hcut
      have hft : f t < beta := by
        by_contra hge
        push_neg at hge
        have := b3 hge; linarith
      by_cases hin : alpha < f t
      · have er : r1 = f t := b1 hin hft
        have e1 : max mx r1 = f t := by rw [er]; exact max_eq_right (by linarith)
        have e2 : max alpha (f t) = f t := max_eq_right (le_of_lt hin)
        have e3 : max V (f t) = f t := max_eq_right (by linarith)
        rw [e1, e2, e3]
        exact ih hrest L1 (f t) (f t) (f t) (le_refl _) hft (by linarith) (le_refl _)
          (Or.inr rfl) (fun _ => rfl) (fun h => by linarith)
      · push_neg at hin
        have hr1a : r1 ≤ alpha := b2 hin
        have hmx' : max mx r1 ≤ alpha := max_le hmx hr1a
        have e2 : max alpha (max mx r1) = alpha := max_eq_left hmx'
        rw [e2]
        refine ih hrest L1 (max mx r1) alpha (max V (f t)) hmx' hab ha0 (max_le hVa hin) ?_ ?_ ?_
        · rcases halt with h | h
          · exact Or.inl h
          · right
            rw [max_eq_left (by linarith)]; exact h
        · intro hlt
          by_cases hV : a0 < V
          · have hmV := h1 hV
            have haV : alpha = V := by
              rcases halt with h | h
              · linarith
              · exact h
            rw [hmV, max_eq_left (by linarith), max_eq_left (by linarith)]
          · push_neg at hV
            have haa : alpha = a0 := by
              rcases halt with h | h
              · exact h
              · linarith
            have : max V (f t) ≤ a0 := max_le hV (by linarith)
            linarith
        · intro hle
          have hV : V ≤ a0 := le_trans (le_max_left _ _) hle
          have haa : alpha ≤ a0 := by
            rcases halt with h | h
            · linarith
            · linarith
          exact max_le (h2 hV) (by linarith)

/-- A minimising layer with pruning on; the mirror image of `max_loop_bounds`. -/
theorem min_loop_bounds {σ : Type} (call : Logic σ → move_pos → ℚ → ℚ → Option (ℚ × Logic σ))
    (f : move_pos → ℚ) (alpha b0 : ℚ) :
    ∀ (turns : List move_pos),
      (∀ t ∈ turns, ∀ (L : Logic σ) (b : ℚ), b ≤ b0 → alpha < b →
        ∃ r L', call L t alpha b = some (r, L') ∧ Bnd alpha b r (f t)) →
      ∀ (L : Logic σ) (mn beta V : ℚ), beta ≤ mn → alpha < beta → beta ≤ b0 → beta ≤ V →
        (beta = b0 ∨ beta = V) → (V < b0 → mn = V) → (b0 ≤ V → b0 ≤ mn) →
        ∃ r L', min_loop call true turns L mn alpha beta = some (r, L') ∧
          Bnd alpha b0 r ((turns.map f).foldl min V) := by
  intro turns
  induction turns with
  | nil =>
    intro _ L mn beta V _ hab _ hbV _ h1 h2
    refine ⟨mn, L, rfl, fun _ h => h1 h, fun h => ?_, h2⟩
    simp only [List.map_nil, List.foldl_nil] at h
    linarith
  | cons t rest ih =>
    intro hcall L mn beta V hmn hab hb0 hbV halt h1 h2
    obtain ⟨r1, L1, hc, b1, b2, b3⟩ := hcall t (List.mem_cons_self _ _) L beta hb0 hab
    have hrest := fun u (hu : u ∈ rest) => hcall u (List.mem_cons_of_mem _ hu)
    rw [min_loop, hc]
    simp only [List.map_cons, List.foldl_cons, true_and]
    by_cases hcut : alpha ≥ min beta (min mn r1)
    · rw [if_pos hcut]
      have hr1 : r1 ≤ alpha := by
        by_contra hlt
        push_neg at hlt
        have : alpha < min beta (min mn r1) := lt_min hab (lt_min (by linarith) hlt)
        linarith
      have hft : f t ≤ alpha := by
        by_contra hlt
        push_neg at hlt
        by_cases hin : f t < beta
        · have := b1 hlt hin; linarith
        · have := b3 (by linarith); linarith
      have htot : (rest.map f).foldl min (min V (f t)) ≤ alpha :=
        le_trans (foldl_min_le_init _ _) (le_trans (min_le_right _ _) hft)
      refine ⟨_, L1, rfl, fun h _ => by linarith, fun _ => ?_, fun h => by linarith⟩
      have : min mn r1 ≤ r1 := min_le_right _ _
      linarith
    · rw [if_neg hcut]
      push_neg at hcut
      have hr1 : alpha < r1 :=
        lt_of_lt_of_le hcut (le_trans (min_le_right beta _) (min_le_right mn r1))
      have hft : alpha < f t := by
        by_contra hge
        push_neg at hge
        have := b2 hge; linarith
      by_cases hin : f t < beta
      · have er : r1 = f t := b1 hft hin
        have e1 : min mn r1 = f t := by rw [er]; exact min_eq_right (by linarith)
        have e2 : min beta (f t) = f t := min_eq_right (le_of_lt hin)
        have e3 : min V (f t) = f t := min_eq_right (by linarith)
        rw [e1, e2, e3]
        exact ih hrest L1 (f t) (f t) (f t) (le_refl _) hft (by linarith) (le_refl _)
          (Or.inr rfl) (fun _ => rfl) (fun h => by linarith)
      · push_neg at hin
        have hr1b : beta ≤ r1 := b3 hin
        have hmn' : beta ≤ min mn r1 := le_min hmn hr1b
        have e2 : min beta (min mn r1) = beta := min_eq_left hmn'
        rw [e2]
        refine ih hrest L1 (min mn r1) beta (min V (f t)) hmn' hab hb0 (le_min hbV hin) ?_ ?_ ?_
        · rcases halt with h | h
          · exact Or.inl h
          · right
            rw [min_eq_left (by linarith)]; exact h
        · intro hlt
          by_cases hV : V < b0
          · have hmV := h1 hV
            have hbV' : beta = V := by
              rcases halt with h | h
              · linarith
              · exact h
            rw [hmV, min_eq_left (by linarith), min_eq_left (by linarith)]
          · push_neg at hV
            have hbb : beta = b0 := by
              rcases halt with h | h
              · exact h
              · linarith
            have : b0 ≤ min V (f t) := le_min hV (by linarith)
            linarith
        · intro hle
          have hV : b0 ≤ V := le_trans hle (min_le_left _ _)
          have hbb : b0 ≤ beta := by
            rcases halt with h | h
            · linarith
            · linarith
          exact le_min (h2 hV) (by linarith)
/-- With pruning on, the recursion entered with a window `-1 <= alpha < beta <= INF + 1`
returns, and what it returns is within `Bnd` of the minimax value of the node. -/
theorem search_bounds {σ : Type} (sh : σ → List move_pos → List move_pos × σ)
    (hsh : ∀ s l, (sh s l).1.Perm l) (cfg : Settings) (hP : cfg.optimization ≠ "O0")
    (c : Bool) :
    ∀ (f1 : Nat) (L : Logic σ) (mtx : Grid) (depth : Nat) (alpha beta : ℚ) (x y : Int)
      (f2 : Nat), validGrid mtx → (depth : Int) ≤ cfg.Max_depth →
      (x ≠ -1 → onBoard x y ∧ cell mtx x y ≠ 0) → recFuel cfg mtx depth x ≤ f1 →
      recFuel cfg mtx depth x ≤ f2 → -1 ≤ alpha → alpha < beta → beta ≤ INF + 1 →
      ∃ r L', search_from sh cfg c f1 L mtx depth alpha beta x y = some (r, L') ∧
        Bnd alpha beta r (minimax cfg c f2 mtx depth x y) := by
  intro f1
  induction f1 with
  | zero =>
    intro L mtx depth alpha beta x y f2 _ _ _ hf _ _ _ _
    unfold recFuel at hf; omega
  | succ n ih =>
    intro L mtx depth alpha beta x y f2 hv hd hxy hf hf2 ha hab hb
    cases f2 with
    | zero => unfold recFuel at hf2; omega
    | succ m =>
      rw [search_from, minimax]
      by_cases hleaf : (depth : Int) = cfg.Max_depth
      · rw [if_pos hleaf, if_pos hleaf]
        exact ⟨_, L, rfl, Bnd_of_eq _ _ rfl⟩
      · rw [if_neg hleaf, if_neg hleaf]
        have hlt : (depth : Int) < cfg.Max_depth := lt_of_le_of_ne hd hleaf
        have hstep : (cfg.Max_depth - (depth : Int)).toNat =
            (cfg.Max_depth - ((depth + 1 : Nat) : Int)).toNat + 1 := by
          push_cast; omega
        have hp64 := pieces_le mtx
        have hgood : ∀ t ∈ (if x ≠ -1 then L.find_turns_xy x y mtx
              else L.find_turns_color sh (moverAt c depth) mtx).turns,
            GoodMove mtx (if x ≠ -1 then L.find_turns_xy x y mtx
              else L.find_turns_color sh (moverAt c depth) mtx).have_beats t := by
          intro t ht
          by_cases hx : x ≠ -1
          · rw [if_pos hx] at ht ⊢
            exact find_turns_good hv (hxy hx).1 (hxy hx).2 ht
          · rw [if_neg hx] at ht ⊢
            exact find_turns_color_good sh hsh L _ hv ht
        have hbeq : (if x ≠ -1 then L.find_turns_xy x y mtx
              else L.find_turns_color sh (moverAt c depth) mtx).have_beats =
            (if x ≠ -1 then find_turns x y mtx
              else find_turns_color id (moverAt c depth) mtx).have_beats := by
          by_cases hx : x ≠ -1
          · rw [if_pos hx, if_pos hx]; rfl
          · rw [if_neg hx, if_neg hx]; rfl
        have hperm : (if x ≠ -1 then L.find_turns_xy x y mtx
              else L.find_turns_color sh (moverAt c depth) mtx).turns.Perm
            (if x ≠ -1 then find_turns x y mtx
              else find_turns_color id (moverAt c depth) mtx).turns := by
          by_cases hx : x ≠ -1
          · rw [if_pos hx, if_pos hx]; exact List.Perm.refl _
          · rw [if_neg hx, if_neg hx]; exact hsh _ _
        generalize (if x ≠ -1 then L.find_turns_xy x y mtx
          else L.find_turns_color sh (moverAt c depth) mtx) = L1 at hgood hbeq hperm ⊢
        generalize (if x ≠ -1 then find_turns x y mtx
          else find_turns_color id (moverAt c depth) mtx) = T at hbeq hperm ⊢
        simp only
        rw [hbeq]
        by_cases hpass : T.have_beats = false ∧ x ≠ -1
        · rw [if_pos hpass, if_pos hpass]
          apply ih L1 mtx (depth + 1) alpha beta (-1) (-1) m hv (by push_cast; omega)
            (fun h => absurd rfl h) _ _ ha hab hb
          · unfold recFuel at hf ⊢
            rw [hstep] at hf
            rw [if_pos hpass.2] at hf
            rw [if_neg (by simp)]
            omega
          · unfold recFuel at hf2 ⊢
            rw [hstep] at hf2
            rw [if_pos hpass.2] at hf2
            rw [if_neg (by simp)]
            omega
        · rw [if_neg hpass, if_neg hpass]
          by_cases hemp : T.turns = []
          · have hemp1 : L1.turns = [] := by
              rw [hemp] at hperm; exact List.Perm.eq_nil hperm
            rw [if_pos hemp1, if_pos hemp]
            exact ⟨_, L1, rfl, Bnd_of_eq _ _ rfl⟩
          · have hemp1 : L1.turns ≠ [] := by
              intro h0
              rw [h0] at hperm
              exact hemp (List.Perm.eq_nil (List.Perm.symm hperm))
            rw [if_neg hemp1, if_neg hemp]
            have hprune : decide (cfg.optimization ≠ "O0") = true := by simp [hP]
            rw [hprune]
            have hcall : ∀ t ∈ L1.turns, ∀ (L2 : Logic σ) (a b : ℚ), -1 ≤ a → a < b →
                b ≤ INF + 1 →
                ∃ r L', (if T.have_beats = false ∧ x = -1 then
                    search_from sh cfg c n L2 (make_turn mtx t) (depth + 1) a b (-1) (-1)
                  else search_from sh cfg c n L2 (make_turn mtx t) depth a b t.x2 t.y2) =
                    some (r, L') ∧
                  Bnd a b r ((fun t => if T.have_beats = false ∧ x = -1 then
                      minimax cfg c m (make_turn mtx t) (depth + 1) (-1) (-1)
                    else minimax cfg c m (make_turn mtx t) depth t.x2 t.y2) t) := by
              intro t ht L2 a b ha' hab' hb'
              have hg := hgood t ht
              obtain ⟨hv', hdp, hpc⟩ := make_turn_good hv hg
              have hp64' := pieces_le (make_turn mtx t)
              simp only
              by_cases hord : T.have_beats = false ∧ x = -1
              · rw [if_pos hord, if_pos hord]
                apply ih L2 (make_turn mtx t) (depth + 1) a b (-1) (-1) m hv'
                  (by push_cast; omega) (fun h => absurd rfl h) _ _ ha' hab' hb'
                · unfold recFuel at hf ⊢
                  rw [hstep] at hf
                  rw [if_neg (by simp)]
                  omega
                · unfold recFuel at hf2 ⊢
                  rw [hstep] at hf2
                  rw [if_neg (by simp)]
                  omega
              · rw [if_neg hord, if_neg hord]
                have hbt : T.have_beats = true := by
                  cases hbt : T.have_beats with
                  | true => rfl
                  | false =>
                    exfalso
                    by_cases hx : x = -1
                    · exact hord ⟨hbt, hx⟩
                    · exact hpass ⟨hbt, hx⟩
                rw [hbeq, hbt] at hpc hg
                simp only [if_true] at hpc
                have hon : onBoard t.x2 t.y2 := hg.2.2.1
                have hx2 : t.x2 ≠ -1 := by unfold onBoard at hon; omega
                apply ih L2 (make_turn mtx t) depth a b t.x2 t.y2 m hv' hd
                  (fun _ => ⟨hon, hdp⟩) _ _ ha' hab' hb'
                · unfold recFuel at hf ⊢
                  rw [if_pos hx2]
                  split_ifs at hf <;> omega
                · unfold recFuel at hf2 ⊢
                  rw [if_pos hx2]
                  split_ifs at hf2 <;> omega
            by_cases hodd : depth % 2 = 1
            · rw [if_pos hodd, if_pos hodd]
              obtain ⟨r, L', hr, hB⟩ := max_loop_bounds
                (fun L2 turn a b =>
                  if T.have_beats = false ∧ x = -1 then
                    search_from sh cfg c n L2 (make_turn mtx turn) (depth + 1) a b (-1) (-1)
                  else search_from sh cfg c n L2 (make_turn mtx turn) depth a b turn.x2 turn.y2)
                (fun t => if T.have_beats = false ∧ x = -1 then
                    minimax cfg c m (make_turn mtx t) (depth + 1) (-1) (-1)
                  else minimax cfg c m (make_turn mtx t) depth t.x2 t.y2)
                beta alpha L1.turns
                (fun t ht L2 a h1 h2 => hcall t ht L2 a beta (le_trans ha h1) h2 hb)
                L1 (-1) alpha (-1) ha hab (le_refl _) ha (Or.inl rfl) (fun _ => rfl)
                (fun _ => ha)
              refine ⟨r, L', hr, ?_⟩
              rw [← foldl_max_perm (List.Perm.map _ hperm)]
              exact hB
            · rw [if_neg hodd, if_neg hodd]
              obtain ⟨r, L', hr, hB⟩ := min_loop_bounds
                (fun L2 turn a b =>
                  if T.have_beats = false ∧ x = -1 then
                    search_from sh cfg c n L2 (make_turn mtx turn) (depth + 1) a b (-1) (-1)
                  else search_from sh cfg c n L2 (make_turn mtx turn) depth a b turn.x2 turn.y2)
                (fun t => if T.have_beats = false ∧ x = -1 then
                    minimax cfg c m (make_turn mtx t) (depth + 1) (-1) (-1)
                  else minimax cfg c m (make_turn mtx t) depth t.x2 t.y2)
                alpha beta L1.turns
                (fun t ht L2 b h1 h2 => hcall t ht L2 alpha b ha h2 (le_trans h1 hb))
                L1 (INF + 1) beta (INF + 1) hb hab (le_refl _) hb (Or.inl rfl) (fun _ => rfl)
                (fun _ => hb)
              refine ⟨r, L', hr, ?_⟩
              rw [← foldl_min_perm (List.Perm.map _ hperm)]
              exact hB
/-- The value with which the second phase is entered from the first, pruning on or off:
the minimax value of the board when that is above `alpha`, and something not above
`alpha` otherwise. -/
theorem rec_entry_bnd {σ : Type} (sh : σ → List move_pos → List move_pos × σ)
    (hsh : ∀ s l, (sh s l).1.Perm l) (cfg : Settings) (hd : 0 ≤ cfg.Max_depth) (color : Bool)
    {fuel : Nat} {L : Logic σ} {mtx : Grid} {alpha r : ℚ} {L' : Logic σ} (hv : validGrid mtx)
    (hf : recFuel cfg mtx 0 (-1) ≤ fuel) (ha : -1 ≤ alpha) (hb : alpha ≤ INF)
    (h : find_best_turns_rec sh cfg fuel L mtx (!color) 0 alpha (INF + 1) (-1) (-1) =
      some (r, L')) :
    (alpha < minimaxVal cfg color mtx → r = minimaxVal cfg color mtx) ∧
      (minimaxVal cfg color mtx ≤ alpha → r ≤ alpha) := by
  have hd' : ((0 : Nat) : Int) ≤ cfg.Max_depth := by simpa using hd
  have hrange := minimax_range cfg color (recFuel cfg mtx 0 (-1)) mtx 0 (-1) (-1)
  rw [← moverAt_zero color, rec_eq_search_from] at h
  by_cases hO : cfg.optimization = "O0"
  · have e := search_value sh hsh cfg hO color fuel L mtx 0 alpha (INF + 1) (-1) (-1) _ r L' hv
      hd' (fun h => absurd rfl h) (le_refl _) h
    unfold minimaxVal
    rw [e]
    exact ⟨fun _ => rfl, fun h => h⟩
  · obtain ⟨r', L'', hr, b1, b2, _⟩ := search_bounds sh hsh cfg hO color fuel L mtx 0 alpha
      (INF + 1) (-1) (-1) (recFuel cfg mtx 0 (-1)) hv hd' (fun h => absurd rfl h) hf (le_refl _)
      ha (by linarith) (le_refl _)
    rw [h] at hr
    simp only [Option.some.injEq, Prod.mk.injEq] at hr
    rw [← hr.1] at b1 b2
    unfold minimaxVal
    exact ⟨fun h1 => b1 h1 (by linarith [hrange.2]), b2⟩

theorem chainValue_range (cfg : Settings) (c : Bool) (mtx : Grid) (ch : List move_pos) :
    0 ≤ chainValue cfg c mtx ch ∧ chainValue cfg c mtx ch ≤ INF :=
  minimax_range cfg c _ _ 0 (-1) (-1)

/-- The loop of the first phase, pruning on or off, leaves the first maximal chain of the
concatenated enumerations of its candidates, when each call answers with the first
maximal chain of its candidate and with its value whenever that is above the best so
far. -/
theorem chain_loop_FM {σ : Type}
    (callf : Logic σ → move_pos → ℚ → Option (ℚ × List move_pos × Logic σ))
    (val : List move_pos → ℚ) (seg : move_pos → List (List move_pos)) :
    ∀ (turns : List move_pos),
      (∀ t ∈ turns, ∀ (L2 : Logic σ) (best r : ℚ) (sub : List move_pos) (L' : Logic σ),
        -1 ≤ best → best ≤ INF → callf L2 t best = some (r, sub, L') →
        ∃ v, IsFirstMax val (seg t) v (t :: sub) ∧ v ≤ INF ∧ (best < v → r = v) ∧
          (v ≤ best → r ≤ best)) →
      ∀ (L : Logic σ) (best : ℚ) (ch0 : List move_pos) (r : ℚ) (ch : List move_pos)
        (L' : Logic σ), -1 ≤ best → best ≤ INF →
        chain_loop callf turns L best ch0 = some (r, ch, L') →
        FirstMax val (turns.flatMap seg) best ch0 r ch := by
  intro turns
  induction turns with
  | nil =>
    intro _ L best ch0 r ch L' _ _ h
    simp only [chain_loop, Option.some.injEq, Prod.mk.injEq] at h
    obtain ⟨rfl, rfl, _⟩ := h
    exact Or.inl ⟨rfl, rfl, fun p hp => by simp at hp⟩
  | cons t rest ih =>
    intro hcall L best ch0 r ch L' hb1 hb2 h
    rw [chain_loop] at h
    cases hc : callf L t best with
    | none => rw [hc] at h; simp at h
    | some r1 =>
      obtain ⟨score, sub, L1⟩ := r1
      rw [hc] at h
      simp only at h
      obtain ⟨v, hI, hvI, hup, hdown⟩ :=
        hcall t (List.mem_cons_self _ _) L best score sub L1 hb1 hb2 hc
      have hseg := FirstMax_update hI best ch0
      rw [List.flatMap_cons]
      have hcr := fun u (hu : u ∈ rest) => hcall u (List.mem_cons_of_mem _ hu)
      by_cases hgt : score > best
      · have hv : v > best := by
          by_contra hle
          push_neg at hle
          have := hdown hle
          linarith
        have es : score = v := hup hv
        rw [if_pos hgt] at h
        rw [if_pos hv, if_pos hv] at hseg
        rw [es] at h
        exact FirstMax_append hseg (ih hcr L1 v (t :: sub) r ch L' (by linarith) hvI h)
      · have hv : ¬ v > best := by
          intro hv
          have := hup hv
          rw [this] at hgt
          exact hgt hv
        rw [if_neg hgt] at h
        rw [if_neg hv, if_neg hv] at hseg
        exact FirstMax_append hseg (ih hcr L1 best ch0 r ch L' hb1 hb2 h)

/-- `IsFirstMax` determines the chain and the value. -/
theorem IsFirstMax_unique {val : List move_pos → ℚ} {l : List (List move_pos)} {v v' : ℚ}
    {ch ch' : List move_pos} (h : IsFirstMax val l v ch) (h' : IsFirstMax val l v' ch') :
    v = v' ∧ ch = ch' := by
  obtain ⟨hv, i, hi, hall, hfirst⟩ := h
  obtain ⟨hv', i', hi', hall', hfirst'⟩ := h'
  have e : v = v' := by
    have a := hall ch' (List.getElem?_mem hi')
    have b := hall' ch (List.getElem?_mem hi)
    rw [hv] at b
    rw [hv'] at a
    linarith
  refine ⟨e, ?_⟩
  have hii : i = i' := by
    rcases Nat.lt_trichotomy i i' with hlt | heq | hgt
    · have := hfirst' i ch hlt hi
      rw [hv, e] at this
      exact absurd this (lt_irrefl _)
    · exact heq
    · have := hfirst i' ch' hgt hi'
      rw [hv', e] at this
      exact absurd this (lt_irrefl _)
  rw [hii, hi'] at hi
  exact (Option.some.inj hi).symm
/-- Pruning on or off, `first_chain` returns the first maximal chain of the enumeration
of the fully extended chains; its value is returned whenever it is above `alpha`. -/
theorem first_chain_FM {σ : Type} (sh : σ → List move_pos → List move_pos × σ)
    (hsh : ∀ s l, (sh s l).1.Perm l) (cfg : Settings) (hd : 0 ≤ cfg.Max_depth) :
    ∀ (fuel : Nat) (L : Logic σ) (mtx : Grid) (color : Bool) (x y : Int) (root : Bool)
      (alpha : ℚ) (j : Nat) (r : ℚ) (ch : List move_pos) (L' : Logic σ), validGrid mtx →
      (root = false → onBoard x y ∧ cell mtx x y ≠ 0) →
      (root = true → ∀ t ∈ L.turns, GoodMove mtx L.have_beats t) →
      firstFuel cfg mtx ≤ fuel → pieces mtx ≤ j → -1 ≤ alpha → alpha ≤ INF →
      first_chain sh cfg fuel L mtx color x y root alpha = some (r, ch, L') →
      (root = false →
        ∃ v, IsFirstMax (chainValue cfg color mtx) (chainsFrom (j + 1) mtx x y) v ch ∧
          (alpha < v → r = v) ∧ (v ≤ alpha → r ≤ alpha)) ∧
      (root = true →
        FirstMax (chainValue cfg color mtx) (rootChains j mtx L.turns L.have_beats) (-1) [] r
          ch) := by
  intro fuel
  induction fuel with
  | zero =>
    intro L mtx color x y root alpha j r ch L' _ _ _ hf
    unfold firstFuel at hf
    omega
  | succ n ih =>
    intro L mtx color x y root alpha j r ch L' hv hxy hroot hf hj ha1 ha2 h
    have hspec := first_chain_spec sh hsh cfg hd (n + 1) L mtx color x y root alpha hv hxy hroot hf
    have hp64 := pieces_le mtx
    have hD : (cfg.Max_depth - ((0 : Nat) : Int)).toNat = cfg.Max_depth.toNat := by simp
    have horig := h
    rw [first_chain] at h
    have hgood : ∀ t ∈ (if root = false then L.find_turns_xy x y mtx else L).turns,
        GoodMove mtx (if root = false then L.find_turns_xy x y mtx else L).have_beats t := by
      intro t ht
      by_cases h : root = false
      · rw [if_pos h] at ht ⊢
        exact find_turns_good hv (hxy h).1 (hxy h).2 ht
      · rw [if_neg h] at ht ⊢
        exact hroot (by simpa using h) t ht
    have hL1t : root = false → (if root = false then L.find_turns_xy x y mtx else L).turns =
        (find_turns x y mtx).turns := fun h => by rw [if_pos h]; rfl
    have hL1b : root = false → (if root = false then L.find_turns_xy x y mtx else L).have_beats =
        (find_turns x y mtx).have_beats := fun h => by rw [if_pos h]; rfl
    have hL1r : root = true → (if root = false then L.find_turns_xy x y mtx else L) = L :=
      fun h => by rw [if_neg (by simp [h])]
    generalize (if root = false then L.find_turns_xy x y mtx else L) = L1
      at h hgood hL1t hL1b hL1r
    by_cases hpass : L1.have_beats = false ∧ root = false
    · rw [if_pos hpass] at h
      cases hr : find_best_turns_rec sh cfg n L1 mtx (!color) 0 alpha (INF + 1) (-1) (-1) with
      | none => rw [hr] at h; simp at h
      | some r1 =>
        obtain ⟨v0, L0⟩ := r1
        rw [hr] at h
        simp only [Option.map_some', Option.some.injEq, Prod.mk.injEq] at h
        obtain ⟨rfl, rfl, _⟩ := h
        obtain ⟨hup, hdown⟩ := rec_entry_bnd sh hsh cfg hd color hv (by
          unfold recFuel; unfold firstFuel at hf
          rw [hD, if_neg (by simp)]; omega) ha1 ha2 hr
        refine ⟨fun _ => ⟨minimaxVal cfg color mtx, ?_, hup, hdown⟩, fun hr => ?_⟩
        · have hnb : (find_turns x y mtx).have_beats = false := by
            rw [← hL1b hpass.2]; exact hpass.1
          rw [chainsFrom, if_pos hnb]
          exact IsFirstMax_single (chainValue cfg color mtx) []
        · rw [hpass.2] at hr; exact absurd hr (by simp)
    · rw [if_neg hpass] at h
      have hFM := chain_loop_FM
        (fun L2 turn best_score =>
          if L1.have_beats = true then
            first_chain sh cfg n L2 (make_turn mtx turn) color turn.x2 turn.y2 false best_score
          else
            (find_best_turns_rec sh cfg n L2 (make_turn mtx turn) (!color) 0 best_score
              (INF + 1) (-1) (-1)).map fun r => (r.1, [], r.2))
        (chainValue cfg color mtx)
        (fun t => if L1.have_beats = true then
            (chainsFrom j (make_turn mtx t) t.x2 t.y2).map fun ch => t :: ch
          else [[t]])
        L1.turns (by
          intro t ht L2 best w sub L2' hb1 hb2 hc
          have hg := hgood t ht
          obtain ⟨hv', hdp, hpc⟩ := make_turn_good hv hg
          have hp64' := pieces_le (make_turn mtx t)
          simp only at hc ⊢
          cases hb : L1.have_beats with
          | true =>
            rw [hb] at hpc hc
            simp only [if_true] at hpc hc ⊢
            cases j with
            | zero => omega
            | succ j' =>
              obtain ⟨v, hI, hup, hdown⟩ := (ih L2 (make_turn mtx t) color t.x2 t.y2 false best
                j' w sub L2' hv' (fun _ => ⟨hg.2.2.1, hdp⟩) (fun h => by simp at h) (by
                  unfold firstFuel at hf ⊢; omega) (by omega) hb1 hb2 hc).1 rfl
              have hI' : IsFirstMax (chainValue cfg color mtx)
                  ((chainsFrom (j' + 1) (make_turn mtx t) t.x2 t.y2).map fun ch => t :: ch) v
                  (t :: sub) := IsFirstMax_map_cons t hI (fun _ => rfl)
              refine ⟨v, hI', ?_, hup, hdown⟩
              rw [← hI'.1]
              exact (chainValue_range cfg color mtx (t :: sub)).2
          | false =>
            rw [hb] at hc
            simp only [Bool.false_eq_true, if_false] at hc ⊢
            cases hr : find_best_turns_rec sh cfg n L2 (make_turn mtx t) (!color) 0 best
                (INF + 1) (-1) (-1) with
            | none => rw [hr] at hc; simp at hc
            | some r1 =>
              obtain ⟨v0, L0⟩ := r1
              rw [hr] at hc
              simp only [Option.map_some', Option.some.injEq, Prod.mk.injEq] at hc
              obtain ⟨rfl, rfl, _⟩ := hc
              obtain ⟨hup, hdown⟩ := rec_entry_bnd sh hsh cfg hd color hv' (by
                unfold recFuel; unfold firstFuel at hf
                rw [hD, if_neg (by simp)]; omega) hb1 hb2 hr
              exact ⟨chainValue cfg color mtx [t], IsFirstMax_single (chainValue cfg color mtx) [t],
                (chainValue_range cfg color mtx [t]).2, hup, hdown⟩)
        L1 (-1) [] r ch L' (le_refl _) (by linarith [INF_pos]) h
      refine ⟨fun hr => ?_, fun hr => ?_⟩
      · have hb : L1.have_beats = true := by
          cases hb : L1.have_beats with
          | true => rfl
          | false => exact absurd ⟨hb, hr⟩ hpass
        have hbt : (find_turns x y mtx).have_beats = true := by rw [← hL1b hr]; exact hb
        obtain ⟨v', ch', L'', hfc, hnr, _⟩ := hspec
        rw [horig] at hfc
        simp only [Option.some.injEq, Prod.mk.injEq] at hfc
        obtain ⟨rfl, rfl, rfl⟩ := hfc
        have hnn : 0 ≤ r := (hnr hr).2 (Or.inr hbt)
        refine ⟨r, ?_, fun _ => rfl, fun h => h⟩
        rcases hFM with ⟨h1, _⟩ | ⟨_, hI⟩
        · rw [h1] at hnn; norm_num at hnn
        · rw [chainsFrom, if_neg (by simp [hbt]), ← hL1t hr]
          simp only [hb, if_true] at hI
          exact hI
      · rw [hL1r hr] at hFM
        exact hFM
/-- The minimax value does not depend on the setting `optimization`. -/
theorem minimax_O0 (cfg : Settings) (c : Bool) :
    ∀ (fuel : Nat) (mtx : Grid) (depth : Nat) (x y : Int),
      minimax { cfg with optimization := "O0" } c fuel mtx depth x y =
        minimax cfg c fuel mtx depth x y := by
  intro fuel
  induction fuel with
  | zero => intro mtx depth x y; rfl
  | succ n ih =>
    intro mtx depth x y
    rw [minimax, minimax]
    simp only [ih]

theorem chainValue_O0 (cfg : Settings) (c : Bool) (mtx : Grid) :
    chainValue { cfg with optimization := "O0" } c mtx = chainValue cfg c mtx := by
  funext ch
  unfold chainValue minimaxVal
  rw [minimax_O0]
  rfl

/-- With no cached candidate the search returns the placeholder move, whatever the
settings. -/
theorem cached_empty {σ : Type} (sh : σ → List move_pos → List move_pos × σ) (cfg : Settings)
    (n : Nat) (L : Logic σ) (hL : L.turns = []) (board : Board) (color : Bool) :
    find_first_best_turn sh cfg (n + 1) L ⟨[], []⟩ board.mtx color (-1) (-1) 0 (-1) =
        some (-1, L, ⟨[⟨-1, -1, -1, -1, -1, -1⟩], [-1]⟩) ∧
      find_best_turns sh cfg (n + 1) L board color =
        some ([⟨-1, -1, -1, -1, -1, -1⟩], L, ⟨[⟨-1, -1, -1, -1, -1, -1⟩], [-1]⟩) := by
  have h1 : find_first_best_turn sh cfg (n + 1) L ⟨[], []⟩ board.mtx color (-1) (-1) 0 (-1) =
      some (-1, L, ⟨[⟨-1, -1, -1, -1, -1, -1⟩], [-1]⟩) := by
    rw [find_first_best_turn]
    simp only [ne_eq, not_true_eq_false, if_false, and_false, hL]
    rw [first_loop]
    rfl
  refine ⟨h1, ?_⟩
  unfold find_best_turns
  rw [h1]
  simp [collect_turns]

/-- Pruning on or off, with candidates cached the search returns the first maximal chain
of the enumeration of the fully extended candidate chains, and `find_first_best_turn`
returns its value. -/
theorem best_turn_FM {σ : Type} (sh : σ → List move_pos → List move_pos × σ)
    (hsh : ∀ s l, (sh s l).1.Perm l) (cfg : Settings) (hd : 0 ≤ cfg.Max_depth) (L : Logic σ)
    (board : Board) (hv : validGrid board.mtx) (color : Bool)
    (hgood : ∀ t ∈ L.turns, GoodMove board.mtx L.have_beats t) (hne : L.turns ≠ [])
    (fuel : Nat) (hf : cfg.Max_depth.toNat * 130 + 194 ≤ fuel) :
    ∃ res v L' P',
      find_first_best_turn sh cfg fuel L ⟨[], []⟩ board.mtx color (-1) (-1) 0 (-1) =
        some (v, L', P') ∧
      find_best_turns sh cfg fuel L board color = some (res, L', P') ∧
      IsFirstMax (chainValue cfg color board.mtx)
        (rootChains 64 board.mtx L.turns L.have_beats) v res := by
  have hp64 := pieces_le board.mtx
  have hfuel : firstFuel cfg board.mtx ≤ fuel := by unfold firstFuel; omega
  obtain ⟨v, ch, L', hfc, _, hr⟩ := first_chain_spec sh hsh cfg hd fuel L board.mtx color (-1)
    (-1) true (-1) hv (fun h => by simp at h) (fun _ => hgood) hfuel
  obtain ⟨hnn, m, rest, hch, _⟩ := hr rfl hne
  have hFM := (first_chain_FM sh hsh cfg hd fuel L board.mtx color (-1) (-1) true (-1) 64 v ch
    L' hv (fun h => by simp at h) (fun _ => hgood) hfuel hp64 (le_refl _)
    (by linarith [INF_pos]) hfc).2 rfl
  obtain ⟨_, hsome⟩ := first_refines sh cfg fuel L ⟨[], []⟩ board.mtx color (-1) (-1) 0 (-1)
    rfl rfl hv (fun h => absurd rfl h) (fun _ => hgood)
  obtain ⟨P', hff, _, _, henc⟩ := hsome v ch L' hfc
  have hI : IsFirstMax (chainValue cfg color board.mtx)
      (rootChains 64 board.mtx L.turns L.have_beats) v ch := by
    rcases hFM with ⟨h1, _⟩ | ⟨_, hI⟩
    · rw [h1] at hnn; norm_num at hnn
    · exact hI
  rw [hch] at henc
  have hlen := Enc_length _ _ henc
  refine ⟨ch, v, L', P', hff, ?_, hI⟩
  unfold find_best_turns
  rw [hff]
  simp only
  have := collect_turns_Enc P' P'.next_move.length 0 m rest henc (by
    simp only [List.length_cons] at hlen; omega)
  simp only [Nat.cast_zero] at this
  rw [this, hch]
  rfl

/-- C21: for the same board, colour, depth limit, scoring mode and cached root candidates
(the moves of `find_turns(color)` on the live board in the order the shuffle left them),
`find_best_turns` with any setting of `optimization`, so with pruning and its `+1` / `-1`
answers at a cutoff, returns the same Turn as with `optimization = "O0"`, and
`find_first_best_turn` returns the same value at the root. This holds whatever order the
shuffle gives to the move lists of the second phase. -/
theorem C21_pruning_same_turn {σ : Type} (sh : σ → List move_pos → List move_pos × σ)
    (hsh : ∀ s l, (sh s l).1.Perm l) (cfg : Settings) (hd : 0 ≤ cfg.Max_depth)
    (L0 : Logic σ) (board : Board) (hv : validGrid board.mtx) (color : Bool) (fuel : Nat)
    (hf : cfg.Max_depth.toNat * 130 + 194 ≤ fuel) :
    ∃ res v LP PP LO PO,
      find_best_turns sh cfg fuel (L0.find_turns_color sh color board.mtx) board color =
        some (res, LP, PP) ∧
      find_best_turns sh { cfg with optimization := "O0" } fuel
        (L0.find_turns_color sh color board.mtx) board color = some (res, LO, PO) ∧
      find_first_best_turn sh cfg fuel (L0.find_turns_color sh color board.mtx) ⟨[], []⟩
        board.mtx color (-1) (-1) 0 (-1) = some (v, LP, PP) ∧
      find_first_best_turn sh { cfg with optimization := "O0" } fuel
        (L0.find_turns_color sh color board.mtx) ⟨[], []⟩ board.mtx color (-1) (-1) 0 (-1) =
        some (v, LO, PO) := by
  have hgood : ∀ t ∈ (L0.find_turns_color sh color board.mtx).turns,
      GoodMove board.mtx (L0.find_turns_color sh color board.mtx).have_beats t :=
    fun t ht => find_turns_color_good sh hsh L0 color hv ht
  generalize L0.find_turns_color sh color board.mtx = L at hgood
  by_cases hne : L.turns = []
  · cases fuel with
    | zero => omega
    | succ n =>
      obtain ⟨a1, a2⟩ := cached_empty sh cfg n L hne board color
      obtain ⟨b1, b2⟩ := cached_empty sh { cfg with optimization := "O0" } n L hne board color
      exact ⟨_, _, _, _, _, _, a2, b2, a1, b1⟩
  · obtain ⟨res, v, LP, PP, p1, p2, pI⟩ :=
      best_turn_FM sh hsh cfg hd L board hv color hgood hne fuel hf
    obtain ⟨res', v', LO, PO, o1, o2, oI⟩ :=
      best_turn_FM sh hsh { cfg with optimization := "O0" } hd L board hv color hgood hne fuel hf
    rw [chainValue_O0] at oI
    obtain ⟨ev, er⟩ := IsFirstMax_unique pI oI
    rw [← ev] at o1
    rw [← er] at o2
    exact ⟨res, v, LP, PP, LO, PO, p2, o2, p1, o1⟩

/-- C21 at the start position: White at depth 2, pruning on ("O1") against "O0". -/
theorem C21_pruning_same_turn_witness :
    (∀ (s : Unit) (l : List move_pos), (noShuffle s l).1.Perm l) ∧
    (0 : Int) ≤ (⟨2, "NumberAndPotential", "O1"⟩ : Settings).Max_depth ∧
    validGrid startBoard.mtx ∧
    ∃ res v LP PP LO PO,
      find_best_turns noShuffle ⟨2, "NumberAndPotential", "O1"⟩ 454
        (freshLogic.find_turns_color noShuffle false startBoard.mtx) startBoard false =
        some (res, LP, PP) ∧
      find_best_turns noShuffle
        { (⟨2, "NumberAndPotential", "O1"⟩ : Settings) with optimization := "O0" } 454
        (freshLogic.find_turns_color noShuffle false startBoard.mtx) startBoard false =
        some (res, LO, PO) ∧
      find_first_best_turn noShuffle ⟨2, "NumberAndPotential", "O1"⟩ 454
        (freshLogic.find_turns_color noShuffle false startBoard.mtx) ⟨[], []⟩
        startBoard.mtx false (-1) (-1) 0 (-1) = some (v, LP, PP) ∧
      find_first_best_turn noShuffle
        { (⟨2, "NumberAndPotential", "O1"⟩ : Settings) with optimization := "O0" } 454
        (freshLogic.find_turns_color noShuffle false startBoard.mtx) ⟨[], []⟩
        startBoard.mtx false (-1) (-1) 0 (-1) = some (v, LO, PO) :=
  ⟨fun _ _ => List.Perm.refl _, by decide, by decide,
    C21_pruning_same_turn noShuffle (fun _ _ => List.Perm.refl _)
      ⟨2, "NumberAndPotential", "O1"⟩ (by decide) freshLogic startBoard (by decide) false 454
      (by decide)⟩

end Checkers
